import Mathlib

set_option maxHeartbeats 2000000
set_option maxRecDepth 8000

namespace Pbzip2

/-! ## Bitstream view of byte buffers

bzip2 bitstreams pack 8 bits into a byte with the most significant bit
first, so a byte slice is read as a stream of bits flowing left to right.
Bytes are modelled as `Nat` together with the predicate `Bytes` stating
that every entry is below 256, mirroring Go's `[]byte`. -/

/-- One byte viewed as its 8 bits, most significant bit first. -/
def byteBits (b : Nat) : List Bool :=
  [b.testBit 7, b.testBit 6, b.testBit 5, b.testBit 4,
   b.testBit 3, b.testBit 2, b.testBit 1, b.testBit 0]

/-- A byte slice viewed as a bitstream, most significant bit of each byte first. -/
def toBits (l : List Nat) : List Bool := (l.map byteBits).flatten

/-- Every entry of the slice is a byte value. -/
def Bytes (l : List Nat) : Prop := ∀ b ∈ l, b < 256

/-- Packing eight bits back into a byte, most significant first. -/
def bitsToByte (l : List Bool) : Nat :=
  l.foldl (fun acc b => 2 * acc + (if b then 1 else 0)) 0

theorem length_byteBits (b : Nat) : (byteBits b).length = 8 := rfl

theorem toBits_nil : toBits [] = [] := rfl

theorem toBits_cons (a : Nat) (l : List Nat) :
    toBits (a :: l) = byteBits a ++ toBits l := by
  simp [toBits]

theorem toBits_append (l₁ l₂ : List Nat) :
    toBits (l₁ ++ l₂) = toBits l₁ ++ toBits l₂ := by
  simp [toBits]

theorem length_toBits (l : List Nat) : (toBits l).length = 8 * l.length := by
  induction l with
  | nil => rfl
  | cons a t ih =>
    rw [toBits_cons]
    simp [length_byteBits, ih]
    ring

theorem bitsToByte_byteBits : ∀ b : Nat, b < 256 → bitsToByte (byteBits b) = b := by
  decide

theorem byteBits_injOn {a b : Nat} (ha : a < 256) (hb : b < 256)
    (h : byteBits a = byteBits b) : a = b := by
  have := bitsToByte_byteBits a ha
  rw [h, bitsToByte_byteBits b hb] at this
  omega

theorem Bytes.cons_iff {a : Nat} {l : List Nat} :
    Bytes (a :: l) ↔ a < 256 ∧ Bytes l := by
  constructor
  · intro h
    exact ⟨h a (List.mem_cons_self a l), fun b hb => h b (List.mem_cons_of_mem a hb)⟩
  · rintro ⟨ha, hl⟩ b hb
    rcases List.mem_cons.mp hb with rfl | hb
    · exact ha
    · exact hl b hb

theorem toBits_inj : ∀ {l₁ l₂ : List Nat}, Bytes l₁ → Bytes l₂ →
    toBits l₁ = toBits l₂ → l₁ = l₂ := by
  intro l₁
  induction l₁ with
  | nil =>
    intro l₂ _ _ h
    cases l₂ with
    | nil => rfl
    | cons b t =>
      have := congrArg List.length h
      rw [length_toBits, length_toBits] at this
      simp at this
  | cons a t ih =>
    intro l₂ h₁ h₂ h
    cases l₂ with
    | nil =>
      have := congrArg List.length h
      rw [length_toBits, length_toBits] at this
      simp at this
    | cons b u =>
      rw [toBits_cons, toBits_cons] at h
      have hlen : (byteBits a).length = (byteBits b).length := by
        rw [length_byteBits, length_byteBits]
      obtain ⟨hhead, htail⟩ := List.append_inj h hlen
      obtain ⟨ha, ht⟩ := Bytes.cons_iff.mp h₁
      obtain ⟨hb, hu⟩ := Bytes.cons_iff.mp h₂
      rw [byteBits_injOn ha hb hhead, ih ht hu htail]

/-! ## ShiftRight (internal/bitstream/bits.go)

The Go loop walks from the end of the slice towards the front, so each
position reads its left neighbour before that neighbour is modified;
functionally `out[i] = (in[i] >> 1) & 0x7f | (in[i-1] & 0x1) << 7` for
`i ≥ 1` and `out[0] = in[0] >> 1`. -/

/-- One loop step of ShiftRight, the pair of Go statements
`input[pos] >>= 1; input[pos] = (input[pos] & 0x7f) | (input[pos-1] & 0x1 << 7)`
acting on the original left neighbour `prev` and current byte `cur`. -/
def srb (prev cur : Nat) : Nat := ((cur >>> 1) &&& 0x7f) ||| ((prev &&& 0x1) <<< 7)

/-- `ShiftRight` shifts the contents of a byte slice, with carry, one
position to the right; the carry is from the least significant bit to
the most significant. (The Go code indexes `input[0]` unconditionally
and so is never called on an empty slice; the empty case here is inert.) -/
def ShiftRight : List Nat → List Nat
  | [] => []
  | a :: rest => (a >>> 1) :: List.zipWith srb (a :: rest) rest

theorem length_zipWith_srb (a : Nat) (rest : List Nat) :
    (List.zipWith srb (a :: rest) rest).length = rest.length := by
  rw [List.length_zipWith]
  simp

theorem length_ShiftRight (l : List Nat) : (ShiftRight l).length = l.length := by
  cases l with
  | nil => rfl
  | cons a rest =>
    rw [ShiftRight]
    simp [length_zipWith_srb]

theorem testBit_eq_false_of_lt_256 {a : Nat} (ha : a < 256) : a.testBit 8 = false := by
  apply Nat.testBit_lt_two_pow
  have h : (256 : Nat) = 2 ^ 8 := by norm_num
  omega

theorem srb_testBit_lt (prev cur i : Nat) (hi : i < 7) :
    (srb prev cur).testBit i = cur.testBit (i + 1) := by
  simp only [srb, Nat.testBit_or, Nat.testBit_and, Nat.testBit_shiftLeft,
    Nat.testBit_shiftRight]
  have h1 : Nat.testBit 127 i = true := by
    rw [show (127 : Nat) = 2 ^ 7 - 1 from by norm_num, Nat.testBit_two_pow_sub_one]
    simpa using hi
  have h2 : decide (7 ≤ i) = false := by simpa using hi
  rw [h1, h2]
  simp [Nat.add_comm]

theorem srb_testBit_seven (prev cur : Nat) :
    (srb prev cur).testBit 7 = prev.testBit 0 := by
  simp only [srb, Nat.testBit_or, Nat.testBit_and, Nat.testBit_shiftLeft,
    Nat.testBit_shiftRight]
  rw [show Nat.testBit 127 7 = false from by decide,
    show (decide (7 ≤ 7)) = true from by decide]
  simp [show (7 - 7 : Nat) = 0 from rfl,
    show Nat.testBit 1 0 = true from by decide]

theorem byteBits_srb (prev cur : Nat) :
    byteBits (srb prev cur) = prev.testBit 0 :: (byteBits cur).dropLast := by
  simp only [byteBits, List.dropLast]
  rw [srb_testBit_seven, srb_testBit_lt prev cur 6 (by omega),
    srb_testBit_lt prev cur 5 (by omega), srb_testBit_lt prev cur 4 (by omega),
    srb_testBit_lt prev cur 3 (by omega), srb_testBit_lt prev cur 2 (by omega),
    srb_testBit_lt prev cur 1 (by omega), srb_testBit_lt prev cur 0 (by omega)]

theorem byteBits_shiftRight_one {a : Nat} (ha : a < 256) :
    byteBits (a >>> 1) = false :: (byteBits a).dropLast := by
  simp only [byteBits, List.dropLast, Nat.testBit_shiftRight]
  rw [show (1 + 7 : Nat) = 8 from rfl, testBit_eq_false_of_lt_256 ha]

theorem byteBits_eq_dropLast_append (a : Nat) :
    (byteBits a).dropLast ++ [a.testBit 0] = byteBits a := rfl

theorem toBits_zipWith_srb (prev : Nat) (l : List Nat) (hne : l ≠ []) :
    toBits (List.zipWith srb (prev :: l) l) =
      prev.testBit 0 :: (toBits l).dropLast := by
  induction l generalizing prev with
  | nil => exact absurd rfl hne
  | cons c t ih =>
    cases t with
    | nil =>
      simp only [List.zipWith, toBits_cons, toBits_nil, List.append_nil,
        byteBits_srb]
    | cons d u =>
      have hstep : List.zipWith srb (prev :: c :: d :: u) (c :: d :: u) =
          srb prev c :: List.zipWith srb (c :: d :: u) (d :: u) := rfl
      rw [hstep, toBits_cons, ih c (by simp), byteBits_srb]
      have hne' : toBits (d :: u) ≠ [] := by
        intro h
        have := congrArg List.length h
        rw [length_toBits] at this
        simp at this
      rw [toBits_cons c (d :: u), List.dropLast_append_of_ne_nil _ hne']
      have : (byteBits c).dropLast ++ c.testBit 0 :: (toBits (d :: u)).dropLast =
          ((byteBits c).dropLast ++ [c.testBit 0]) ++ (toBits (d :: u)).dropLast := by
        simp
      simp only [List.cons_append, this, byteBits_eq_dropLast_append]

/-- Single-shift semantics at the bit level: `ShiftRight` inserts a zero
bit at the front of the stream and drops the final bit. -/
theorem toBits_ShiftRight {l : List Nat} (hB : Bytes l) (hne : l ≠ []) :
    toBits (ShiftRight l) = false :: (toBits l).dropLast := by
  cases l with
  | nil => exact absurd rfl hne
  | cons a rest =>
    obtain ⟨ha, hrest⟩ := Bytes.cons_iff.mp hB
    cases rest with
    | nil =>
      rw [ShiftRight]
      simp only [List.zipWith, toBits_cons, toBits_nil, List.append_nil]
      rw [byteBits_shiftRight_one ha]
    | cons c t =>
      rw [ShiftRight, toBits_cons, toBits_zipWith_srb a (c :: t) (by simp),
        byteBits_shiftRight_one ha, toBits_cons a (c :: t)]
      have hne' : toBits (c :: t) ≠ [] := by
        intro h
        have := congrArg List.length h
        rw [length_toBits] at this
        simp at this
      rw [List.dropLast_append_of_ne_nil _ hne']
      have : (byteBits a).dropLast ++ a.testBit 0 :: (toBits (c :: t)).dropLast =
          ((byteBits a).dropLast ++ [a.testBit 0]) ++ (toBits (c :: t)).dropLast := by
        simp
      simp only [List.cons_append, this, byteBits_eq_dropLast_append]

theorem srb_lt_256 (prev cur : Nat) : srb prev cur < 256 := by
  have h₁ : (cur >>> 1) &&& 0x7f < 2 ^ 8 := by
    have h : (cur >>> 1) &&& 0x7f ≤ 0x7f := Nat.and_le_right
    norm_num at h ⊢
    omega
  have h₂ : (prev &&& 0x1) <<< 7 < 2 ^ 8 := by
    have h : prev &&& 0x1 ≤ 1 := Nat.and_le_right
    have h7 : (prev &&& 0x1) <<< 7 = (prev &&& 0x1) * 128 := by
      rw [Nat.shiftLeft_eq]
    norm_num
    omega
  have h256 : (2 : Nat) ^ 8 = 256 := by norm_num
  exact h256 ▸ Nat.or_lt_two_pow h₁ h₂

theorem Bytes_zipWith_srb : ∀ (l : List Nat) (prev : Nat),
    Bytes (List.zipWith srb (prev :: l) l) := by
  intro l
  induction l with
  | nil => intro prev b hb; simp at hb
  | cons c t ih =>
    intro prev
    have hstep : List.zipWith srb (prev :: c :: t) (c :: t) =
        srb prev c :: List.zipWith srb (c :: t) t := rfl
    rw [hstep, Bytes.cons_iff]
    exact ⟨srb_lt_256 prev c, ih c⟩

theorem Bytes_ShiftRight {l : List Nat} (hB : Bytes l) : Bytes (ShiftRight l) := by
  cases l with
  | nil => exact hB
  | cons a rest =>
    obtain ⟨ha, _⟩ := Bytes.cons_iff.mp hB
    rw [ShiftRight, Bytes.cons_iff]
    refine ⟨?_, Bytes_zipWith_srb rest a⟩
    have h : a >>> 1 = a / 2 := Nat.shiftRight_one a
    omega

/-- `n`-fold application of `ShiftRight`, as done by the shifting loops in
the Go code (`for { buf = ShiftRight(buf) }`). -/
def shiftIter : Nat → List Nat → List Nat
  | 0, l => l
  | n + 1, l => ShiftRight (shiftIter n l)

theorem shiftIter_eq_iterate (n : Nat) (l : List Nat) :
    shiftIter n l = ShiftRight^[n] l := by
  induction n with
  | zero => rfl
  | succ n ih => rw [shiftIter, ih, Function.iterate_succ_apply']

theorem length_shiftIter (n : Nat) (l : List Nat) :
    (shiftIter n l).length = l.length := by
  induction n with
  | zero => rfl
  | succ n ih => rw [shiftIter, length_ShiftRight, ih]

theorem Bytes_shiftIter (n : Nat) {l : List Nat} (hB : Bytes l) :
    Bytes (shiftIter n l) := by
  induction n with
  | zero => exact hB
  | succ n ih => exact Bytes_ShiftRight ih

theorem take_toBits_length {l : List Nat} :
    (toBits l).take (8 * l.length) = toBits l := by
  rw [← length_toBits, List.take_length]

theorem toBits_dropLast {l : List Nat} (hne : l ≠ []) :
    toBits l.dropLast = (toBits l).take (8 * (l.length - 1)) := by
  have hlen : (toBits l.dropLast).length = 8 * (l.length - 1) := by
    rw [length_toBits, List.length_dropLast]
  have hsplit : toBits l = toBits l.dropLast ++ toBits [l.getLast hne] := by
    conv_lhs => rw [← List.dropLast_concat_getLast hne]
    rw [toBits_append]
  rw [hsplit, List.take_append_of_le_length (le_of_eq hlen.symm), ← hlen,
    List.take_length]

/-- Iterated-shift semantics: `n` right shifts prepend `n` zero bits and
drop the final `n` bits of the stream. -/
theorem toBits_shiftIter {l : List Nat} (hB : Bytes l) (hne : l ≠ [])
    (n : Nat) (hn : n ≤ 8 * l.length) :
    toBits (shiftIter n l) =
      List.replicate n false ++ (toBits l).take (8 * l.length - n) := by
  induction n with
  | zero =>
    rw [shiftIter]
    simp [take_toBits_length]
  | succ n ih =>
    have hn' : n ≤ 8 * l.length := by omega
    have hBn := Bytes_shiftIter n hB
    have hnen : shiftIter n l ≠ [] := by
      intro h
      have := congrArg List.length h
      rw [length_shiftIter] at this
      simp at this
      exact hne this
    rw [shiftIter, toBits_ShiftRight hBn hnen, ih hn']
    have htk : (toBits l).take (8 * l.length - n) ≠ [] := by
      intro h
      have := congrArg List.length h
      rw [List.length_take, length_toBits] at this
      simp at this
      omega
    rw [List.dropLast_append_of_ne_nil _ htk]
    rw [List.dropLast_eq_take, List.length_take, length_toBits, List.take_take]
    have h1 : min (min (8 * l.length - n) (8 * l.length) - 1) (8 * l.length - n) =
        8 * l.length - (n + 1) := by omega
    rw [h1, show (false :: (List.replicate n false ++
        (toBits l).take (8 * l.length - (n + 1)))) = (List.replicate (n + 1) false ++
        (toBits l).take (8 * l.length - (n + 1))) from rfl]

theorem Bytes_dropLast {l : List Nat} (hB : Bytes l) : Bytes l.dropLast := by
  intro b hb
  exact hB b (List.dropLast_subset l hb)

/-- C9: a single ShiftRight shifts the buffer one bit to the right with
carry from each byte's least significant bit into the next byte's most
significant bit, and applying ShiftRight 8 times yields the buffer whose
first byte is 0 and whose byte `i` equals the original byte `i - 1` — a
one-byte right shift of the bitstream. (The Go code indexes `input[0]`
and is thus only defined on non-empty buffers.) -/
theorem C9_shiftRight_carry_and_iterate (l : List Nat) (hB : Bytes l) (hne : l ≠ []) :
    toBits (ShiftRight l) = false :: (toBits l).dropLast ∧
    ShiftRight^[8] l = 0 :: l.dropLast := by
  refine ⟨toBits_ShiftRight hB hne, ?_⟩
  have hlen : 1 ≤ l.length := by
    cases l with
    | nil => exact absurd rfl hne
    | cons a t => simp
  have h8 : 8 ≤ 8 * l.length := by omega
  have hbits : toBits (ShiftRight^[8] l) = toBits (0 :: l.dropLast) := by
    rw [← shiftIter_eq_iterate, toBits_shiftIter hB hne 8 h8, toBits_cons,
      toBits_dropLast hne]
    rw [show byteBits 0 = List.replicate 8 false from rfl]
    have : 8 * l.length - 8 = 8 * (l.length - 1) := by omega
    rw [this]
  have hB1 : Bytes (ShiftRight^[8] l) := by
    rw [← shiftIter_eq_iterate]
    exact Bytes_shiftIter 8 hB
  have hB2 : Bytes (0 :: l.dropLast) := by
    rw [Bytes.cons_iff]
    exact ⟨by omega, Bytes_dropLast hB⟩
  exact toBits_inj hB1 hB2 hbits

/-- Witness for C9 at the concrete two-byte buffer `[0xAB, 0xCD]`. -/
theorem C9_witness :
    toBits (ShiftRight [171, 205]) = false :: (toBits [171, 205]).dropLast ∧
    ShiftRight^[8] [171, 205] = 0 :: [171, 205].dropLast :=
  C9_shiftRight_carry_and_iterate [171, 205] (by unfold Bytes; decide) (by decide)

/-! ## Magic constants (internal/bzip2) -/

/-- The bzip2 block magic `31 41 59 26 53 59`. -/
def blockMagic : List Nat := [0x31, 0x41, 0x59, 0x26, 0x53, 0x59]

/-- The bzip2 end-of-stream magic `17 72 45 38 50 90`. -/
def eosMagic : List Nat := [0x17, 0x72, 0x45, 0x38, 0x50, 0x90]

/-- `encoding/binary.BigEndian.Uint32` on a 4-byte slice. -/
def beUint32 (l : List Nat) : Nat :=
  l.getD 0 0 * 16777216 + l.getD 1 0 * 65536 + l.getD 2 0 * 256 + l.getD 3 0

/-- `encoding/binary.LittleEndian.Uint32` on a 4-byte slice. -/
def leUint32 (l : List Nat) : Nat :=
  l.getD 0 0 + l.getD 1 0 * 256 + l.getD 2 0 * 65536 + l.getD 3 0 * 16777216

/-! ## FindTrailingMagicAndCRC (internal/bitstream/bits.go)

`bytes.Index(a, pat) == 0` holds exactly when `pat` is a prefix of `a`,
which is how the two index tests below are rendered. -/

/-- The `for p := 0; p < 7; p++` shifting loop of FindTrailingMagicAndCRC,
with `unaligned` threaded through the iterations. The loop counter `p`
and the remaining iteration count `fuel = 7 - p` are carried separately
so that the recursion is structural; the loop is entered with `fuel = 7`
and `p = 0`, and the `p < 7` guard is exactly `fuel > 0`. -/
def ftmLoop (trailer : List Nat) : Nat → Nat → List Nat → Option (List Nat) × Int × Int
  | 0, _, _ => (none, -1, -1)
  | fuel + 1, p, unaligned =>
    let u := ShiftRight unaligned
    if trailer.isPrefixOf (u.drop 1) then (some ((u.drop 7).take 4), 10, (7 : Int) - p)
    else ftmLoop trailer fuel (p + 1) u

/-- `FindTrailingMagicAndCRC` finds the magic number at the end of the bit
stream by working backwards to allow for up to 7 bits of trailing padding.
It returns the CRC following the trailer as 4 bytes, the number of bytes in
the trailer, and the bit offset of the trailer (`(nil, -1, -1)` on failure). -/
def FindTrailingMagicAndCRC (buf trailer : List Nat) :
    Option (List Nat) × Int × Int :=
  if buf.length < 10 then (none, -1, -1)
  else
    let aligned := buf.drop (buf.length - 10)
    if trailer.isPrefixOf aligned then (some ((aligned.drop 6).take 4), 10, 0)
    else if buf.length < 11 then (none, -1, -1)
    else ftmLoop trailer 7 0 (buf.drop (buf.length - 11))

/-! ## Stream-header parsing (scanner.go parseHeader) -/

/-- Lowercase hex digit, as produced by Go's `%x` formatting. -/
def hexDigit (n : Nat) : Char :=
  if n < 10 then Char.ofNat (48 + n) else Char.ofNat (87 + n)

/-- Go `%x` of a single byte (two lowercase hex digits). -/
def byteToHex (b : Nat) : String := String.mk [hexDigit (b / 16), hexDigit (b % 16)]

/-- Go `%x` of a byte slice. -/
def bytesToHex (l : List Nat) : String := String.join (l.map byteToHex)

/-- Go `%c` of a byte. -/
def charOfByte (b : Nat) : String := String.mk [Char.ofNat b]

/-- Go `%08x` of a uint32: exactly eight lowercase hex digits. -/
def hex8 (n : Nat) : String :=
  String.mk [hexDigit (n / 16 ^ 7 % 16), hexDigit (n / 16 ^ 6 % 16),
    hexDigit (n / 16 ^ 5 % 16), hexDigit (n / 16 ^ 4 % 16),
    hexDigit (n / 16 ^ 3 % 16), hexDigit (n / 16 ^ 2 % 16),
    hexDigit (n / 16 % 16), hexDigit (n % 16)]

/-- `Scanner.parseHeader`: validates the 4-byte stream header
(`BZ`, version `'h'`, block-size selector) and computes the stream block
size `100 * 1000 * int(buf[3]-'0')`. The Go code checks `s < '0' || s > '9'`. -/
def parseHeader (buf : List Nat) : Except String Nat :=
  if ¬ (buf.take 2 = [0x42, 0x5a]) then
    Except.error ("wrong file magic: " ++ bytesToHex (buf.take 2))
  else if buf.getD 2 0 ≠ 104 then
    Except.error ("wrong version: " ++ charOfByte (buf.getD 2 0))
  else if buf.getD 3 0 < 48 ∨ 57 < buf.getD 3 0 then
    Except.error ("bad block size: " ++ charOfByte (buf.getD 3 0))
  else
    Except.ok (100 * 1000 * (buf.getD 3 0 - 48))

/-- C2: the claim states that header validation fails with
`"bad block size: <byte>"` exactly when the selector lies outside
`'1'..'9'`; the code, however, only rejects selectors outside `'0'..'9'`,
so the header `42 5a 68 30` (selector `'0'`) is accepted and the stream
block size is set to 0, contradicting the claim (and the code's own
documentation comment, which says `'1'..'9'`). -/
theorem C2_parseHeader_accepts_selector_zero :
    parseHeader [0x42, 0x5a, 104, 48] = Except.ok 0 := by rfl

/-! ## Stream CRC accumulation (parallel.go) -/

/-- `updateStreamCRC`: `(streamCRC<<1 | streamCRC>>31) ^ blockCRC` on uint32. -/
def updateStreamCRC (streamCRC blockCRC : Nat) : Nat :=
  (((streamCRC <<< 1) % 4294967296) ||| (streamCRC >>> 31)) ^^^ blockCRC

/-- The fields of a `CompressedBlock` consumed by the assembler
(`CompressedBlock` itself is declared outside the sources at hand; the
field set follows its uses in parallel.go and the spec's data model). -/
structure CompressedBlock where
  crc : Nat
  eos : Bool
  streamCRC : Nat

/-- `Decompressor.handlePossibleEOS`: updates the running stream CRC,
checks it against the stored stream CRC on an end-of-stream block
(resetting the running CRC to 0 on success), and returns the new running
stream CRC or the mismatch error. -/
def handlePossibleEOS (streamCRC : Nat) (min : CompressedBlock) : Except String Nat :=
  let s := updateStreamCRC streamCRC min.crc
  if min.eos then
    if s ≠ min.streamCRC then
      Except.error ("mismatched stream CRCs: calculated=0x" ++ hex8 s ++
        " != stored=0x" ++ hex8 min.streamCRC)
    else Except.ok 0
  else Except.ok s

/-- C6: for every block processed by the assembler, handlePossibleEOS
first updates the running stream CRC to `((streamCRC << 1) | (streamCRC
>> 31)) XOR blockCRC`; it returns the mismatch error (with both CRCs
rendered as 8 hex digits) exactly when the block is a stream-end block
whose stored stream CRC differs from the updated value; on a matching
stream-end block the running CRC is reset to 0; and on a non-stream-end
block no error is returned and the running CRC is the updated value. -/
theorem C6_handlePossibleEOS_spec (streamCRC : Nat) (min : CompressedBlock) :
    (updateStreamCRC streamCRC min.crc =
      ((streamCRC * 2 % 4294967296) ||| (streamCRC / 2147483648)) ^^^ min.crc) ∧
    (∀ e, handlePossibleEOS streamCRC min = Except.error e ↔
      (min.eos = true ∧ updateStreamCRC streamCRC min.crc ≠ min.streamCRC ∧
        e = "mismatched stream CRCs: calculated=0x" ++
          hex8 (updateStreamCRC streamCRC min.crc) ++
          " != stored=0x" ++ hex8 min.streamCRC)) ∧
    (min.eos = true → updateStreamCRC streamCRC min.crc = min.streamCRC →
      handlePossibleEOS streamCRC min = Except.ok 0) ∧
    (min.eos = false →
      handlePossibleEOS streamCRC min =
        Except.ok (updateStreamCRC streamCRC min.crc)) := by
  refine ⟨?_, ?_, ?_, ?_⟩
  · rw [updateStreamCRC, Nat.shiftLeft_eq, Nat.shiftRight_eq_div_pow]
  · intro e
    rw [handlePossibleEOS]
    cases h : min.eos with
    | false => simp
    | true =>
      by_cases hc : updateStreamCRC streamCRC min.crc = min.streamCRC
      · simp [hc]
      · simp only [if_true, if_neg hc, ite_true]
        simp [hc]
        exact eq_comm
  · intro he hc
    rw [handlePossibleEOS]
    simp [he, hc]
  · intro he
    rw [handlePossibleEOS]
    simp [he]

/-! ## readCRC (scanner.go) -/

/-- `readCRC`: extracts the 32-bit block CRC that sits `shift` bits into
the block. The Go code guards only `len(block) < 4` before evaluating
`block[:5]`; on a slice of length exactly 4 (capacity 4, as produced by
`make([]byte, 4)` at every call site) that slice expression is out of
range and panics, modelled here as `none`. -/
def readCRC (block : List Nat) (shift : Int) : Option Nat :=
  if block.length < 4 then some 0
  else if block.length < 5 then none
  else
    some (beUint32 ((shiftIter (8 - shift).toNat (block.take 5)).drop 1))

/-- C10: the claim states readCRC is total and that for every slice of
length at least 4 its slice expression `block[:5]` is within bounds; on
the length-4 input `[0, 0, 0, 0]` (capacity 4) the expression
`block[:5]` is out of bounds and the Go code panics, modelled as `none`. -/
theorem C10_readCRC_oob_on_len4 : readCRC [0, 0, 0, 0] 0 = none := by rfl

/-- Witness for C6 on a concrete non-stream-end block. -/
theorem C6_witness :
    handlePossibleEOS 1 ⟨2, false, 5⟩ = Except.ok (updateStreamCRC 1 2) :=
  (C6_handlePossibleEOS_spec 1 ⟨2, false, 5⟩).2.2.2 rfl

/-! ## Scanner.Scan, ordinary (non-EOF) emit path (scanner.go) -/

/-- The scanner state fields written by the emit path of `Scanner.Scan`. -/
structure ScannerState where
  buf : List Nat
  blockCRC : Nat
  bufBitSize : Int
  bufBitOffset : Int
  prevBitOffset : Int
  eos : Bool
  header : List Nat
  trailer : List Nat
  blockSize : Nat

/-- The skipped-EOS detection block of `Scanner.Scan` (lines guarded by
`byteOffset > 4`): if the four bytes before the matched block magic parse
as a stream header and an EOS trailer is found before them, record the
new header, the trailer CRC bytes, `eos = true` and the deferred stream
block size; otherwise leave those fields unchanged. -/
def scanDetectEOS (st : ScannerState) (buf : List Nat) (byteOffset : Int) :
    Bool × List Nat × List Nat × Nat :=
  if byteOffset > 4 then
    let tbuf := buf.drop (byteOffset - 4).toNat
    match parseHeader tbuf with
    | Except.ok blockSize =>
      match FindTrailingMagicAndCRC tbuf eosMagic with
      | (some tr, trailerSize, _) =>
        if trailerSize = 10 then (true, tbuf.take 4, tr, blockSize)
        else (false, st.header, st.trailer, st.blockSize)
      | (none, _, _) => (false, st.header, st.trailer, st.blockSize)
    | Except.error _ => (false, st.header, st.trailer, st.blockSize)
  else (false, st.header, st.trailer, st.blockSize)

/-- The ordinary (non-EOF) emit path of `Scanner.Scan`, entered when
`bitstream.Scan` found the next block magic at `(byteOffset, bitOffset)`
in the peeked buffer `buf`: copies `buf[:sz]` with
`sz = byteOffset + (bitOffset > 0 ? 1 : 0)`, sets the block's bit offset
to the saved `prevBitOffset`, computes `bufBitSize = 8*byteOffset +
bitOffset` minus `prevBitOffset` when positive, extracts the block CRC
(whose possible slice panic is propagated as `none`), and saves
`bitOffset` as the next `prevBitOffset`. -/
def scannerScanEmit (st : ScannerState) (buf : List Nat)
    (byteOffset bitOffset : Int) : Option ScannerState :=
  let sz : Int := byteOffset + (if bitOffset > 0 then 1 else 0)
  let detect := scanDetectEOS st buf byteOffset
  let buf' := buf.take sz.toNat
  match readCRC buf' st.prevBitOffset with
  | none => none
  | some crc =>
    some { buf := buf'
           blockCRC := crc
           bufBitOffset := st.prevBitOffset
           bufBitSize := (byteOffset * 8 + bitOffset) -
             (if st.prevBitOffset > 0 then st.prevBitOffset else 0)
           prevBitOffset := bitOffset
           eos := detect.1
           header := detect.2.1
           trailer := detect.2.2.1
           blockSize := detect.2.2.2 }

/-- C5: whenever the ordinary (non-EOF) emit path of `Scanner.Scan`
completes for a match at `(byteOffset, bitOffset)`, the emitted block's
size in bits equals `8*byteOffset + bitOffset - prevBitOffset`, where
`prevBitOffset` is the saved bit offset at which the current block's
payload begins. -/
theorem C5_scan_sizeInBits (st st' : ScannerState) (buf : List Nat)
    (byteOffset bitOffset : Int) (hprev : 0 ≤ st.prevBitOffset)
    (h : scannerScanEmit st buf byteOffset bitOffset = some st') :
    st'.bufBitSize = 8 * byteOffset + bitOffset - st.prevBitOffset := by
  rw [scannerScanEmit] at h
  rcases hcrc : readCRC (buf.take (byteOffset +
      (if bitOffset > 0 then 1 else 0)).toNat) st.prevBitOffset with _ | crc
  · rw [hcrc] at h
    simp at h
  · rw [hcrc] at h
    simp at h
    rw [← h]
    by_cases hp : st.prevBitOffset > 0
    · simp [hp]
      ring
    · simp [hp]
      have : st.prevBitOffset = 0 := by omega
      rw [this]
      ring

/-- Witness for C5 at a concrete emit: a 6-byte buffer, match at byte 5
with bit offset 3, previous bit offset 2. -/
theorem C5_witness :
    (0 : Int) ≤ (2 : Int) ∧
    ∀ st' : ScannerState,
      scannerScanEmit ⟨[], 0, 0, 0, 2, false, [], [], 0⟩ [1, 2, 3, 4, 5, 6] 5 3 =
        some st' → st'.bufBitSize = 8 * 5 + 3 - 2 := by
  refine ⟨by norm_num, fun st' h => ?_⟩
  exact C5_scan_sizeInBits ⟨[], 0, 0, 0, 2, false, [], [], 0⟩ st' [1, 2, 3, 4, 5, 6]
    5 3 (by norm_num) h

/-! ## BlockReader.Read (internal/bzip2)

The underlying single-block bzip2 decoder (`reader.readBlock`,
`reader.readFromBlock`, CRC accumulation) is a separate component; the
claim concerns only the `Read` wrapper's control flow, so the decoder is
abstracted as an explicit record of operations on an opaque state. -/

/-- Result of one `BlockReader.Read` call: bytes delivered, an error
string, or `io.EOF`. -/
inductive ReadResult where
  | ok (n : Nat)
  | fail (msg : String)
  | eof
deriving DecidableEq

/-- The operations of the underlying single-block decoder used by
`BlockReader.Read`, over an opaque decoder state `σ`. -/
structure BlockDecoder (σ : Type) where
  readBits : σ → Nat → σ
  readBlock : σ → Except String σ
  readFromBlock : σ → Nat → Nat × σ
  updateCRC : σ → Nat → σ
  blockCRC : σ → Nat
  wantBlockCRC : σ → Nat

/-- The `BlockReader` fields threaded through `Read`. -/
structure BlockReaderState (σ : Type) where
  dec : σ
  first : Bool
  start : Nat
  err : Option String

/-- `BlockReader.Read`: returns a stored error if present; on the first
call skips `start` bits and reads the block header; then drains bytes
from the block, and once the block is exhausted (`n = 0` with a nonempty
destination buffer) reports `"block checksum mismatch"` when the
accumulated CRC differs from the stored one and `io.EOF` otherwise. -/
def blockReaderRead {σ : Type} (d : BlockDecoder σ) (br : BlockReaderState σ)
    (bufLen : Nat) : ReadResult × BlockReaderState σ :=
  match br.err with
  | some e => (ReadResult.fail e, br)
  | none =>
    let afterFirst : Except String (BlockReaderState σ) :=
      if br.first then
        match d.readBlock (d.readBits br.dec br.start) with
        | Except.error e => Except.error e
        | Except.ok s2 => Except.ok { br with dec := s2, first := false }
      else Except.ok br
    match afterFirst with
    | Except.error e => (ReadResult.fail e, br)
    | Except.ok br1 =>
      let n := (d.readFromBlock br1.dec bufLen).1
      let s' := (d.readFromBlock br1.dec bufLen).2
      if n > 0 ∨ bufLen = 0 then
        (ReadResult.ok n, { br1 with dec := d.updateCRC s' n })
      else if d.blockCRC s' ≠ d.wantBlockCRC s' then
        (ReadResult.fail "block checksum mismatch", { br1 with dec := s' })
      else
        (ReadResult.eof, { br1 with dec := s' })

/-- C7: once all plaintext bytes of the block have been delivered (the
underlying `readFromBlock` produces 0 bytes into a nonempty buffer and
the reader holds no stored error and is past its first call), the next
`Read` returns the error `"block checksum mismatch"` if and only if the
CRC computed over the emitted plaintext differs from the expected block
CRC, and returns `io.EOF` otherwise. -/
theorem C7_blockReader_crc_check {σ : Type} (d : BlockDecoder σ)
    (br : BlockReaderState σ) (bufLen : Nat) (herr : br.err = none)
    (hfirst : br.first = false) (hdone : (d.readFromBlock br.dec bufLen).1 = 0)
    (hbuf : bufLen ≠ 0) :
    ((blockReaderRead d br bufLen).1 = ReadResult.fail "block checksum mismatch" ↔
      d.blockCRC (d.readFromBlock br.dec bufLen).2 ≠
        d.wantBlockCRC (d.readFromBlock br.dec bufLen).2) ∧
    ((blockReaderRead d br bufLen).1 = ReadResult.eof ↔
      d.blockCRC (d.readFromBlock br.dec bufLen).2 =
        d.wantBlockCRC (d.readFromBlock br.dec bufLen).2) := by
  rw [blockReaderRead, herr, hfirst]
  simp only [if_false, ite_false, Bool.false_eq_true]
  by_cases hcrc : d.blockCRC (d.readFromBlock br.dec bufLen).2 =
      d.wantBlockCRC (d.readFromBlock br.dec bufLen).2 <;>
    simp [hdone, hbuf, hcrc]

/-- Witness for C7 with a trivial decoder over `Unit` whose block CRC is
1 and whose stored CRC is 2. -/
theorem C7_witness :
    ((blockReaderRead ⟨fun s _ => s, fun s => Except.ok s, fun s _ => (0, s),
        fun s _ => s, fun _ => 1, fun _ => 2⟩
      (⟨(), false, 0, none⟩ : BlockReaderState Unit) 1).1 =
        ReadResult.fail "block checksum mismatch" ↔ (1 : Nat) ≠ 2) ∧
    ((blockReaderRead ⟨fun s _ => s, fun s => Except.ok s, fun s _ => (0, s),
        fun s _ => s, fun _ => 1, fun _ => 2⟩
      (⟨(), false, 0, none⟩ : BlockReaderState Unit) 1).1 =
        ReadResult.eof ↔ (1 : Nat) = 2) :=
  C7_blockReader_crc_check ⟨fun s _ => s, fun s => Except.ok s, fun s _ => (0, s),
    fun s _ => s, fun _ => 1, fun _ => 2⟩ ⟨(), false, 0, none⟩ 1 rfl rfl rfl
    (by norm_num)

/-! ## Segment lemmas for the bitstream view -/

theorem toBits_take : ∀ (n : Nat) (l : List Nat),
    toBits (l.take n) = (toBits l).take (8 * n) := by
  intro n
  induction n with
  | zero => intro l; simp [toBits_nil]
  | succ n ih =>
    intro l
    cases l with
    | nil => simp [toBits_nil]
    | cons a t =>
      rw [List.take_succ_cons, toBits_cons, toBits_cons, ih,
        List.take_append_eq_append_take]
      have h1 : (byteBits a).take (8 * (n + 1)) = byteBits a :=
        List.take_of_length_le (by rw [length_byteBits]; omega)
      have h2 : 8 * (n + 1) - (byteBits a).length = 8 * n := by
        rw [length_byteBits]; omega
      rw [h1, h2]

theorem toBits_drop : ∀ (n : Nat) (l : List Nat),
    toBits (l.drop n) = (toBits l).drop (8 * n) := by
  intro n
  induction n with
  | zero => intro l; simp
  | succ n ih =>
    intro l
    cases l with
    | nil => simp [toBits_nil]
    | cons a t =>
      rw [List.drop_succ_cons, toBits_cons, ih, List.drop_append_eq_append_drop]
      have h1 : (byteBits a).drop (8 * (n + 1)) = [] :=
        List.drop_of_length_le (by rw [length_byteBits]; omega)
      have h2 : 8 * (n + 1) - (byteBits a).length = 8 * n := by
        rw [length_byteBits]; omega
      rw [h1, h2, List.nil_append]

theorem Bytes_take (n : Nat) {l : List Nat} (hB : Bytes l) : Bytes (l.take n) :=
  fun b hb => hB b (List.take_subset n l hb)

theorem Bytes_drop (n : Nat) {l : List Nat} (hB : Bytes l) : Bytes (l.drop n) :=
  fun b hb => hB b (List.drop_subset n l hb)

theorem isPrefixOf_eq_take : ∀ (pat x : List Nat),
    pat.isPrefixOf x = true ↔ x.take pat.length = pat := by
  intro pat
  induction pat with
  | nil => intro x; simp
  | cons a as ih =>
    intro x
    cases x with
    | nil => simp
    | cons b bs =>
      rw [List.isPrefixOf_cons₂]
      simp only [List.length_cons, List.take_succ_cons, List.cons.injEq,
        Bool.and_eq_true, beq_iff_eq]
      rw [ih bs]
      constructor
      · rintro ⟨rfl, h⟩; exact ⟨rfl, h⟩
      · rintro ⟨rfl, h⟩; exact ⟨rfl, h⟩

/-! ## FindTrailingMagicAndCRC: amended behaviour (C1) -/

/-- The buffer ends, byte-aligned, with the EOS magic followed by 32 CRC
bits and `k` trailing bits: the 48 magic bits start `80 + k` bits before
the end of the bitstream. -/
def trailerAt (buf : List Nat) (k : Nat) : Prop :=
  80 + k ≤ 8 * buf.length ∧
  ((toBits buf).drop (8 * buf.length - (80 + k))).take 48 = toBits eosMagic

instance instDecidableTrailerAt (buf : List Nat) (k : Nat) :
    Decidable (trailerAt buf k) :=
  decidable_of_iff (80 + k ≤ 8 * buf.length ∧
    ((toBits buf).drop (8 * buf.length - (80 + k))).take 48 = toBits eosMagic)
    Iff.rfl

/-- The EOS magic has no non-trivial overlap with a shifted copy of
itself within a byte. -/
theorem eos_no_self_overlap : ∀ j, 1 ≤ j → j ≤ 7 →
    (toBits eosMagic).drop j ≠ (toBits eosMagic).take (48 - j) := by decide

/-- The 48 bits tested by the `p`-th iteration of the FindTrailingMagicAndCRC
loop are the 48 bits starting `80 + s` bits before the end of the buffer. -/
theorem shifted_window {buf : List Nat} (hB : Bytes buf) (hL : 11 ≤ buf.length)
    (s : Nat) (hs : s ≤ 7) :
    (toBits ((shiftIter s (buf.drop (buf.length - 11))).drop 1)).take 48 =
      ((toBits buf).drop (8 * buf.length - 80 - s)).take 48 := by
  set u0 := buf.drop (buf.length - 11) with hu0
  have hlu : u0.length = 11 := by
    rw [hu0, List.length_drop]; omega
  have hBu : Bytes u0 := Bytes_drop _ hB
  have hneu : u0 ≠ [] := by
    intro h
    rw [h] at hlu
    simp at hlu
  have hbits : toBits u0 = (toBits buf).drop (8 * buf.length - 88) := by
    rw [hu0, toBits_drop]
    have : 8 * (buf.length - 11) = 8 * buf.length - 88 := by omega
    rw [this]
  rw [toBits_drop, toBits_shiftIter hBu hneu s (by omega), show 8 * 1 = 8 from rfl,
    List.drop_append_eq_append_drop]
  have h1 : (List.replicate s false).drop 8 = [] :=
    List.drop_of_length_le (by rw [List.length_replicate]; omega)
  have h2 : (8 - (List.replicate s false).length) = 8 - s := by
    rw [List.length_replicate]
  rw [h1, h2, List.nil_append, List.drop_take, List.take_take, hbits,
    List.drop_drop]
  have h3 : min 48 (8 * u0.length - s - (8 - s)) = 48 := by
    rw [hlu]; omega
  have h4 : 8 * buf.length - 88 + (8 - s) = 8 * buf.length - 80 - s := by omega
  rw [h3, h4]

/-- Byte-level prefix test of the shifted window, characterised at the
bit level. -/
theorem testAt_iff {buf : List Nat} (hB : Bytes buf) (hL : 11 ≤ buf.length)
    (s : Nat) (hs : s ≤ 7) :
    eosMagic.isPrefixOf ((shiftIter s (buf.drop (buf.length - 11))).drop 1) = true ↔
      ((toBits buf).drop (8 * buf.length - 80 - s)).take 48 = toBits eosMagic := by
  set x := (shiftIter s (buf.drop (buf.length - 11))).drop 1 with hx
  have hlx : x.length = 10 := by
    rw [hx, List.length_drop, length_shiftIter, List.length_drop]
    omega
  have hBx : Bytes x := Bytes_drop _ (Bytes_shiftIter _ (Bytes_drop _ hB))
  have hbits : toBits (x.take 6) = (toBits x).take 48 := by
    rw [toBits_take]
  rw [isPrefixOf_eq_take, show eosMagic.length = 6 from rfl]
  constructor
  · intro h
    rw [← shifted_window hB hL s hs, ← hx, ← hbits, h]
  · intro h
    have h6 : toBits (x.take 6) = toBits eosMagic := by
      rw [hbits, ← hx] at *
      rw [shifted_window hB hL s hs] at *
      exact h
    exact toBits_inj (Bytes_take _ hBx) (by unfold Bytes eosMagic; decide) h6

/-- Byte-level prefix test of the byte-aligned tail, characterised at the
bit level. -/
theorem alignedAt_iff {buf : List Nat} (hB : Bytes buf) (hL : 10 ≤ buf.length) :
    eosMagic.isPrefixOf (buf.drop (buf.length - 10)) = true ↔
      ((toBits buf).drop (8 * buf.length - 80)).take 48 = toBits eosMagic := by
  set x := buf.drop (buf.length - 10) with hx
  have hBx : Bytes x := Bytes_drop _ hB
  have hbx : toBits x = (toBits buf).drop (8 * buf.length - 80) := by
    rw [hx, toBits_drop]
    have : 8 * (buf.length - 10) = 8 * buf.length - 80 := by omega
    rw [this]
  have hbits : toBits (x.take 6) = ((toBits buf).drop (8 * buf.length - 80)).take 48 := by
    rw [toBits_take, hbx]
  rw [isPrefixOf_eq_take, show eosMagic.length = 6 from rfl]
  constructor
  · intro h
    rw [← hbits, h]
  · intro h
    have h6 : toBits (x.take 6) = toBits eosMagic := by rw [hbits, h]
    exact toBits_inj (Bytes_take _ hBx) (by unfold Bytes eosMagic; decide) h6

/-- If the trailer sits `80 + k` bits before the end then no window
strictly closer to the byte-aligned end can also match the magic. -/
theorem no_earlier_match {buf : List Nat} (k : Nat) (hk : k ≤ 7)
    (H : trailerAt buf k) {s : Nat} (hsk : s < k) :
    ((toBits buf).drop (8 * buf.length - 80 - s)).take 48 ≠ toBits eosMagic := by
  intro hEq
  obtain ⟨hle, hseg⟩ := H
  set j := k - s with hj
  have hj1 : 1 ≤ j := by omega
  have hj7 : j ≤ 7 := by omega
  apply eos_no_self_overlap j hj1 hj7
  have hdropj : (((toBits buf).drop (8 * buf.length - (80 + k))).take 48).drop j =
      ((toBits buf).drop (8 * buf.length - 80 - s)).take (48 - j) := by
    rw [List.drop_take, List.drop_drop]
    have : 8 * buf.length - (80 + k) + j = 8 * buf.length - 80 - s := by omega
    rw [this]
  have h1 : (toBits eosMagic).drop j =
      ((toBits buf).drop (8 * buf.length - 80 - s)).take (48 - j) := by
    rw [← hseg, hdropj]
  have h2 : ((toBits buf).drop (8 * buf.length - 80 - s)).take (48 - j) =
      (toBits eosMagic).take (48 - j) := by
    rw [← hEq, List.take_take]
    have : min (48 - j) 48 = 48 - j := by omega
    rw [this]
  rw [h1, h2]

theorem ftmLoop_succeed (fuel p : Nat) (u : List Nat)
    (h : eosMagic.isPrefixOf ((ShiftRight u).drop 1) = true) :
    ftmLoop eosMagic (fuel + 1) p u =
      (some (((ShiftRight u).drop 7).take 4), 10, (7 : Int) - p) := by
  simp only [ftmLoop]
  rw [h, if_pos rfl]

theorem ftmLoop_fail (fuel p : Nat) (u : List Nat)
    (h : eosMagic.isPrefixOf ((ShiftRight u).drop 1) = false) :
    ftmLoop eosMagic (fuel + 1) p u = ftmLoop eosMagic fuel (p + 1) (ShiftRight u) := by
  simp only [ftmLoop]
  rw [h, if_neg (by decide)]

theorem ftmLoop_reach (u0 : List Nat) (tgt : Nat) (h1 : 1 ≤ tgt) (h7 : tgt ≤ 7)
    (hfail : ∀ s, 1 ≤ s → s < tgt →
      eosMagic.isPrefixOf ((shiftIter s u0).drop 1) = false)
    (hsucc : eosMagic.isPrefixOf ((shiftIter tgt u0).drop 1) = true) :
    ftmLoop eosMagic 7 0 u0 =
      (some (((shiftIter tgt u0).drop 7).take 4), 10, (8 : Int) - tgt) := by
  suffices haux : ∀ d p, p + d + 1 = tgt →
      ftmLoop eosMagic (7 - p) p (shiftIter p u0) =
        (some (((shiftIter tgt u0).drop 7).take 4), 10, (8 : Int) - tgt) by
    have h := haux (tgt - 1) 0 (by omega)
    rw [show (7 : Nat) - 0 = 7 from rfl, show shiftIter 0 u0 = u0 from rfl] at h
    exact h
  intro d
  induction d with
  | zero =>
    intro p hp
    have hstep : ShiftRight (shiftIter p u0) = shiftIter (p + 1) u0 := rfl
    have hsucc' : eosMagic.isPrefixOf ((ShiftRight (shiftIter p u0)).drop 1) = true := by
      rw [hstep, show p + 1 = tgt from by omega]
      exact hsucc
    have hfuel : 7 - p = (6 - p) + 1 := by omega
    rw [hfuel, ftmLoop_succeed _ _ _ hsucc', hstep, show p + 1 = tgt from by omega]
    simp only [Prod.mk.injEq, true_and]
    omega
  | succ d ih =>
    intro p hp
    have hstep : ShiftRight (shiftIter p u0) = shiftIter (p + 1) u0 := rfl
    have hfail' : eosMagic.isPrefixOf ((ShiftRight (shiftIter p u0)).drop 1) = false := by
      rw [hstep]
      exact hfail (p + 1) (by omega) (by omega)
    have hfuel : 7 - p = (6 - p) + 1 := by omega
    rw [hfuel, ftmLoop_fail _ _ _ hfail', hstep, show (6 : Nat) - p = 7 - (p + 1) from by omega]
    exact ih (p + 1) (by omega)

theorem ftmLoop_all_fail (u0 : List Nat)
    (hfail : ∀ s, 1 ≤ s → s ≤ 7 →
      eosMagic.isPrefixOf ((shiftIter s u0).drop 1) = false) :
    ftmLoop eosMagic 7 0 u0 = (none, -1, -1) := by
  suffices haux : ∀ d p, p + d = 7 →
      ftmLoop eosMagic (7 - p) p (shiftIter p u0) = (none, -1, -1) by
    have h := haux 7 0 rfl
    rw [show (7 : Nat) - 0 = 7 from rfl, show shiftIter 0 u0 = u0 from rfl] at h
    exact h
  intro d
  induction d with
  | zero =>
    intro p hp
    rw [show p = 7 from by omega]
    rfl
  | succ d ih =>
    intro p hp
    have hstep : ShiftRight (shiftIter p u0) = shiftIter (p + 1) u0 := rfl
    have hfail' : eosMagic.isPrefixOf ((ShiftRight (shiftIter p u0)).drop 1) = false := by
      rw [hstep]
      exact hfail (p + 1) (by omega) (by omega)
    have hfuel : 7 - p = (6 - p) + 1 := by omega
    rw [hfuel, ftmLoop_fail _ _ _ hfail', hstep, show (6 : Nat) - p = 7 - (p + 1) from by omega]
    exact ih (p + 1) (by omega)

/-- C1 (amended): for every byte buffer ending, byte-aligned, with the
EOS magic followed by a 32-bit CRC and `k ∈ [0, 7]` trailing padding
bits, `FindTrailingMagicAndCRC(buf, EOS)` returns the 4 CRC bytes,
length 10, and a bit offset equal to `(8 - k) mod 8` — the offset of the
trailer within its first byte — rather than `k`; and it returns
`(nil, -1, -1)` whenever no such trailer (for any `k ∈ [0, 7]`, with
arbitrary padding bit values) ends the buffer. -/
theorem C1_findTrailingMagicAndCRC (buf : List Nat) (hB : Bytes buf) :
    (∀ k, k ≤ 7 → trailerAt buf k →
      ∃ c, FindTrailingMagicAndCRC buf eosMagic =
          (some c, 10, if k = 0 then (0 : Int) else (8 : Int) - k) ∧
        c.length = 4 ∧
        toBits c = ((toBits buf).drop (8 * buf.length - (32 + k))).take 32) ∧
    ((∀ k, k ≤ 7 → ¬ trailerAt buf k) →
      FindTrailingMagicAndCRC buf eosMagic = (none, -1, -1)) := by
  constructor
  · intro k hk H
    obtain ⟨hle, hseg⟩ := H
    rcases Nat.eq_zero_or_pos k with rfl | hk1
    · -- byte-aligned trailer
      have hL : 10 ≤ buf.length := by omega
      have haligned : eosMagic.isPrefixOf (buf.drop (buf.length - 10)) = true := by
        rw [alignedAt_iff hB hL]
        have : 8 * buf.length - 80 = 8 * buf.length - (80 + 0) := by omega
        rw [this]
        exact hseg
      refine ⟨((buf.drop (buf.length - 10)).drop 6).take 4, ?_, ?_, ?_⟩
      · rw [FindTrailingMagicAndCRC, if_neg (by omega), if_pos haligned]
        simp
      · have h10 : (buf.drop (buf.length - 10)).length = 10 := by
          rw [List.length_drop]; omega
        rw [List.length_take, List.length_drop, h10]
        omega
      · rw [toBits_take, toBits_drop, toBits_drop]
        have h1 : 8 * (buf.length - 10) = 8 * buf.length - 80 := by omega
        rw [h1, List.drop_drop]
        have h2 : 8 * buf.length - 80 + 8 * 6 = 8 * buf.length - (32 + 0) := by omega
        rw [h2, show 8 * 4 = 32 from rfl]
    · -- trailer preceded by 8 - k bits within the final 11 bytes
      have hL : 11 ≤ buf.length := by omega
      have haligned : eosMagic.isPrefixOf (buf.drop (buf.length - 10)) = false := by
        rcases h : eosMagic.isPrefixOf (buf.drop (buf.length - 10)) with _ | _
        · rfl
        · exfalso
          rw [alignedAt_iff hB (by omega)] at h
          refine no_earlier_match k hk ⟨hle, hseg⟩ (show 0 < k from hk1) ?_
          have : 8 * buf.length - 80 - 0 = 8 * buf.length - 80 := by omega
          rw [this]
          exact h
      have hreach := ftmLoop_reach (buf.drop (buf.length - 11)) k hk1 hk
        (fun s hs1 hsk => by
          rcases h : eosMagic.isPrefixOf
              ((shiftIter s (buf.drop (buf.length - 11))).drop 1) with _ | _
          · rfl
          · exfalso
            rw [testAt_iff hB hL s (by omega)] at h
            exact no_earlier_match k hk ⟨hle, hseg⟩ hsk h)
        (by
          rw [testAt_iff hB hL k (by omega)]
          have : 8 * buf.length - 80 - k = 8 * buf.length - (80 + k) := by omega
          rw [this]
          exact hseg)
      refine ⟨((shiftIter k (buf.drop (buf.length - 11))).drop 7).take 4, ?_, ?_, ?_⟩
      · rw [FindTrailingMagicAndCRC, if_neg (by omega), if_neg (by rw [haligned]; simp),
          if_neg (by omega), hreach, if_neg (by omega)]
      · rw [List.length_take, List.length_drop, length_shiftIter, List.length_drop]
        omega
      · set u0 := buf.drop (buf.length - 11) with hu0
        have hlu : u0.length = 11 := by rw [hu0, List.length_drop]; omega
        have hBu : Bytes u0 := Bytes_drop _ hB
        have hneu : u0 ≠ [] := by
          intro h
          rw [h] at hlu
          simp at hlu
        have hbitsu : toBits u0 = (toBits buf).drop (8 * buf.length - 88) := by
          rw [hu0, toBits_drop]
          have : 8 * (buf.length - 11) = 8 * buf.length - 88 := by omega
          rw [this]
        rw [toBits_take, toBits_drop, toBits_shiftIter hBu hneu k (by rw [hlu]; omega),
          show 8 * 7 = 56 from rfl, show 8 * 4 = 32 from rfl,
          List.drop_append_eq_append_drop]
        have h1 : (List.replicate k false).drop 56 = [] :=
          List.drop_of_length_le (by rw [List.length_replicate]; omega)
        have h2 : 56 - (List.replicate k false).length = 56 - k := by
          rw [List.length_replicate]
        rw [h1, h2, List.nil_append, List.drop_take, List.take_take, hbitsu,
          List.drop_drop]
        have h3 : min 32 (8 * u0.length - k - (56 - k)) = 32 := by rw [hlu]; omega
        have h4 : 8 * buf.length - 88 + (56 - k) = 8 * buf.length - (32 + k) := by omega
        rw [h3, h4]
  · intro hnone
    by_cases hL10 : buf.length < 10
    · rw [FindTrailingMagicAndCRC, if_pos hL10]
    · have haligned : eosMagic.isPrefixOf (buf.drop (buf.length - 10)) = false := by
        rcases h : eosMagic.isPrefixOf (buf.drop (buf.length - 10)) with _ | _
        · rfl
        · exfalso
          rw [alignedAt_iff hB (by omega)] at h
          refine hnone 0 (by omega) ⟨by omega, ?_⟩
          have : 8 * buf.length - (80 + 0) = 8 * buf.length - 80 := by omega
          rw [this]
          exact h
      by_cases hL11 : buf.length < 11
      · rw [FindTrailingMagicAndCRC, if_neg hL10, if_neg (by rw [haligned]; simp),
          if_pos hL11]
      · have hfail : ∀ s, 1 ≤ s → s ≤ 7 →
            eosMagic.isPrefixOf ((shiftIter s (buf.drop (buf.length - 11))).drop 1)
              = false := by
          intro s hs1 hs7
          rcases h : eosMagic.isPrefixOf
              ((shiftIter s (buf.drop (buf.length - 11))).drop 1) with _ | _
          · rfl
          · exfalso
            rw [testAt_iff hB (by omega) s hs7] at h
            refine hnone s hs7 ⟨by omega, ?_⟩
            have : 8 * buf.length - (80 + s) = 8 * buf.length - 80 - s := by omega
            rw [this]
            exact h
        rw [FindTrailingMagicAndCRC, if_neg hL10, if_neg (by rw [haligned]; simp),
          if_neg hL11, ftmLoop_all_fail _ hfail]

/-- The concrete 11-byte buffer whose bitstream is 7 zero bits, the EOS
magic, the CRC bytes `de ad be ef`, and a single zero padding bit. -/
def c1buf : List Nat := shiftIter 7 (eosMagic ++ [222, 173, 190, 239] ++ [0])

/-- C1 counterexample: `c1buf` ends, byte-aligned, with the EOS magic
followed by a 32-bit CRC and `k = 1` bits of zero padding, yet
`FindTrailingMagicAndCRC(c1buf, EOS)` returns bit offset 7, not the
padding count 1 demanded by the claim. -/
theorem C1_counterexample :
    toBits c1buf = List.replicate 7 false ++ toBits eosMagic ++
      toBits [222, 173, 190, 239] ++ [false] ∧
    FindTrailingMagicAndCRC c1buf eosMagic = (some [222, 173, 190, 239], 10, 7) ∧
    (7 : Int) ≠ 1 := by
  refine ⟨by decide, by decide, by decide⟩

/-- Witness for C1 on a 12-byte all-zero buffer, which contains no EOS
trailer at any padding count. -/
theorem C1_witness :
    FindTrailingMagicAndCRC [0, 0, 0, 0, 0, 0, 0, 0, 0, 0, 0, 0] eosMagic =
      (none, -1, -1) :=
  (C1_findTrailingMagicAndCRC [0, 0, 0, 0, 0, 0, 0, 0, 0, 0, 0, 0]
    (by unfold Bytes; decide)).2 (by decide)

/-! ## Byte-level mask/merge lemmas (OverwriteAtBitOffset, BitWriter) -/

theorem bitsToByte_replicate_false (t : Nat) (l : List Bool) :
    bitsToByte (List.replicate t false ++ l) = bitsToByte l := by
  induction t with
  | zero => rfl
  | succ t ih =>
    rw [List.replicate_succ, List.cons_append]
    exact ih

theorem bitsToByte_lt_two_pow (l : List Bool) : bitsToByte l < 2 ^ l.length := by
  suffices h : ∀ (l : List Bool) (acc : Nat),
      l.foldl (fun acc b => 2 * acc + (if b then 1 else 0)) acc <
        2 ^ l.length * (acc + 1) by
    have := h l 0
    simpa [bitsToByte] using this
  intro l
  induction l with
  | nil => intro acc; simp
  | cons b l ih =>
    intro acc
    rw [List.foldl_cons, List.length_cons]
    have h1 := ih (2 * acc + (if b then 1 else 0))
    have h2 : 2 ^ l.length * (2 * acc + (if b then 1 else 0) + 1) ≤
        2 ^ (l.length + 1) * (acc + 1) := by
      rw [pow_succ]
      rcases b with _ | _ <;> simp <;> ring_nf <;> nlinarith [Nat.one_le_two_pow (n := l.length)]
    omega

theorem bitsToByte_append_replicate_false (l : List Bool) (m : Nat) :
    bitsToByte (l ++ List.replicate m false) = bitsToByte l * 2 ^ m := by
  induction m with
  | zero => simp
  | succ m ih =>
    rw [List.replicate_succ' m false, ← List.append_assoc]
    have h : bitsToByte ((l ++ List.replicate m false) ++ [false]) =
        2 * bitsToByte (l ++ List.replicate m false) := by
      rw [bitsToByte, List.foldl_append]
      simp [bitsToByte]
    rw [h, ih, pow_succ]
    ring

/-- A byte whose eight bits agree with `u` on the top `t` bits and with
`v` on the rest splits as `take t ++ drop t` at the bit-list level. -/
theorem byteBits_split (w u v t : Nat) (ht : t ≤ 8)
    (h : ∀ i, i < 8 → w.testBit i = if 8 - t ≤ i then u.testBit i else v.testBit i) :
    byteBits w = (byteBits u).take t ++ (byteBits v).drop t := by
  have h0 := h 0 (by omega)
  have h1 := h 1 (by omega)
  have h2 := h 2 (by omega)
  have h3 := h 3 (by omega)
  have h4 := h 4 (by omega)
  have h5 := h 5 (by omega)
  have h6 := h 6 (by omega)
  have h7 := h 7 (by omega)
  interval_cases t <;> simp_all [byteBits]

theorem testBit_of_mod_two_pow_eq_zero {z m i : Nat} (hz : z % 2 ^ m = 0)
    (hi : i < m) : z.testBit i = false := by
  obtain ⟨w, rfl⟩ := Nat.dvd_iff_mod_eq_zero.mpr hz
  rw [Nat.testBit_to_div_mod]
  simp only [decide_eq_false_iff_not]
  rw [show m = i + (m - i) from by omega, pow_add, Nat.mul_assoc,
    Nat.mul_div_cancel_left _ (Nat.pos_pow_of_pos i (by omega)),
    show m - i = (m - i - 1) + 1 from by omega, pow_succ, Nat.mul_comm (2 ^ (m - i - 1)) 2,
    Nat.mul_assoc, Nat.mul_mod_right]
  omega

/-- `testBit` of the masked merge `(x & (0xff << (8-t))) | y` used for the
first overwritten byte, for `y` fitting below the mask. -/
theorem firstByte_testBit (x y t : Nat) (ht1 : 1 ≤ t) (ht7 : t ≤ 7)
    (hy : y < 2 ^ (8 - t)) (i : Nat) (hi : i < 8) :
    ((x &&& ((255 <<< (8 - t)) % 256)) ||| y).testBit i =
      if 8 - t ≤ i then x.testBit i else y.testBit i := by
  have hmask : ((255 <<< (8 - t)) % 256).testBit i = decide (8 - t ≤ i) := by
    rw [show (256 : Nat) = 2 ^ 8 from by norm_num, Nat.testBit_mod_two_pow,
      Nat.testBit_shiftLeft, show (255 : Nat) = 2 ^ 8 - 1 from by norm_num,
      Nat.testBit_two_pow_sub_one]
    have : decide (i < 8) = true := by simpa using hi
    have h2 : decide (i - (8 - t) < 8) = true := by
      simp only [decide_eq_true_eq]
      omega
    rw [this, h2]
    simp
  rw [Nat.testBit_or, Nat.testBit_and, hmask]
  by_cases hc : 8 - t ≤ i
  · have hyf : y.testBit i = false :=
      Nat.testBit_lt_two_pow (lt_of_lt_of_le hy (pow_le_pow_right₀ (by omega) hc))
    simp [hc, hyf]
  · have hc' : decide (8 - t ≤ i) = false := by simpa using hc
    simp [hc, hc']

/-- `testBit` of the masked merge `(x & (0xff >> t)) | z` used for the
last overwritten byte, for `z` with its low `8 - t` bits clear. -/
theorem lastByte_testBit (x z t : Nat) (ht1 : 1 ≤ t) (ht7 : t ≤ 7)
    (hz : z % 2 ^ (8 - t) = 0) (i : Nat) (hi : i < 8) :
    ((x &&& (255 >>> t)) ||| z).testBit i =
      if 8 - t ≤ i then z.testBit i else x.testBit i := by
  have hmask : (255 >>> t : Nat).testBit i = decide (i < 8 - t) := by
    rw [Nat.testBit_shiftRight, show (255 : Nat) = 2 ^ 8 - 1 from by norm_num,
      Nat.testBit_two_pow_sub_one]
    by_cases hc : t + i < 8
    · have h1 : decide (t + i < 8) = true := by simpa using hc
      have h2 : decide (i < 8 - t) = true := by
        simp only [decide_eq_true_eq]; omega
      rw [h1, h2]
    · have h1 : decide (t + i < 8) = false := by simpa using hc
      have h2 : decide (i < 8 - t) = false := by
        simp only [decide_eq_false_iff_not]; omega
      rw [h1, h2]
  rw [Nat.testBit_or, Nat.testBit_and, hmask]
  by_cases hc : 8 - t ≤ i
  · have h1 : decide (i < 8 - t) = false := by
      simp only [decide_eq_false_iff_not]; omega
    simp [hc, h1]
  · have hzf : z.testBit i = false := testBit_of_mod_two_pow_eq_zero hz (by omega)
    have h1 : decide (i < 8 - t) = true := by
      simp only [decide_eq_true_eq]; omega
    simp [hc, h1, hzf]

/-! ## OverwriteAtBitOffset (internal/bitstream/bits.go) -/

/-- Go `copy(dst, src)`: overwrites the first `min(len(dst), len(src))`
elements of `dst` with those of `src`, returning the updated `dst`. -/
def goCopy (dst src : List Nat) : List Nat :=
  src.take dst.length ++ dst.drop (min src.length dst.length)

/-- The unaligned branch of `OverwriteAtBitOffset` (reached with
`bitOffset = offset % 8 ≠ 0`): shift `value` right into alignment,
merge the first and last partially-overwritten bytes under masks, and
copy the middle bytes. -/
def overwriteUnaligned (buf : List Nat) (byteOffset bitOffset : Nat)
    (value : List Nat) : List Nat :=
  let shiftedValue := shiftIter bitOffset (value ++ [0])
  let lastByteOffset := byteOffset + value.length
  let firstByteMask := (0xff <<< (8 - bitOffset)) % 256
  let lastByteMask := 0xff >>> bitOffset
  let firstByte := (buf.getD byteOffset 0 &&& firstByteMask) ||| shiftedValue.getD 0 0
  let buf1 := buf.set byteOffset firstByte
  let buf2 := buf1.take (byteOffset + 1) ++
    goCopy (buf1.drop (byteOffset + 1)) ((shiftedValue.drop 1).take (value.length - 1))
  let lastByte := (buf2.getD lastByteOffset 0 &&& lastByteMask) |||
    shiftedValue.getD (shiftedValue.length - 1) 0
  buf2.set lastByteOffset lastByte

/-- `OverwriteAtBitOffset` overwrites the contents of `buf` with `value`
starting at the given bit offset. The Go function panics — modelled as
`none` — when `bitOffset ≠ 0` and either `value` is empty (the slice
expression `shiftedValue[1:len(shiftedValue)-1]` is `[1:0]`, out of
range; the panic happens after `buf[byteOffset]` has already been
clobbered) or `buf[byteOffset]`/`buf[lastByteOffset]` is out of range. -/
def OverwriteAtBitOffset (buf : List Nat) (offset : Nat) (value : List Nat) :
    Option (List Nat) :=
  let byteOffset := offset / 8
  let bitOffset := offset % 8
  if bitOffset = 0 then
    some (buf.take byteOffset ++ goCopy (buf.drop byteOffset) value)
  else if value.length = 0 then none
  else if byteOffset + value.length < buf.length then
    some (overwriteUnaligned buf byteOffset bitOffset value)
  else none

theorem Bytes_append {l₁ l₂ : List Nat} (h₁ : Bytes l₁) (h₂ : Bytes l₂) :
    Bytes (l₁ ++ l₂) := by
  intro b hb
  rcases List.mem_append.mp hb with h | h
  · exact h₁ b h
  · exact h₂ b h

theorem getD_cons_drop {l : List Nat} {i : Nat} (h : i < l.length) :
    l.drop i = l.getD i 0 :: l.drop (i + 1) := by
  rw [List.getD_eq_getElem _ _ h]
  exact List.drop_eq_getElem_cons h

theorem Bytes_getD {l : List Nat} (hB : Bytes l) {i : Nat} (h : i < l.length) :
    l.getD i 0 < 256 := by
  rw [List.getD_eq_getElem _ _ h]
  exact hB _ (List.getElem_mem h)

theorem byteBits_zero : byteBits 0 = List.replicate 8 false := rfl

/-- Bits of the shifted value buffer: `bitOffset` leading zeros, the
value bits, then `8 - bitOffset` trailing zeros. -/
theorem shiftedValue_bits {value : List Nat} (hBv : Bytes value) (t : Nat)
    (ht : t ≤ 8) :
    toBits (shiftIter t (value ++ [0])) =
      List.replicate t false ++ toBits value ++ List.replicate (8 - t) false := by
  have hB0 : Bytes (value ++ [0]) :=
    Bytes_append hBv (fun b hb => by simp at hb; omega)
  have hne : value ++ [0] ≠ [] := by simp
  have hlen : (value ++ [0]).length = value.length + 1 := by simp
  rw [toBits_shiftIter hB0 hne t (by rw [hlen]; omega), toBits_append,
    show toBits [0] = List.replicate 8 false from rfl, hlen,
    List.take_append_eq_append_take]
  have h1 : (toBits value).take (8 * (value.length + 1) - t) = toBits value :=
    List.take_of_length_le (by rw [length_toBits]; omega)
  have h2 : 8 * (value.length + 1) - t - (toBits value).length = 8 - t := by
    rw [length_toBits]; omega
  rw [h1, h2, List.take_replicate, show min (8 - t) 8 = 8 - t from by omega,
    List.append_assoc]

/-- C8 counterexample: with an empty `value` and a non-byte-aligned
offset the Go code evaluates the slice `shiftedValue[1:0]` and panics
(after already clobbering the low bits of `dst[byteOffset]`), so there
is no final state in which the bits of `dst` are unchanged; the claim's
bounds hypothesis `offset + 8*len(value) ≤ 8*len(dst)` holds here. -/
theorem C8_counterexample :
    1 + 8 * List.length ([] : List Nat) ≤ 8 * List.length [255] ∧
    OverwriteAtBitOffset [255] 1 [] = none := by
  constructor
  · decide
  · rfl

/-- Bit-level effect of the unaligned overwrite branch. -/
theorem toBits_overwriteUnaligned (dst value : List Nat) (bo t : Nat)
    (hB : Bytes dst) (hBv : Bytes value) (ht1 : 1 ≤ t) (ht7 : t ≤ 7)
    (hn : 1 ≤ value.length) (hfit : bo + value.length < dst.length) :
    toBits (overwriteUnaligned dst bo t value) =
      (toBits dst).take (8 * bo + t) ++ toBits value ++
        (toBits dst).drop (8 * bo + t + 8 * value.length) := by
  set n := value.length with hn_def
  set L := dst.length with hL_def
  set V := toBits value with hV_def
  set T := toBits dst with hT_def
  have hVlen : V.length = 8 * n := by rw [hV_def, length_toBits]
  set sv := shiftIter t (value ++ [0]) with hsv_def
  have hsv_len : sv.length = n + 1 := by
    rw [hsv_def, length_shiftIter]
    simp
  have hsv_bytes : Bytes sv := by
    rw [hsv_def]
    exact Bytes_shiftIter _ (Bytes_append hBv (fun b hb => by simp at hb; omega))
  have hsv_bits : toBits sv =
      List.replicate t false ++ V ++ List.replicate (8 - t) false :=
    shiftedValue_bits hBv t (by omega)
  -- the first byte of the shifted value
  set sv0 := sv.getD 0 0 with hsv0_def
  have hsv0_cons : sv = sv0 :: sv.drop 1 := by
    have h := @getD_cons_drop sv 0 (by omega)
    rw [List.drop_zero] at h
    exact h
  have hsv0_bits : byteBits sv0 = List.replicate t false ++ V.take (8 - t) := by
    have h8 : byteBits sv0 = (toBits sv).take 8 := by
      conv_rhs => rw [hsv0_cons]
      rw [toBits_cons, List.take_append_of_le_length (by rw [length_byteBits]),
        List.take_of_length_le (by rw [length_byteBits])]
    rw [h8, hsv_bits, List.append_assoc, List.take_append_eq_append_take,
      List.take_replicate, show min 8 t = t from by omega, List.length_replicate,
      List.take_append_of_le_length (by rw [hVlen]; omega)]
  have hsv0_lt : sv0 < 2 ^ (8 - t) := by
    have hlt : sv0 < 256 := Bytes_getD hsv_bytes (by omega)
    have hrt := bitsToByte_byteBits sv0 hlt
    rw [hsv0_bits, bitsToByte_replicate_false] at hrt
    rw [← hrt]
    have := bitsToByte_lt_two_pow (V.take (8 - t))
    have hlen : (V.take (8 - t)).length = 8 - t := by
      rw [List.length_take, hVlen]
      omega
    rw [hlen] at this
    exact this
  -- the last byte of the shifted value
  set svlast := sv.getD n 0 with hsvlast_def
  have hsvlast_bits : byteBits svlast = V.drop (8 * n - t) ++ List.replicate (8 - t) false := by
    have hdec : sv.drop n = svlast :: sv.drop (n + 1) :=
      getD_cons_drop (by omega)
    have hnil : sv.drop (n + 1) = [] :=
      List.drop_of_length_le (by omega)
    have h1 : toBits (sv.drop n) = byteBits svlast := by
      rw [hdec, hnil, toBits_cons, toBits_nil, List.append_nil]
    have h2 : toBits (sv.drop n) = (toBits sv).drop (8 * n) := toBits_drop n sv
    have h3 : (toBits sv).drop (8 * n) =
        V.drop (8 * n - t) ++ List.replicate (8 - t) false := by
      rw [hsv_bits, List.append_assoc, List.drop_append_eq_append_drop,
        List.length_replicate, List.drop_replicate,
        show t - 8 * n = 0 from by omega, List.replicate_zero, List.nil_append,
        List.drop_append_eq_append_drop, hVlen,
        show 8 * n - t - 8 * n = 0 from by omega, List.drop_zero]
    rw [← h1, h2, h3]
  have hsvlast_mod : svlast % 2 ^ (8 - t) = 0 := by
    have hlt : svlast < 256 := Bytes_getD hsv_bytes (by omega)
    have hrt := bitsToByte_byteBits svlast hlt
    rw [hsvlast_bits, bitsToByte_append_replicate_false] at hrt
    rw [← hrt]
    exact Nat.mul_mod_left _ _
  -- the merged first byte
  set fb := ((dst.getD bo 0) &&& ((255 <<< (8 - t)) % 256)) ||| sv0 with hfb_def
  have hfb_bits : byteBits fb =
      (byteBits (dst.getD bo 0)).take t ++ V.take (8 - t) := by
    rw [hfb_def, byteBits_split _ (dst.getD bo 0) sv0 t (by omega)
      (firstByte_testBit _ _ t ht1 ht7 hsv0_lt), hsv0_bits,
      List.drop_append_eq_append_drop, List.drop_replicate, List.length_replicate,
      show t - t = 0 from by omega, List.replicate_zero, List.nil_append,
      List.drop_zero]
  -- the buffer after writing the first byte
  set buf1 := dst.set bo fb with hbuf1_def
  have hbuf1 : buf1 = dst.take bo ++ fb :: dst.drop (bo + 1) := by
    rw [hbuf1_def]
    exact List.set_eq_take_cons_drop fb (by omega)
  have hbuf1_take : buf1.take (bo + 1) = dst.take bo ++ [fb] := by
    rw [hbuf1, List.take_append_eq_append_take, List.length_take,
      show min bo L = bo from by omega, List.take_take,
      show min (bo + 1) bo = bo from by omega,
      show bo + 1 - bo = 1 from by omega]
    simp
  have hbuf1_drop : buf1.drop (bo + 1) = dst.drop (bo + 1) := by
    rw [hbuf1, List.drop_append_eq_append_drop,
      List.drop_of_length_le (show (dst.take bo).length ≤ bo + 1 from by
        rw [List.length_take]; omega),
      List.length_take, show min bo L = bo from by omega,
      show bo + 1 - bo = 1 from by omega]
    simp
  -- the middle bytes of the shifted value
  set mid := (sv.drop 1).take (n - 1) with hmid_def
  have hmid_len : mid.length = n - 1 := by
    rw [hmid_def, List.length_take, List.length_drop, hsv_len]
    omega
  have hmid_bits : toBits mid = (V.drop (8 - t)).take (8 * n - 8) := by
    rw [hmid_def, toBits_take, toBits_drop, hsv_bits, List.append_assoc,
      List.drop_append_eq_append_drop, List.length_replicate, List.drop_replicate,
      show t - 8 * 1 = 0 from by omega, List.replicate_zero, List.nil_append,
      List.drop_append_eq_append_drop, hVlen,
      show 8 * 1 - t - 8 * n = 0 from by omega, List.drop_zero,
      List.take_append_eq_append_take, List.length_drop, hVlen,
      show 8 * (n - 1) - (8 * n - (8 * 1 - t)) = 0 from by omega, List.take_zero,
      List.append_nil, show 8 * (n - 1) = 8 * n - 8 from by omega]
  -- the copy of the middle bytes into the destination
  have hcopy : goCopy (buf1.drop (bo + 1)) mid = mid ++ dst.drop (bo + n) := by
    rw [hbuf1_drop, goCopy, List.length_drop,
      List.take_of_length_le (show mid.length ≤ L - (bo + 1) from by
        rw [hmid_len]; omega),
      hmid_len, show min (n - 1) (L - (bo + 1)) = n - 1 from by omega,
      List.drop_drop, show bo + 1 + (n - 1) = bo + n from by omega]
  set buf2 := buf1.take (bo + 1) ++ goCopy (buf1.drop (bo + 1)) mid with hbuf2_def
  have hbuf2 : buf2 = (dst.take bo ++ fb :: mid) ++ dst.drop (bo + n) := by
    rw [hbuf2_def, hbuf1_take, hcopy]
    simp
  have hpre_len : (dst.take bo ++ fb :: mid).length = bo + n := by
    rw [List.length_append, List.length_take, List.length_cons, hmid_len]
    omega
  have hbuf2_getD : buf2.getD (bo + n) 0 = dst.getD (bo + n) 0 := by
    rw [hbuf2, List.getD_append_right _ _ _ _ (le_of_eq hpre_len), hpre_len,
      show bo + n - (bo + n) = 0 from by omega,
      @getD_cons_drop dst (bo + n) (by omega)]
    simp
  -- the merged last byte
  set lb := ((buf2.getD (bo + n) 0) &&& (255 >>> t)) ||| svlast with hlb_def
  have hlb_bits : byteBits lb =
      V.drop (8 * n - t) ++ (byteBits (dst.getD (bo + n) 0)).drop t := by
    rw [hlb_def, hbuf2_getD, byteBits_split _ svlast (dst.getD (bo + n) 0) t (by omega)
      (lastByte_testBit _ _ t ht1 ht7 hsvlast_mod), hsvlast_bits,
      List.take_append_eq_append_take,
      List.take_of_length_le (show (V.drop (8 * n - t)).length ≤ t from by
        rw [List.length_drop, hVlen]; omega),
      List.length_drop, hVlen, show t - (8 * n - (8 * n - t)) = 0 from by omega,
      List.take_zero, List.append_nil]
  -- the final buffer
  have hbuf2_len : buf2.length = L := by
    rw [hbuf2, List.length_append, hpre_len, List.length_drop]
    omega
  have hout : buf2.set (bo + n) lb =
      (dst.take bo ++ fb :: mid) ++ lb :: dst.drop (bo + n + 1) := by
    rw [List.set_eq_take_cons_drop lb (show bo + n < buf2.length from by
        rw [hbuf2_len]; omega)]
    rw [hbuf2, List.take_left' hpre_len, List.drop_append_eq_append_drop,
      List.drop_of_length_le (show (dst.take bo ++ fb :: mid).length ≤ bo + n + 1 from by
        rw [hpre_len]; omega),
      hpre_len, show bo + n + 1 - (bo + n) = 1 from by omega, List.drop_drop,
      show bo + n + 1 = bo + n + 1 from rfl]
    simp [List.drop_drop, Nat.add_comm]
  -- identify the function's result with the explicit buffer
  have hform : overwriteUnaligned dst bo t value =
      (dst.take bo ++ fb :: mid) ++ lb :: dst.drop (bo + n + 1) := by
    simp only [overwriteUnaligned]
    rw [← hsv_def, ← hsv0_def, hsv_len, show n + 1 - 1 = n from by omega,
      ← hsvlast_def, ← hn_def, ← hfb_def, ← hbuf1_def, ← hmid_def, ← hbuf2_def,
      ← hlb_def]
    exact hout
  -- assemble the bitstreams
  have e1 : T.take (8 * bo) ++ (byteBits (dst.getD bo 0)).take t =
      T.take (8 * bo + t) := by
    rw [List.take_add]
    have h1 : T.drop (8 * bo) = toBits (dst.drop bo) := (toBits_drop bo dst).symm
    rw [h1, @getD_cons_drop dst bo (by omega), toBits_cons,
      List.take_append_of_le_length (by rw [length_byteBits]; omega)]
  have e2 : V.take (8 - t) ++ ((V.drop (8 - t)).take (8 * n - 8) ++
      V.drop (8 * n - t)) = V := by
    have h1 : V.drop (8 * n - t) = (V.drop (8 - t)).drop (8 * n - 8) := by
      rw [List.drop_drop]
      congr 1
      omega
    rw [h1, List.take_append_drop, List.take_append_drop]
  have e3 : (byteBits (dst.getD (bo + n) 0)).drop t ++
      T.drop (8 * (bo + n + 1)) = T.drop (8 * bo + t + 8 * n) := by
    have h1 : T.drop (8 * bo + t + 8 * n) = (T.drop (8 * (bo + n))).drop t := by
      rw [List.drop_drop]
      congr 1
      omega
    have h2 : T.drop (8 * (bo + n)) =
        byteBits (dst.getD (bo + n) 0) ++ toBits (dst.drop (bo + n + 1)) := by
      rw [← toBits_drop, @getD_cons_drop dst (bo + n) (by omega), toBits_cons]
    rw [h1, h2, List.drop_append_eq_append_drop, length_byteBits,
      show t - 8 = 0 from by omega, List.drop_zero, ← toBits_drop]
  rw [hform, toBits_append, toBits_cons, toBits_append, toBits_cons,
    toBits_take, toBits_drop, hfb_bits, hmid_bits, hlb_bits]
  have e123 : (T.take (8 * bo) ++ (byteBits (dst.getD bo 0)).take t) ++
      ((V.take (8 - t) ++ ((V.drop (8 - t)).take (8 * n - 8) ++
        V.drop (8 * n - t))) ++
       ((byteBits (dst.getD (bo + n) 0)).drop t ++ T.drop (8 * (bo + n + 1)))) =
      T.take (8 * bo + t) ++ (V ++ T.drop (8 * bo + t + 8 * n)) := by
    rw [e1, e2, e3]
  simpa only [List.append_assoc] using e123

/-- C8 (amended): for every destination buffer, bit offset and value
slice with `offset + 8*len(value) ≤ 8*len(dst)`, provided the value is
nonempty or the offset byte-aligned (an empty value with unaligned
offset makes the Go code panic on the slice `shiftedValue[1:0]`),
OverwriteAtBitOffset completes and the resulting bits of `dst` are its
original first `offset` bits, then all bits of `value`, then the
original bits from `offset + 8*len(value)` on: the written window holds
`value` and every bit outside it is unchanged. -/
theorem C8_overwriteAtBitOffset (dst value : List Nat) (offset : Nat)
    (hB : Bytes dst) (hBv : Bytes value)
    (hfit : offset + 8 * value.length ≤ 8 * dst.length)
    (hv : offset % 8 = 0 ∨ value ≠ []) :
    (OverwriteAtBitOffset dst offset value).isSome = true ∧
    ∀ out, OverwriteAtBitOffset dst offset value = some out →
      toBits out = (toBits dst).take offset ++ toBits value ++
        (toBits dst).drop (offset + 8 * value.length) := by
  by_cases h0 : offset % 8 = 0
  · have hoff : offset = 8 * (offset / 8) := (Nat.mul_div_cancel' (by omega)).symm
    have hres : OverwriteAtBitOffset dst offset value =
        some (dst.take (offset / 8) ++ goCopy (dst.drop (offset / 8)) value) := by
      rw [OverwriteAtBitOffset]
      simp [h0]
    have hcopy : goCopy (dst.drop (offset / 8)) value =
        value ++ dst.drop (offset / 8 + value.length) := by
      rw [goCopy, List.length_drop,
        List.take_of_length_le (show value.length ≤ dst.length - offset / 8 from by
          omega),
        show min value.length (dst.length - offset / 8) = value.length from by omega,
        List.drop_drop]
    refine ⟨by rw [hres]; rfl, fun out hout => ?_⟩
    rw [hres] at hout
    injection hout with hout
    rw [← hout, hcopy, toBits_append, toBits_append, toBits_take, toBits_drop]
    rw [show 8 * (offset / 8) = offset from hoff.symm,
      show 8 * (offset / 8 + value.length) = offset + 8 * value.length from by omega,
      List.append_assoc]
  · have hne : value ≠ [] := by
      rcases hv with h | h
      · exact absurd h h0
      · exact h
    have hn : 1 ≤ value.length := by
      cases value with
      | nil => exact absurd rfl hne
      | cons a l => simp
    have ht1 : 1 ≤ offset % 8 := by omega
    have ht7 : offset % 8 ≤ 7 := by omega
    have hoff : offset = 8 * (offset / 8) + offset % 8 := by omega
    have hfit' : offset / 8 + value.length < dst.length := by omega
    have hres : OverwriteAtBitOffset dst offset value =
        some (overwriteUnaligned dst (offset / 8) (offset % 8) value) := by
      simp only [OverwriteAtBitOffset]
      rw [if_neg h0, if_neg (show ¬ (value.length = 0) from by omega), if_pos hfit']
    refine ⟨by rw [hres]; rfl, fun out hout => ?_⟩
    rw [hres] at hout
    injection hout with hout
    rw [← hout, toBits_overwriteUnaligned dst value (offset / 8) (offset % 8)
      hB hBv ht1 ht7 hn hfit']
    rw [show 8 * (offset / 8) + offset % 8 = offset from by omega]

/-- Witness for C8: writing the byte `0x3c` four bits into the 3-byte
buffer `f0 0f aa`. -/
theorem C8_witness :
    toBits ((OverwriteAtBitOffset [240, 15, 170] 4 [60]).get (by rfl)) =
      (toBits [240, 15, 170]).take 4 ++ toBits [60] ++
        (toBits [240, 15, 170]).drop (4 + 8 * List.length [60]) :=
  (C8_overwriteAtBitOffset [240, 15, 170] [60] 4 (by unfold Bytes; decide)
    (by unfold Bytes; decide) (by decide) (Or.inr (by decide))).2 _
    (Option.some_get _).symm

/-! ## BitWriter (internal/bitstream/bits.go) -/

/-- `BitWriter` accumulates a bitstream: the first `lenInBits` bits of
`buf` are the significant ones. -/
structure BitWriter where
  buf : List Nat
  lenInBits : Nat

/-- `BitWriter.Init` stores the initial bitstream. `sizeHint` only sizes
the underlying Go buffer (capacity), so it does not affect the contents. -/
def BitWriter.Init (data : List Nat) (lenBits sizeHint : Nat) : BitWriter :=
  ⟨data, lenBits⟩

/-- `copyAndShiftRight`: copy `data` into a buffer one byte longer (the
extra byte receives the bits shifted out) and right-shift it `n` times.
The `lenInBits` argument is unused, as in the Go code. -/
def copyAndShiftRight (n : Nat) (data : List Nat) (lenInBits : Nat) :
    List Nat :=
  shiftIter n (data ++ [0])

/-- `BitWriter.Append` appends `lenBits` bits of `data` starting at bit
`offsetBits`, following the Go branch structure: with a byte-aligned
accumulator (`trailing = 0`) the (possibly shifted) data is appended
whole; otherwise the data is shifted into alignment with the trailing
bits and its first byte is merged into the accumulator's last byte under
the trailing/leading masks. (The Go code indexes `bw.buf[len(bw.buf)-1]`
in the unaligned branch, so it is only defined for a nonempty buffer
there; `trailing ≠ 0` forces `lenInBits ≥ 1`, hence a nonempty buffer,
whenever `lenInBits ≤ 8*len(buf)`.) -/
def BitWriter.Append (bw : BitWriter) (data : List Nat)
    (offsetBits lenBits : Nat) : BitWriter :=
  let trailing := bw.lenInBits % 8
  if trailing = 0 then
    let data' := if offsetBits > 0 then
        (copyAndShiftRight (8 - offsetBits) data lenBits).drop 1
      else data
    ⟨bw.buf ++ data', bw.lenInBits + lenBits⟩
  else
    let data' := if trailing > offsetBits then
        copyAndShiftRight (trailing - offsetBits) data lenBits
      else if offsetBits > trailing then
        (copyAndShiftRight (8 - offsetBits + trailing) data lenBits).drop 1
      else data
    let trailingMask := (0xff <<< (8 - trailing)) % 256
    let leadingMask := 0xff >>> trailing
    let overlap := (bw.buf.getD (bw.buf.length - 1) 0 &&& trailingMask) |||
      (data'.getD 0 0 &&& leadingMask)
    ⟨(bw.buf.set (bw.buf.length - 1) overlap) ++ data'.drop 1,
      bw.lenInBits + lenBits⟩

/-- The accumulator of a `BitWriter` read as a bitstream starting at bit
0: the first `lenInBits` bits of `buf`. -/
def BitWriter.bitstream (bw : BitWriter) : List Bool :=
  (toBits bw.buf).take bw.lenInBits

/-- C4 counterexample: `Init([0xaa, 0xbb], 8, 0)` keeps both bytes of
`data0` in the buffer although only 8 bits are significant; the next
byte-aligned `Append([0xff], 0, 8)` appends after the slack byte `0xbb`,
so the accumulator reads back `0xaa 0xbb`, not `0xaa 0xff` as the claim
requires. -/
theorem C4_counterexample :
    BitWriter.bitstream ((BitWriter.Init [0xaa, 0xbb] 8 0).Append [0xff] 0 8) ≠
      (toBits [0xaa, 0xbb]).take 8 ++ ((toBits [0xff]).drop 0).take 8 := by
  decide

/-- `testBit` of the overlap-byte merge
`(x & (0xff << (8-t))) | (y & (0xff >> t))` used by `Append` to join the
accumulator's trailing bits with the leading bits of the shifted data. -/
theorem overlapByte_testBit (x y t : Nat) (i : Nat) (hi : i < 8) :
    ((x &&& ((255 <<< (8 - t)) % 256)) ||| (y &&& (255 >>> t))).testBit i =
      if 8 - t ≤ i then x.testBit i else y.testBit i := by
  have hmask1 : ((255 <<< (8 - t)) % 256).testBit i = decide (8 - t ≤ i) := by
    rw [show (256 : Nat) = 2 ^ 8 from by norm_num, Nat.testBit_mod_two_pow,
      Nat.testBit_shiftLeft, show (255 : Nat) = 2 ^ 8 - 1 from by norm_num,
      Nat.testBit_two_pow_sub_one]
    have h1 : decide (i < 8) = true := by simpa using hi
    have h2 : decide (i - (8 - t) < 8) = true := by
      simp only [decide_eq_true_eq]
      omega
    rw [h1, h2]
    simp
  have hmask2 : (255 >>> t : Nat).testBit i = decide (i < 8 - t) := by
    rw [Nat.testBit_shiftRight, show (255 : Nat) = 2 ^ 8 - 1 from by norm_num,
      Nat.testBit_two_pow_sub_one]
    by_cases hc : t + i < 8
    · have h1 : decide (t + i < 8) = true := by simpa using hc
      have h2 : decide (i < 8 - t) = true := by
        simp only [decide_eq_true_eq]; omega
      rw [h1, h2]
    · have h1 : decide (t + i < 8) = false := by simpa using hc
      have h2 : decide (i < 8 - t) = false := by
        simp only [decide_eq_false_iff_not]; omega
      rw [h1, h2]
  rw [Nat.testBit_or, Nat.testBit_and, Nat.testBit_and, hmask1, hmask2]
  by_cases hc : 8 - t ≤ i
  · have h2 : decide (i < 8 - t) = false := by
      simp only [decide_eq_false_iff_not]; omega
    have h1 : decide (8 - t ≤ i) = true := by simpa using hc
    rw [h1, h2]
    simp [hc]
  · have h2 : decide (i < 8 - t) = true := by
      simp only [decide_eq_true_eq]; omega
    have h1 : decide (8 - t ≤ i) = false := by simpa using hc
    rw [h1, h2]
    simp [hc]

/-- Go `bw.buf[len(bw.buf)-1] = overlap` on a nonempty buffer replaces
the last element. -/
theorem set_last_eq_dropLast_append (l : List Nat) (h : l ≠ []) (a : Nat) :
    l.set (l.length - 1) a = l.dropLast ++ [a] := by
  have hl : 0 < l.length := List.length_pos.mpr h
  rw [List.set_eq_take_append_cons_drop, if_pos (by omega), List.dropLast_eq_take]
  have hd : l.drop (l.length - 1 + 1) = [] := List.drop_of_length_le (by omega)
  rw [hd]

/-- A nonempty byte list splits, at the bit level, into its `dropLast`
followed by the bits of its last byte (accessed as `getD (length-1)`). -/
theorem toBits_eq_dropLast_append_last (B : List Nat) (hne : B ≠ []) :
    toBits B = toBits B.dropLast ++ byteBits (B.getD (B.length - 1) 0) := by
  have hl : 0 < B.length := List.length_pos.mpr hne
  have hd : B.getD (B.length - 1) 0 = B.getLast hne := by
    rw [List.getD_eq_getElem _ _ (by omega), List.getLast_eq_getElem]
  rw [hd]
  conv_lhs => rw [← List.dropLast_concat_getLast hne]
  rw [toBits_append]
  rw [show toBits [B.getLast hne] = byteBits (B.getLast hne) from by
    simp [toBits]]

/-- The bits of the head of a nonempty byte list are the first 8 bits of
the list. -/
theorem byteBits_getD_head (l : List Nat) (hne : l ≠ []) :
    byteBits (l.getD 0 0) = (toBits l).take 8 := by
  cases l with
  | nil => exact absurd rfl hne
  | cons a t =>
    rw [toBits_cons]
    simp [List.take_append_of_le_length, byteBits]

/-- Recombination of a bitstream split at bit `t` of its first byte. -/
theorem take_eight_drop_append (l : List Bool) (t : Nat) (ht : t ≤ 8) :
    (l.take 8).drop t ++ l.drop 8 = l.drop t := by
  conv_rhs => rw [← List.take_append_drop (8 - t) (l.drop t)]
  rw [List.drop_take, List.drop_drop, show t + (8 - t) = 8 from by omega]

theorem bitstream_mk (buf : List Nat) (len : Nat) :
    (BitWriter.mk buf len).bitstream = (toBits buf).take len := rfl

theorem lenInBits_mk (buf : List Nat) (len : Nat) :
    (BitWriter.mk buf len).lenInBits = len := rfl

/-- Bit-level effect of the overlap merge performed by `Append`'s
unaligned branch: the buffer keeps its `dropLast` bits and the top `t`
bits of its last byte, followed by the data bits from position `t` on. -/
theorem append_merge_bits (B data' : List Nat) (t : Nat)
    (hBne : B ≠ []) (hdne : data' ≠ []) (ht8 : t ≤ 8) :
    toBits ((B.set (B.length - 1)
        ((B.getD (B.length - 1) 0 &&& ((255 <<< (8 - t)) % 256)) |||
         (data'.getD 0 0 &&& (255 >>> t)))) ++ data'.drop 1) =
      toBits B.dropLast ++
        (byteBits (B.getD (B.length - 1) 0)).take t ++
        (toBits data').drop t := by
  have hov : byteBits ((B.getD (B.length - 1) 0 &&& ((255 <<< (8 - t)) % 256)) |||
      (data'.getD 0 0 &&& (255 >>> t))) =
      (byteBits (B.getD (B.length - 1) 0)).take t ++
        (byteBits (data'.getD 0 0)).drop t := by
    apply byteBits_split _ _ _ t ht8
    intro i hi
    exact overlapByte_testBit _ _ t i hi
  rw [set_last_eq_dropLast_append B hBne, toBits_append, toBits_append,
    show toBits [(B.getD (B.length - 1) 0 &&& ((255 <<< (8 - t)) % 256)) |||
      (data'.getD 0 0 &&& (255 >>> t))] =
      byteBits ((B.getD (B.length - 1) 0 &&& ((255 <<< (8 - t)) % 256)) |||
        (data'.getD 0 0 &&& (255 >>> t))) from by simp [toBits],
    hov, byteBits_getD_head data' hdne]
  have hd1 : toBits (data'.drop 1) = (toBits data').drop 8 := by
    rw [toBits_drop, Nat.mul_one]
  rw [hd1]
  conv_rhs => rw [← take_eight_drop_append (toBits data') t ht8]
  simp only [List.append_assoc]

/-- Taking `len + L` bits after the overlap merge yields the old
significant bits followed by `L` bits of the shifted data taken from bit
`t` on, provided `len` ends `t` bits into the last buffer byte. -/
theorem append_unaligned_take (B data' : List Nat) (len L t : Nat)
    (hBne : B ≠ []) (hdne : data' ≠ [])
    (ht8 : t ≤ 8) (hlen : len = 8 * (B.length - 1) + t) :
    (toBits ((B.set (B.length - 1)
        ((B.getD (B.length - 1) 0 &&& ((255 <<< (8 - t)) % 256)) |||
         (data'.getD 0 0 &&& (255 >>> t)))) ++ data'.drop 1)).take (len + L) =
      (toBits B).take len ++ ((toBits data').drop t).take L := by
  rw [append_merge_bits B data' t hBne hdne ht8]
  have hA : (toBits B.dropLast).length = 8 * (B.length - 1) := by
    rw [length_toBits, List.length_dropLast]
  have hT : ((byteBits (B.getD (B.length - 1) 0)).take t).length = t := by
    rw [List.length_take, length_byteBits]; omega
  have hAT : (toBits B.dropLast ++
      (byteBits (B.getD (B.length - 1) 0)).take t).length = len := by
    rw [List.length_append, hA, hT]; omega
  have hAT1 : (toBits B.dropLast ++
      (byteBits (B.getD (B.length - 1) 0)).take t).take (len + L) =
      toBits B.dropLast ++ (byteBits (B.getD (B.length - 1) 0)).take t :=
    List.take_of_length_le (by rw [hAT]; omega)
  have hA2 : (toBits B.dropLast).take len = toBits B.dropLast :=
    List.take_of_length_le (by rw [hA]; omega)
  rw [List.take_append_eq_append_take, hAT1, hAT, Nat.add_sub_cancel_left,
    toBits_eq_dropLast_append_last B hBne,
    List.take_append_eq_append_take, hA2, hA,
    show len - 8 * (B.length - 1) = t from by omega]

/-- Dropping `t ≥ s` bits from the `s`-shifted copy of `data` yields the
bits of `data` from position `t - s` on, followed by the zero slack of
the extra byte. -/
theorem shiftedValue_drop {data : List Nat} (hBd : Bytes data) (s t : Nat)
    (hs8 : s ≤ 8) (hst : s ≤ t) (hfit : t - s ≤ 8 * data.length) :
    (toBits (shiftIter s (data ++ [0]))).drop t =
      (toBits data).drop (t - s) ++ List.replicate (8 - s) false := by
  have e1 : (List.replicate s (false : Bool)).drop t = [] :=
    List.drop_of_length_le (by simpa using hst)
  have e2 : t - (List.replicate s (false : Bool)).length = t - s := by simp
  have e3 : t - (List.replicate s (false : Bool) ++ toBits data).length = 0 := by
    rw [List.length_append, List.length_replicate, length_toBits]; omega
  rw [shiftedValue_bits hBd s hs8, List.drop_append_eq_append_drop,
    List.drop_append_eq_append_drop, e1, e2, e3, List.drop_zero, List.nil_append]

theorem bitstream_def (bw : BitWriter) :
    bw.bitstream = (toBits bw.buf).take bw.lenInBits := rfl

/-- C4 (amended): `Init(data0, len0, hint)` makes the accumulator read
back as the first `len0` bits of `data0`; and a single
`Append(data, offsetBits, lenBits)` on a writer whose buffer carries no
slack beyond the current partial byte (`lenInBits ≤ 8*len(buf) <
lenInBits + 8`) extends the accumulator's bitstream by exactly the
`lenBits` bits of `data` starting at bit `offsetBits`, and grows
`lenInBits` by exactly `lenBits`. (The claim's unrestricted sequential
version is false: `Init` keeps every byte of `data0` even when `len0`
ends before them, and `Append` itself can leave whole slack bytes, after
which the next `Append` writes after the slack instead of at bit
`lenInBits` — see the counterexample.) -/
theorem C4_bitWriter (bw : BitWriter) (data : List Nat)
    (offsetBits lenBits : Nat) (hBd : Bytes data)
    (hlo : bw.lenInBits ≤ 8 * bw.buf.length)
    (hhi : 8 * bw.buf.length < bw.lenInBits + 8)
    (ho : offsetBits ≤ 7)
    (hfit : offsetBits + lenBits ≤ 8 * data.length) :
    (bw.Append data offsetBits lenBits).bitstream =
      bw.bitstream ++ ((toBits data).drop offsetBits).take lenBits ∧
    (bw.Append data offsetBits lenBits).lenInBits = bw.lenInBits + lenBits ∧
    ∀ (data0 : List Nat) (lenBits0 sizeHint : Nat),
      (BitWriter.Init data0 lenBits0 sizeHint).bitstream =
        (toBits data0).take lenBits0 := by
  refine ⟨?_, ?_, fun data0 lenBits0 sizeHint => rfl⟩
  · by_cases ht0 : bw.lenInBits % 8 = 0
    · -- the accumulator is byte-aligned
      have hlen : bw.lenInBits = 8 * bw.buf.length := by omega
      have h1 : (toBits bw.buf).take (bw.lenInBits + lenBits) = toBits bw.buf :=
        List.take_of_length_le (by rw [length_toBits]; omega)
      have h2 : bw.lenInBits + lenBits - (toBits bw.buf).length = lenBits := by
        rw [length_toBits]; omega
      have h3 : bw.bitstream = toBits bw.buf := by
        rw [bitstream_def]
        exact List.take_of_length_le (by rw [length_toBits]; omega)
      by_cases ho0 : offsetBits = 0
      · have hA : bw.Append data offsetBits lenBits =
            ⟨bw.buf ++ data, bw.lenInBits + lenBits⟩ := by
          simp only [BitWriter.Append]
          rw [if_pos ht0, if_neg (show ¬ offsetBits > 0 from by omega)]
        rw [hA, bitstream_mk]
        subst ho0
        rw [toBits_append, List.take_append_eq_append_take, h1, h2, h3,
          List.drop_zero]
      · have hA : bw.Append data offsetBits lenBits =
            ⟨bw.buf ++ (copyAndShiftRight (8 - offsetBits) data lenBits).drop 1,
              bw.lenInBits + lenBits⟩ := by
          simp only [BitWriter.Append]
          rw [if_pos ht0, if_pos (show offsetBits > 0 from by omega)]
        rw [hA, bitstream_mk, toBits_append]
        have hbits :
            toBits ((copyAndShiftRight (8 - offsetBits) data lenBits).drop 1) =
              (toBits data).drop offsetBits ++
                List.replicate offsetBits false := by
          simp only [copyAndShiftRight]
          rw [toBits_drop, Nat.mul_one,
            shiftedValue_drop hBd (8 - offsetBits) 8 (by omega) (by omega)
              (by omega),
            show 8 - (8 - offsetBits) = offsetBits from by omega]
        rw [hbits, List.take_append_eq_append_take, h1, h2,
          List.take_append_of_le_length
            (by rw [List.length_drop, length_toBits]; omega), h3]
    · -- the accumulator ends t = lenInBits % 8 ≠ 0 bits into its last byte
      have hBne : bw.buf ≠ [] := by
        intro h
        have hz : bw.buf.length = 0 := by rw [h]; rfl
        omega
      have hlen : bw.lenInBits = 8 * (bw.buf.length - 1) + bw.lenInBits % 8 := by
        omega
      rcases Nat.lt_trichotomy offsetBits (bw.lenInBits % 8) with hc | hc | hc
      · -- offsetBits < trailing: shift data right by the difference
        have hdne :
            copyAndShiftRight (bw.lenInBits % 8 - offsetBits) data lenBits ≠ [] := by
          apply List.length_pos.mp
          simp only [copyAndShiftRight]
          rw [length_shiftIter, List.length_append]
          simp
        have hA : bw.Append data offsetBits lenBits =
            ⟨bw.buf.set (bw.buf.length - 1)
              ((bw.buf.getD (bw.buf.length - 1) 0 &&&
                  ((255 <<< (8 - bw.lenInBits % 8)) % 256)) |||
               ((copyAndShiftRight (bw.lenInBits % 8 - offsetBits) data
                  lenBits).getD 0 0 &&& (255 >>> (bw.lenInBits % 8)))) ++
              (copyAndShiftRight (bw.lenInBits % 8 - offsetBits) data
                lenBits).drop 1,
             bw.lenInBits + lenBits⟩ := by
          simp only [BitWriter.Append]
          rw [if_neg ht0,
            if_pos (show bw.lenInBits % 8 > offsetBits from by omega)]
        rw [hA, bitstream_mk,
          append_unaligned_take bw.buf
            (copyAndShiftRight (bw.lenInBits % 8 - offsetBits) data lenBits)
            bw.lenInBits lenBits (bw.lenInBits % 8) hBne hdne (by omega) hlen,
          bitstream_def]
        have hdrop :
            (toBits (copyAndShiftRight (bw.lenInBits % 8 - offsetBits) data
              lenBits)).drop (bw.lenInBits % 8) =
            (toBits data).drop offsetBits ++
              List.replicate (8 - (bw.lenInBits % 8 - offsetBits)) false := by
          simp only [copyAndShiftRight]
          rw [shiftedValue_drop hBd (bw.lenInBits % 8 - offsetBits)
              (bw.lenInBits % 8) (by omega) (by omega) (by omega),
            show bw.lenInBits % 8 - (bw.lenInBits % 8 - offsetBits) = offsetBits
              from by omega]
        rw [hdrop, List.take_append_of_le_length
          (by rw [List.length_drop, length_toBits]; omega)]
      · -- offsetBits = trailing: the data is already aligned
        have hn : 1 ≤ data.length := by omega
        have hdne : data ≠ [] := List.length_pos.mp (by omega)
        have hA : bw.Append data offsetBits lenBits =
            ⟨bw.buf.set (bw.buf.length - 1)
              ((bw.buf.getD (bw.buf.length - 1) 0 &&&
                  ((255 <<< (8 - bw.lenInBits % 8)) % 256)) |||
               (data.getD 0 0 &&& (255 >>> (bw.lenInBits % 8)))) ++
              data.drop 1,
             bw.lenInBits + lenBits⟩ := by
          simp only [BitWriter.Append]
          rw [if_neg ht0,
            if_neg (show ¬ bw.lenInBits % 8 > offsetBits from by omega),
            if_neg (show ¬ offsetBits > bw.lenInBits % 8 from by omega)]
        rw [hA, bitstream_mk,
          append_unaligned_take bw.buf data bw.lenInBits lenBits
            (bw.lenInBits % 8) hBne hdne (by omega) hlen,
          bitstream_def, ← hc]
      · -- offsetBits > trailing: shift right by 8 - offsetBits + trailing
        have hdne :
            (copyAndShiftRight (8 - offsetBits + bw.lenInBits % 8) data
              lenBits).drop 1 ≠ [] := by
          apply List.length_pos.mp
          simp only [copyAndShiftRight]
          rw [List.length_drop, length_shiftIter, List.length_append]
          simp only [List.length_cons, List.length_nil]
          omega
        have hA : bw.Append data offsetBits lenBits =
            ⟨bw.buf.set (bw.buf.length - 1)
              ((bw.buf.getD (bw.buf.length - 1) 0 &&&
                  ((255 <<< (8 - bw.lenInBits % 8)) % 256)) |||
               (((copyAndShiftRight (8 - offsetBits + bw.lenInBits % 8) data
                  lenBits).drop 1).getD 0 0 &&& (255 >>> (bw.lenInBits % 8)))) ++
              ((copyAndShiftRight (8 - offsetBits + bw.lenInBits % 8) data
                lenBits).drop 1).drop 1,
             bw.lenInBits + lenBits⟩ := by
          simp only [BitWriter.Append]
          rw [if_neg ht0,
            if_neg (show ¬ bw.lenInBits % 8 > offsetBits from by omega),
            if_pos (show offsetBits > bw.lenInBits % 8 from by omega)]
        rw [hA, bitstream_mk,
          append_unaligned_take bw.buf
            ((copyAndShiftRight (8 - offsetBits + bw.lenInBits % 8) data
              lenBits).drop 1)
            bw.lenInBits lenBits (bw.lenInBits % 8) hBne hdne (by omega) hlen,
          bitstream_def]
        have hdrop :
            (toBits ((copyAndShiftRight (8 - offsetBits + bw.lenInBits % 8)
              data lenBits).drop 1)).drop (bw.lenInBits % 8) =
            (toBits data).drop offsetBits ++
              List.replicate (8 - (8 - offsetBits + bw.lenInBits % 8)) false := by
          simp only [copyAndShiftRight]
          rw [toBits_drop, Nat.mul_one, List.drop_drop,
            shiftedValue_drop hBd (8 - offsetBits + bw.lenInBits % 8)
              (8 + bw.lenInBits % 8) (by omega) (by omega) (by omega),
            show 8 + bw.lenInBits % 8 - (8 - offsetBits + bw.lenInBits % 8) =
              offsetBits from by omega]
        rw [hdrop, List.take_append_of_le_length
          (by rw [List.length_drop, length_toBits]; omega)]
  · simp only [BitWriter.Append]
    by_cases ht0 : bw.lenInBits % 8 = 0
    · rw [if_pos ht0]
    · rw [if_neg ht0]

theorem C4_witness :
    ((BitWriter.mk [171] 3).Append [197] 2 5).bitstream =
      (BitWriter.mk [171] 3).bitstream ++ ((toBits [197]).drop 2).take 5 :=
  (C4_bitWriter (BitWriter.mk [171] 3) [197] 2 5 (by unfold Bytes; decide)
    (by decide) (by decide) (by decide) (by decide)).1

/-! ## Scan and its lookup tables (internal/bitstream/bits.go)

The byte-level effect of `s` right shifts: every byte (except the
first) becomes the low `s` bits of its left neighbour followed by the
high `8 - s` bits of itself. `sb hi lo s` is that merged byte. -/

/-- Byte value after `s` right shifts of the stream: low `s` bits of the
left neighbour `hi` over the high `8 - s` bits of `lo`. -/
def sb (hi lo s : Nat) : Nat := ((hi % 2 ^ s) <<< (8 - s)) ||| (lo >>> s)

theorem testBit_false_of_lt_256 {a : Nat} (ha : a < 256) {k : Nat} (hk : 8 ≤ k) :
    a.testBit k = false := by
  apply Nat.testBit_lt_two_pow
  calc a < 256 := ha
    _ = 2 ^ 8 := by norm_num
    _ ≤ 2 ^ k := pow_le_pow_right₀ (by omega) hk

theorem sb_zero (hi lo : Nat) : sb hi lo 0 = lo := by
  simp [sb, Nat.mod_one]

theorem sb_testBit (hi lo s : Nat) (hlo : lo < 256) (hs : s ≤ 8) (k : Nat)
    (hk : k < 8) :
    (sb hi lo s).testBit k =
      if 8 - s ≤ k then hi.testBit (k - (8 - s)) else lo.testBit (s + k) := by
  simp only [sb, Nat.testBit_or, Nat.testBit_shiftLeft, Nat.testBit_shiftRight,
    Nat.testBit_mod_two_pow]
  by_cases hc : 8 - s ≤ k
  · have h1 : decide (8 - s ≤ k) = true := by simpa using hc
    have h2 : decide (k - (8 - s) < s) = true := by
      simp only [decide_eq_true_eq]; omega
    have h3 : lo.testBit (s + k) = false :=
      testBit_false_of_lt_256 hlo (by omega)
    rw [h1, h2, h3, if_pos hc]
    simp
  · have h1 : decide (8 - s ≤ k) = false := by simpa using hc
    rw [h1, if_neg hc]
    simp

theorem sb_lt_256 (hi lo s : Nat) (hlo : lo < 256) (hs : s ≤ 8) :
    sb hi lo s < 256 := by
  have h256 : (256 : Nat) = 2 ^ 8 := by norm_num
  rw [sb, h256]
  apply Nat.or_lt_two_pow
  · rw [Nat.shiftLeft_eq]
    calc (hi % 2 ^ s) * 2 ^ (8 - s) < 2 ^ s * 2 ^ (8 - s) := by
          apply Nat.mul_lt_mul_of_lt_of_le
          · exact Nat.mod_lt _ (Nat.pos_pow_of_pos _ (by omega))
          · exact le_refl _
          · exact Nat.pos_pow_of_pos _ (by omega)
      _ = 2 ^ 8 := by rw [← pow_add]; congr 1; omega
  · rw [Nat.shiftRight_eq_div_pow]
    exact lt_of_le_of_lt (Nat.div_le_self _ _) (h256 ▸ hlo)

/-- One `ShiftRight` step advances the byte closed form from `s` to
`s + 1` shifts, for any left operand with the right parity. -/
theorem srb_step (p y z s : Nat) (hz : z < 256) (hs : s ≤ 7)
    (hp : p.testBit 0 = y.testBit s) :
    srb p (sb y z s) = sb y z (s + 1) := by
  apply Nat.eq_of_testBit_eq
  intro k
  rcases lt_trichotomy k 7 with hk | hk | hk
  · rw [srb_testBit_lt _ _ _ hk, sb_testBit y z s hz (by omega) (k + 1) (by omega),
      sb_testBit y z (s + 1) hz (by omega) k (by omega)]
    by_cases hc : 8 - (s + 1) ≤ k
    · rw [if_pos (show 8 - s ≤ k + 1 from by omega), if_pos hc]
      congr 1
      omega
    · rw [if_neg (show ¬ 8 - s ≤ k + 1 from by omega), if_neg hc]
      congr 1
      omega
  · subst hk
    rw [srb_testBit_seven, hp, sb_testBit y z (s + 1) hz (by omega) 7 (by omega),
      if_pos (show 8 - (s + 1) ≤ 7 from by omega)]
    congr 1
    omega
  · rw [testBit_false_of_lt_256 (srb_lt_256 _ _) (by omega),
      testBit_false_of_lt_256 (sb_lt_256 y z (s + 1) hz (by omega)) (by omega)]

theorem zipWith_snd : ∀ (l t : List Nat), t.length ≤ l.length →
    List.zipWith (fun _ lo => lo) l t = t := by
  intro l t
  induction t generalizing l with
  | nil => intro _; simp
  | cons b u ih =>
    intro h
    cases l with
    | nil => simp at h
    | cons a l' =>
      simp only [List.zipWith]
      rw [ih l' (by simpa using h)]

theorem zipWith_sb_zero (l t : List Nat) (h : t.length ≤ l.length) :
    List.zipWith (fun hi lo => sb hi lo 0) l t = t := by
  have he : (fun hi lo => sb hi lo 0) = fun (_ lo : Nat) => lo :=
    funext fun hi => funext fun lo => sb_zero hi lo
  rw [he, zipWith_snd l t h]

theorem zipWith_srb_sb (s : Nat) (hs : s ≤ 7) :
    ∀ (t : List Nat) (x c : Nat), Bytes t → c.testBit 0 = x.testBit s →
      List.zipWith srb (c :: List.zipWith (fun hi lo => sb hi lo s) (x :: t) t)
          (List.zipWith (fun hi lo => sb hi lo s) (x :: t) t) =
        List.zipWith (fun hi lo => sb hi lo (s + 1)) (x :: t) t := by
  intro t
  induction t with
  | nil => intro x c _ _; rfl
  | cons b u ih =>
    intro x c hB hc
    simp only [List.zipWith]
    rw [srb_step c x b s (hB b (by simp)) hs hc,
      ih b (sb x b s) (fun e he => hB e (by simp [he])) (by
        rw [sb_testBit x b s (hB b (by simp)) (by omega) 0 (by omega),
          if_neg (by omega)]
        simp)]

/-- Byte-level closed form of `s` iterated right shifts on a nonempty
byte buffer. -/
theorem shiftIter_byteForm (a : Nat) (t : List Nat) (hB : Bytes (a :: t)) :
    ∀ s, s ≤ 8 → shiftIter s (a :: t) =
      (a >>> s) :: List.zipWith (fun hi lo => sb hi lo s) (a :: t) t := by
  intro s
  induction s with
  | zero =>
    intro _
    rw [shiftIter, Nat.shiftRight_zero, zipWith_sb_zero (a :: t) t (by simp)]
  | succ s ih =>
    intro hs
    rw [shiftIter, ih (by omega), ShiftRight,
      zipWith_srb_sb s (by omega) t a (a >>> s)
        (fun e he => hB e (by simp [he]))
        (by rw [Nat.testBit_shiftRight]; simp)]
    congr 1

theorem shiftIter_six (x0 x1 x2 x3 x4 x5 : Nat)
    (hB : Bytes [x0, x1, x2, x3, x4, x5]) (s : Nat) (hs : s ≤ 8) :
    shiftIter s [x0, x1, x2, x3, x4, x5] =
      [x0 >>> s, sb x0 x1 s, sb x1 x2 s, sb x2 x3 s, sb x3 x4 s, sb x4 x5 s] := by
  rw [shiftIter_byteForm x0 [x1, x2, x3, x4, x5] hB s hs]
  rfl

theorem shiftIter_seven (x0 x1 x2 x3 x4 x5 x6 : Nat)
    (hB : Bytes [x0, x1, x2, x3, x4, x5, x6]) (s : Nat) (hs : s ≤ 8) :
    shiftIter s [x0, x1, x2, x3, x4, x5, x6] =
      [x0 >>> s, sb x0 x1 s, sb x1 x2 s, sb x2 x3 s, sb x3 x4 s, sb x4 x5 s,
        sb x5 x6 s] := by
  rw [shiftIter_byteForm x0 [x1, x2, x3, x4, x5, x6] hB s hs]
  rfl

theorem shiftIter_three (x0 x1 x2 : Nat) (hB : Bytes [x0, x1, x2]) (s : Nat)
    (hs : s ≤ 8) :
    shiftIter s [x0, x1, x2] = [x0 >>> s, sb x0 x1 s, sb x1 x2 s] := by
  rw [shiftIter_byteForm x0 [x1, x2] hB s hs]
  rfl

/-! ### Go maps as functions with last-write-wins insertion -/

/-- Go map insertion `m[k] = v`. -/
def mapUpd (m : Nat → Option Nat) (k v : Nat) : Nat → Option Nat :=
  fun x => if x = k then some v else m x

theorem mapUpd_self (m : Nat → Option Nat) (k v : Nat) : mapUpd m k v k = some v := by
  simp [mapUpd]

/-- A fold of insertions whose keys all avoid `k` leaves `k` unbound. -/
theorem foldl_upd_frame {α : Type} (key val : α → Nat) :
    ∀ (l : List α) (m : Nat → Option Nat) (k : Nat),
      (∀ a ∈ l, key a ≠ k) →
      l.foldl (fun acc a => mapUpd acc (key a) (val a)) m k = m k := by
  intro l
  induction l with
  | nil => intro m k _; rfl
  | cons a t ih =>
    intro m k h
    rw [List.foldl_cons, ih _ _ (fun b hb => h b (by simp [hb]))]
    simp only [mapUpd]
    rw [if_neg (fun he => h a (by simp) he.symm)]

/-- If some insertion writes `k` and every insertion that writes `k`
stores the same value `v`, the final map binds `k` to `v`. -/
theorem foldl_upd_agree {α : Type} (key val : α → Nat) :
    ∀ (l : List α) (m : Nat → Option Nat) (k v : Nat),
      (∃ a ∈ l, key a = k) → (∀ a ∈ l, key a = k → val a = v) →
      l.foldl (fun acc a => mapUpd acc (key a) (val a)) m k = some v := by
  intro l
  induction l with
  | nil => intro m k v hmem _; simp at hmem
  | cons a t ih =>
    intro m k v hmem hagr
    rw [List.foldl_cons]
    by_cases htm : ∃ b ∈ t, key b = k
    · exact ih _ k v htm (fun b hb => hagr b (by simp [hb]))
    · have ha : key a = k := by
        rcases hmem with ⟨b, hb, hkb⟩
        rcases List.mem_cons.mp hb with rfl | hbt
        · exact hkb
        · exact absurd ⟨b, hbt, hkb⟩ htm
      rw [foldl_upd_frame key val t _ k (fun b hb hkb => htm ⟨b, hb, hkb⟩)]
      simp only [mapUpd]
      rw [if_pos ha.symm, hagr a (by simp) ha]

/-- Any binding in the final map comes from one of the insertions (or
from the initial map). -/
theorem foldl_upd_sound {α : Type} (key val : α → Nat) :
    ∀ (l : List α) (m : Nat → Option Nat) (k v : Nat),
      l.foldl (fun acc a => mapUpd acc (key a) (val a)) m k = some v →
      (∃ a ∈ l, key a = k ∧ val a = v) ∨ m k = some v := by
  intro l
  induction l with
  | nil => intro m k v h; exact Or.inr h
  | cons a t ih =>
    intro m k v h
    rw [List.foldl_cons] at h
    rcases ih _ k v h with ⟨b, hb, hkb, hvb⟩ | hm
    · exact Or.inl ⟨b, by simp [hb], hkb, hvb⟩
    · simp only [mapUpd] at hm
      by_cases hka : k = key a
      · rw [if_pos hka] at hm
        exact Or.inl ⟨a, by simp, hka.symm, (Option.some_inj.mp hm)⟩
      · rw [if_neg hka] at hm
        exact Or.inr hm

/-- Nested folds over generated lists flatten to a single fold. -/
theorem foldl_foldl_flatMap {α β γ : Type} (f : γ → β → γ) (g : α → List β) :
    ∀ (l : List α) (init : γ),
      l.foldl (fun acc a => (g a).foldl f acc) init = (l.flatMap g).foldl f init := by
  intro l
  induction l with
  | nil => intro init; rfl
  | cons a t ih =>
    intro init
    rw [List.foldl_cons, List.flatMap_cons, List.foldl_append, ih]

/-- A fold that threads extra state alongside map insertions decouples
into the state fold and a pure insertion fold, provided the state stays
in an invariant region where the inserted keys do not depend on it. -/
theorem foldl_state_decouple {σ α : Type} (g : σ → α → σ) (K : σ → α → Nat)
    (V : α → Nat) (inv : σ → Prop) (K' : α → Nat) :
    ∀ (l : List α) (st : σ) (m : Nat → Option Nat),
      inv st → (∀ x a, inv x → a ∈ l → inv (g x a)) →
      (∀ x a, inv x → a ∈ l → K x a = K' a) →
      l.foldl (fun p a => (g p.1 a, mapUpd p.2 (K p.1 a) (V a))) (st, m) =
        (l.foldl g st, l.foldl (fun acc a => mapUpd acc (K' a) (V a)) m) := by
  intro l
  induction l with
  | nil => intro st m _ _ _; rfl
  | cons a t ih =>
    intro st m h0 hg hK
    rw [List.foldl_cons, List.foldl_cons, List.foldl_cons,
      hK st a h0 (by simp),
      ih (g st a) _ (hg st a h0 (by simp))
        (fun x b hx hb => hg x b hx (by simp [hb]))
        (fun x b hx hb => hK x b hx (by simp [hb]))]

/-! ### AllShiftedValues and Init -/

/-- Key inserted into `secondWordMap` for trailing bytes `i j` after `s`
shifts: the little-endian uint32 of `second[2:]` where
`second = [0, m3, m4, m5, i, j]` shifted right `s` times. -/
def skey (m3 m4 m5 i j s : Nat) : Nat :=
  leUint32 ((shiftIter s [0, m3, m4, m5, i, j]).drop 2)

/-- The `secondWordMap` loop of `AllShiftedValues`: for every `i`, `j`
the six-byte array `[0, m3, m4, m5, i, j]` is rebuilt and its shifts
`s = 0..7` are inserted with value `s` (the `s = 0` insertion happens
before the first `ShiftRight` of the loop body). -/
def secondWordMapOf (m3 m4 m5 : Nat) : Nat → Option Nat :=
  (List.range 256).foldl (fun acc i =>
    (List.range 256).foldl (fun acc2 j =>
      (List.range 8).foldl (fun acc3 s => mapUpd acc3 (skey m3 m4 m5 i j s) s)
        acc2) acc)
    (fun _ => none)

/-- One iteration of the inner `j` loop of the `firstWordMap`
construction at shift `sh`: overwrite the vacated top bits of
`first[0]` with `j` and insert `first[:4]` with value `sh`. -/
def fstep (sh : Nat) (st : List Nat × (Nat → Option Nat)) (j : Nat) :
    List Nat × (Nat → Option Nat) :=
  let f' := st.1.set 0 ((st.1.getD 0 0 &&& (255 >>> sh)) ||| (j <<< (8 - sh)))
  (f', mapUpd st.2 (leUint32 (f'.take 4)) sh)

/-- The `firstWordMap` loop of `AllShiftedValues`, with the mutable
six-byte `first` array threaded through: insert the unshifted four magic
bytes with value 0, then for `shift = 1..7` shift the array right once
and run the inner `j` loop for every `j < 2^shift`. -/
def firstWordMapOf (m0 m1 m2 m3 : Nat) : Nat → Option Nat :=
  ((List.range 7).foldl (fun st k =>
      (List.range (2 ^ (k + 1))).foldl (fstep (k + 1)) (ShiftRight st.1, st.2))
    ([m0, m1, m2, m3, 0, 0],
     mapUpd (fun _ => none) (leUint32 [m0, m1, m2, m3]) 0)).2

/-- `AllShiftedValues` returns the two lookup tables. -/
def AllShiftedValues (magic : List Nat) : (Nat → Option Nat) × (Nat → Option Nat) :=
  (firstWordMapOf (magic.getD 0 0) (magic.getD 1 0) (magic.getD 2 0) (magic.getD 3 0),
   secondWordMapOf (magic.getD 3 0) (magic.getD 4 0) (magic.getD 5 0))

/-- One step of the pretest construction: mark `t2[1]`, then shift. -/
def ptstep (st : List Nat × (Nat → Bool)) (j : Nat) : List Nat × (Nat → Bool) :=
  (ShiftRight st.1, fun x => if x = st.1.getD 1 0 then true else st.2 x)

/-- The pretest table of `Init`: starting from `t2 = magic[0:3]`, eight
times mark `t2[1]` and shift `t2` right once. -/
def pretestOf (m0 m1 m2 : Nat) : Nat → Bool :=
  ((List.range 8).foldl ptstep ([m0, m1, m2], fun _ => false)).2

/-- `Init` builds the pretest table and the two word maps for a magic. -/
def Init (magic : List Nat) :
    (Nat → Bool) × (Nat → Option Nat) × (Nat → Option Nat) :=
  (pretestOf (magic.getD 0 0) (magic.getD 1 0) (magic.getD 2 0),
   AllShiftedValues magic)

/-! ### Scan -/

/-- The second lookup word `nv` assembled by `Scan` at position `npos`:
the switch on `len(input) - npos` zero-pads a truncated window (and
leaves `nv = 0` when fewer than two bytes remain). -/
def scanNV (input : List Nat) (npos : Nat) : Nat :=
  if input.length - npos = 0 ∨ input.length - npos = 1 then 0
  else if input.length - npos = 2 then
    leUint32 [input.getD npos 0, input.getD (npos + 1) 0, 0, 0]
  else if input.length - npos = 3 then
    leUint32 [input.getD npos 0, input.getD (npos + 1) 0,
      input.getD (npos + 2) 0, 0]
  else leUint32 ((input.drop npos).take 4)

/-- The scan loop of `Scan`. `pos` only ever grows by one per
non-returning iteration (a failed test rewinds by one and skips two),
so the loop is driven by explicit fuel; it is entered with `pos = 1`
and fuel `len(input) + 1`, which can never be exhausted before the
`pos+4 > len(input)` exit. -/
def scanLoop (pretest : Nat → Bool) (first second : Nat → Option Nat)
    (input : List Nat) : Nat → Nat → Int × Int
  | 0, _ => (-1, -1)
  | fuel + 1, pos =>
    if pos + 4 > input.length then (-1, -1)
    else if ¬ pretest (input.getD pos 0) then
      scanLoop pretest first second input fuel (pos + 1)
    else
      match first (leUint32 ((input.drop (pos - 1)).take 4)) with
      | none => scanLoop pretest first second input fuel (pos + 1)
      | some shift =>
        match second (scanNV input (pos + 3)) with
        | none => scanLoop pretest first second input fuel (pos + 1)
        | some s =>
          if s ≠ shift then scanLoop pretest first second input fuel (pos + 1)
          else (Int.ofNat (pos - 1), Int.ofNat shift)

/-- `Scan` over the three lookup tables: returns the byte offset of the
first byte containing magic bits and the bit offset within that byte,
or `(-1, -1)`. -/
def Scan (pretest : Nat → Bool) (first second : Nat → Option Nat)
    (input : List Nat) : Int × Int :=
  scanLoop pretest first second input (input.length + 1) 1

/-- The insertion order of `secondWordMapOf`, flattened. -/
def secondTriples : List (Nat × Nat × Nat) :=
  (List.range 256).flatMap fun i =>
    (List.range 256).flatMap fun j =>
      (List.range 8).map fun s => (i, j, s)

theorem secondWordMapOf_flat (m3 m4 m5 : Nat) :
    secondWordMapOf m3 m4 m5 =
      secondTriples.foldl
        (fun acc x => mapUpd acc (skey m3 m4 m5 x.1 x.2.1 x.2.2) x.2.2)
        (fun _ => none) := by
  have hinner : ∀ (i j : Nat) (acc : Nat → Option Nat),
      (List.range 8).foldl (fun acc3 s => mapUpd acc3 (skey m3 m4 m5 i j s) s)
        acc =
      ((List.range 8).map fun s => ((i, j, s) : Nat × Nat × Nat)).foldl
        (fun acc x => mapUpd acc (skey m3 m4 m5 x.1 x.2.1 x.2.2) x.2.2) acc := by
    intro i j acc
    rw [List.foldl_map]
  have hmid : ∀ (i : Nat) (acc : Nat → Option Nat),
      (List.range 256).foldl (fun acc2 j =>
        (List.range 8).foldl (fun acc3 s => mapUpd acc3 (skey m3 m4 m5 i j s) s)
          acc2) acc =
      ((List.range 256).flatMap fun j =>
        (List.range 8).map fun s => ((i, j, s) : Nat × Nat × Nat)).foldl
        (fun acc x => mapUpd acc (skey m3 m4 m5 x.1 x.2.1 x.2.2) x.2.2) acc := by
    intro i acc
    rw [show (fun (acc2 : Nat → Option Nat) (j : Nat) =>
        (List.range 8).foldl (fun acc3 s => mapUpd acc3 (skey m3 m4 m5 i j s) s)
          acc2) =
      fun acc2 j =>
        ((List.range 8).map fun s => ((i, j, s) : Nat × Nat × Nat)).foldl
          (fun acc x => mapUpd acc (skey m3 m4 m5 x.1 x.2.1 x.2.2) x.2.2) acc2
      from funext fun acc2 => funext fun j => hinner i j acc2]
    rw [foldl_foldl_flatMap]
  rw [secondWordMapOf, secondTriples,
    show (fun (acc : Nat → Option Nat) (i : Nat) =>
        (List.range 256).foldl (fun acc2 j =>
          (List.range 8).foldl
            (fun acc3 s => mapUpd acc3 (skey m3 m4 m5 i j s) s) acc2) acc) =
      fun acc i =>
        ((List.range 256).flatMap fun j =>
          (List.range 8).map fun s => ((i, j, s) : Nat × Nat × Nat)).foldl
          (fun acc x => mapUpd acc (skey m3 m4 m5 x.1 x.2.1 x.2.2) x.2.2) acc
      from funext fun acc => funext fun i => hmid i acc,
    foldl_foldl_flatMap]

theorem mem_secondTriples (i j s : Nat) :
    (i, j, s) ∈ secondTriples ↔ i < 256 ∧ j < 256 ∧ s < 8 := by
  simp [secondTriples, List.mem_flatMap, List.mem_map, List.mem_range,
    Prod.mk.injEq]
  constructor
  · rintro ⟨i', hi', j', hj', s', hs', he1, he2, he3⟩
    subst he1; subst he2; subst he3
    exact ⟨hi', hj', hs'⟩
  · rintro ⟨hi, hj, hs⟩
    exact ⟨i, hi, j, hj, s, hs, rfl, rfl, rfl⟩

/-- Every binding of the second map comes from some `(i, j, s)` writer. -/
theorem secondWordMapOf_sound (m3 m4 m5 k v : Nat)
    (h : secondWordMapOf m3 m4 m5 k = some v) :
    ∃ i j, i < 256 ∧ j < 256 ∧ v < 8 ∧ skey m3 m4 m5 i j v = k := by
  rw [secondWordMapOf_flat] at h
  rcases foldl_upd_sound _ _ _ _ _ _ h with ⟨a, ha, hk, hv⟩ | hbase
  · rcases a with ⟨i, j, s⟩
    rcases (mem_secondTriples i j s).mp ha with ⟨h1, h2, h3⟩
    simp only at hk hv
    subst hv
    exact ⟨i, j, h1, h2, h3, hk⟩
  · cases hbase

/-- If every writer of the key `skey i j s` agrees on the value `s`, the
second map binds it to `s`. -/
theorem secondWordMapOf_complete (m3 m4 m5 : Nat) (i j s : Nat)
    (hi : i < 256) (hj : j < 256) (hs : s < 8)
    (huniq : ∀ i' j' s', i' < 256 → j' < 256 → s' < 8 →
      skey m3 m4 m5 i' j' s' = skey m3 m4 m5 i j s → s' = s) :
    secondWordMapOf m3 m4 m5 (skey m3 m4 m5 i j s) = some s := by
  rw [secondWordMapOf_flat]
  apply foldl_upd_agree
  · exact ⟨(i, j, s), (mem_secondTriples i j s).mpr ⟨hi, hj, hs⟩, rfl⟩
  · rintro ⟨i', j', s'⟩ ha hk
    rcases (mem_secondTriples i' j' s').mp ha with ⟨h1, h2, h3⟩
    exact huniq i' j' s' h1 h2 h3 hk

/-- Byte form of the second-map key. -/
theorem skey_eq (m3 m4 m5 i j s : Nat) (h3 : m3 < 256) (h4 : m4 < 256)
    (h5 : m5 < 256) (hi : i < 256) (hj : j < 256) (hs : s ≤ 8) :
    skey m3 m4 m5 i j s =
      leUint32 [sb m3 m4 s, sb m4 m5 s, sb m5 i s, sb i j s] := by
  rw [skey, shiftIter_six 0 m3 m4 m5 i j
    (by intro b hb; simp at hb; rcases hb with h | h | h | h | h | h <;> omega)
    s hs]
  rfl

theorem leUint32_four (a b c d : Nat) :
    leUint32 [a, b, c, d] = a + b * 256 + c * 65536 + d * 16777216 := rfl

theorem leUint32_inj4 {a b c d a' b' c' d' : Nat}
    (ha : a < 256) (hb : b < 256) (hc : c < 256) (hd : d < 256)
    (ha' : a' < 256) (hb' : b' < 256) (hc' : c' < 256) (hd' : d' < 256)
    (h : leUint32 [a, b, c, d] = leUint32 [a', b', c', d']) :
    a = a' ∧ b = b' ∧ c = c' ∧ d = d' := by
  rw [leUint32_four, leUint32_four] at h
  omega

/-! ### Characterization of the first-word map -/

/-- Key inserted into `firstWordMap` at shift `s` with vacated top bits
`j` (`s = 0, j = 0` is the unshifted base insertion). -/
def fkey (m0 m1 m2 m3 s j : Nat) : Nat :=
  leUint32 [(m0 >>> s) ||| (j <<< (8 - s)), sb m0 m1 s, sb m1 m2 s, sb m2 m3 s]

theorem fkey_zero (m0 m1 m2 m3 : Nat) :
    fkey m0 m1 m2 m3 0 0 = leUint32 [m0, m1, m2, m3] := by
  simp [fkey, sb_zero, Nat.shiftRight_zero, Nat.zero_shiftLeft, Nat.or_zero]

theorem mask_shr (s : Nat) (hs : s ≤ 8) : (255 : Nat) >>> s = 2 ^ (8 - s) - 1 := by
  interval_cases s <;> decide

theorem or_shl_and_mask (c j n : Nat) (hc : c < 2 ^ n) :
    (c ||| (j <<< n)) &&& (2 ^ n - 1) = c := by
  apply Nat.eq_of_testBit_eq
  intro k
  rw [Nat.testBit_and, Nat.testBit_or, Nat.testBit_shiftLeft,
    Nat.testBit_two_pow_sub_one]
  by_cases hk : k < n
  · have h1 : decide (k < n) = true := by simpa using hk
    have h2 : decide (n ≤ k) = false := by
      simp only [decide_eq_false_iff_not]; omega
    rw [h1, h2]
    simp
  · have h1 : decide (k < n) = false := by simpa using hk
    have h3 : c.testBit k = false :=
      Nat.testBit_lt_two_pow (lt_of_lt_of_le hc (pow_le_pow_right₀ (by omega)
        (by omega)))
    rw [h1, h3]
    simp

theorem shr_lt_two_pow (x s : Nat) (hx : x < 256) (hs : s ≤ 8) :
    x >>> s < 2 ^ (8 - s) := by
  rw [Nat.shiftRight_eq_div_pow]
  apply Nat.div_lt_of_lt_mul
  have hprod : (2 : Nat) ^ s * 2 ^ (8 - s) = 256 := by
    rw [← pow_add, show s + (8 - s) = 8 from by omega]
    norm_num
  rw [hprod]
  exact hx

theorem shr1_or_mask (m0v junk s : Nat) (h : m0v < 256) (hs : s ≤ 6) :
    ((((m0v >>> s) ||| (junk <<< (8 - s))) >>> 1) &&& (255 >>> (s + 1))) =
      m0v >>> (s + 1) := by
  rw [mask_shr (s + 1) (by omega)]
  apply Nat.eq_of_testBit_eq
  intro k
  rw [Nat.testBit_and, Nat.testBit_two_pow_sub_one, Nat.testBit_shiftRight,
    Nat.testBit_or, Nat.testBit_shiftRight, Nat.testBit_shiftLeft,
    Nat.testBit_shiftRight]
  by_cases hk : k < 8 - (s + 1)
  · have e1 : decide (k < 8 - (s + 1)) = true := by simpa using hk
    have e2 : decide (8 - s ≤ 1 + k) = false := by
      simp only [decide_eq_false_iff_not]; omega
    rw [e1, e2, show s + (1 + k) = s + 1 + k from by omega]
    simp
  · have e1 : decide (k < 8 - (s + 1)) = false := by simpa using hk
    have e3 : m0v.testBit (s + 1 + k) = false :=
      testBit_false_of_lt_256 h (by omega)
    rw [e1, e3]
    simp

theorem sb_zero_zero (s : Nat) : sb 0 0 s = 0 := by
  simp [sb]

theorem sb_testBit_zero (x y s : Nat) (hy : y < 256) (hs : s ≤ 7) :
    (sb x y s).testBit 0 = y.testBit s := by
  rw [sb_testBit x y s hy (by omega) 0 (by omega), if_neg (by omega)]
  simp

theorem srb_sb_zero (x s : Nat) (hs : s ≤ 7) : srb (sb x 0 s) 0 = 0 := by
  have h : srb (sb x 0 s) (sb 0 0 s) = sb 0 0 (s + 1) :=
    srb_step _ 0 0 s (by omega) hs (sb_testBit_zero x 0 s (by omega) hs)
  rw [sb_zero_zero, sb_zero_zero] at h
  exact h

/-- `ShiftRight` on the canonical first-array shape: the junk in the top
bits of byte 0 never reaches the carry chain. -/
theorem ShiftRight_fArr (m0 m1 m2 m3 junk s : Nat) (h1 : m1 < 256)
    (h2 : m2 < 256) (h3 : m3 < 256) (hs : s ≤ 6) :
    ShiftRight [(m0 >>> s) ||| (junk <<< (8 - s)), sb m0 m1 s, sb m1 m2 s,
        sb m2 m3 s, sb m3 0 s, 0] =
      ((((m0 >>> s) ||| (junk <<< (8 - s))) >>> 1) ::
        [sb m0 m1 (s + 1), sb m1 m2 (s + 1), sb m2 m3 (s + 1), sb m3 0 (s + 1),
          0]) := by
  rw [ShiftRight]
  simp only [List.zipWith]
  rw [srb_step _ m0 m1 s h1 (by omega) (by
      rw [Nat.testBit_or, Nat.testBit_shiftLeft, Nat.testBit_shiftRight]
      have e : decide (8 - s ≤ 0) = false := by
        simp only [decide_eq_false_iff_not]; omega
      rw [e]
      simp),
    srb_step _ m1 m2 s h2 (by omega) (sb_testBit_zero m0 m1 s h1 (by omega)),
    srb_step _ m2 m3 s h3 (by omega) (sb_testBit_zero m1 m2 s h2 (by omega)),
    srb_step _ m3 0 s (by omega) (by omega)
      (sb_testBit_zero m2 m3 s h3 (by omega)),
    srb_sb_zero m3 s (by omega)]

/-- The inner `j` loop, decoupled: the array keeps its tail, byte 0
cycles through the `j` values over the masked shifted magic byte, and
the map receives the pure insertions. -/
theorem fstep_fold (σ m0v : Nat) (hσ1 : 1 ≤ σ) (hσ : σ ≤ 7) (hm0 : m0v < 256)
    (tail : List Nat) :
    ∀ (n : Nat) (b0 : Nat) (m : Nat → Option Nat),
      b0 &&& (255 >>> σ) = m0v >>> σ → 1 ≤ n →
      (List.range n).foldl (fstep σ) (b0 :: tail, m) =
        (((m0v >>> σ) ||| ((n - 1) <<< (8 - σ))) :: tail,
         (List.range n).foldl (fun acc j =>
           mapUpd acc
             (leUint32 (((m0v >>> σ) ||| (j <<< (8 - σ))) :: tail.take 3)) σ)
           m) := by
  intro n
  induction n with
  | zero => intro b0 m _ h1; omega
  | succ n ih =>
    intro b0 m hb0 _
    by_cases hn : n = 0
    · subst hn
      simp only [List.range_succ, List.range_zero, List.nil_append,
        List.foldl_cons, List.foldl_nil, fstep, List.set_cons_zero,
        List.getD_cons_zero]
      rw [hb0]
      rfl
    · have hn1 : 1 ≤ n := by omega
      rw [List.range_succ, List.foldl_append, List.foldl_append,
        ih b0 m hb0 hn1]
      simp only [List.foldl_cons, List.foldl_nil, fstep, List.set_cons_zero,
        List.getD_cons_zero]
      rw [show ((m0v >>> σ) ||| ((n - 1) <<< (8 - σ))) &&& (255 >>> σ) =
          m0v >>> σ from by
        rw [mask_shr σ (by omega)]
        exact or_shl_and_mask _ _ _ (shr_lt_two_pow m0v σ hm0 (by omega))]
      rw [show n + 1 - 1 = n from by omega]
      rfl

/-- One full shift block of the `firstWordMap` construction. -/
theorem firstBlock (m0 m1 m2 m3 : Nat) (h0 : m0 < 256) (h1 : m1 < 256)
    (h2 : m2 < 256) (h3 : m3 < 256) (s : Nat) (hs : s ≤ 6) (junk : Nat)
    (m : Nat → Option Nat) :
    (List.range (2 ^ (s + 1))).foldl (fstep (s + 1))
      (ShiftRight [(m0 >>> s) ||| (junk <<< (8 - s)), sb m0 m1 s, sb m1 m2 s,
        sb m2 m3 s, sb m3 0 s, 0], m) =
    ([(m0 >>> (s + 1)) ||| ((2 ^ (s + 1) - 1) <<< (8 - (s + 1))),
        sb m0 m1 (s + 1), sb m1 m2 (s + 1), sb m2 m3 (s + 1), sb m3 0 (s + 1),
        0],
     (List.range (2 ^ (s + 1))).foldl
       (fun acc j => mapUpd acc (fkey m0 m1 m2 m3 (s + 1) j) (s + 1)) m) := by
  rw [ShiftRight_fArr m0 m1 m2 m3 junk s h1 h2 h3 hs,
    fstep_fold (s + 1) m0 (by omega) (by omega) h0
      [sb m0 m1 (s + 1), sb m1 m2 (s + 1), sb m2 m3 (s + 1), sb m3 0 (s + 1), 0]
      (2 ^ (s + 1)) _ m (shr1_or_mask m0 junk s h0 hs)
      (Nat.one_le_two_pow)]
  rfl

/-- The first `B` shift blocks of the `firstWordMap` construction. -/
def firstOuter (m0 m1 m2 m3 : Nat) (B : Nat) : List Nat × (Nat → Option Nat) :=
  (List.range B).foldl (fun st k =>
      (List.range (2 ^ (k + 1))).foldl (fstep (k + 1)) (ShiftRight st.1, st.2))
    ([m0, m1, m2, m3, 0, 0],
     mapUpd (fun _ => none) (leUint32 [m0, m1, m2, m3]) 0)

theorem firstWordMapOf_eq_outer (m0 m1 m2 m3 : Nat) :
    firstWordMapOf m0 m1 m2 m3 = (firstOuter m0 m1 m2 m3 7).2 := rfl

/-- The `(shift, j)` insertion pairs of the first `B` blocks, in order. -/
def pairsUpTo (B : Nat) : List (Nat × Nat) :=
  (List.range B).flatMap fun k => (List.range (2 ^ (k + 1))).map fun j => (k + 1, j)

theorem firstOuter_spec (m0 m1 m2 m3 : Nat) (h0 : m0 < 256) (h1 : m1 < 256)
    (h2 : m2 < 256) (h3 : m3 < 256) :
    ∀ B, B ≤ 7 →
      firstOuter m0 m1 m2 m3 B =
        ([(m0 >>> B) ||| ((2 ^ B - 1) <<< (8 - B)), sb m0 m1 B, sb m1 m2 B,
          sb m2 m3 B, sb m3 0 B, 0],
         (pairsUpTo B).foldl
           (fun acc x => mapUpd acc (fkey m0 m1 m2 m3 x.1 x.2) x.1)
           (mapUpd (fun _ => none) (fkey m0 m1 m2 m3 0 0) 0)) := by
  intro B
  induction B with
  | zero =>
    intro _
    rw [firstOuter, fkey_zero]
    simp [pairsUpTo, sb_zero, Nat.shiftRight_zero, Nat.zero_shiftLeft,
      Nat.or_zero]
  | succ B ih =>
    intro hB
    rw [firstOuter, List.range_succ, List.foldl_append,
      show (List.range B).foldl (fun st k =>
          (List.range (2 ^ (k + 1))).foldl (fstep (k + 1)) (ShiftRight st.1, st.2))
        ([m0, m1, m2, m3, 0, 0],
         mapUpd (fun _ => none) (leUint32 [m0, m1, m2, m3]) 0) =
        firstOuter m0 m1 m2 m3 B from rfl,
      ih (by omega)]
    simp only [List.foldl_cons, List.foldl_nil]
    rw [firstBlock m0 m1 m2 m3 h0 h1 h2 h3 B (by omega) (2 ^ B - 1) _,
      show pairsUpTo (B + 1) =
        pairsUpTo B ++ ((List.range (2 ^ (B + 1))).map fun j => (B + 1, j)) from by
        rw [pairsUpTo, pairsUpTo, List.range_succ, List.flatMap_append]
        simp,
      List.foldl_append, List.foldl_map]

theorem mem_pairsUpTo (B s j : Nat) :
    (s, j) ∈ pairsUpTo B ↔ 1 ≤ s ∧ s ≤ B ∧ j < 2 ^ s := by
  simp only [pairsUpTo, List.mem_flatMap, List.mem_map, List.mem_range,
    Prod.mk.injEq]
  constructor
  · rintro ⟨k, hk, j', hj', he1, he2⟩
    subst he1
    subst he2
    exact ⟨by omega, by omega, hj'⟩
  · rintro ⟨hs1, hsB, hj⟩
    refine ⟨s - 1, by omega, j, ?_, by omega, rfl⟩
    rw [show s - 1 + 1 = s from by omega]
    exact hj

/-- Every binding of the first map comes from a `(shift, j)` writer
(`shift = 0, j = 0` being the base insertion). -/
theorem firstWordMapOf_sound (m0 m1 m2 m3 : Nat) (h0 : m0 < 256)
    (h1 : m1 < 256) (h2 : m2 < 256) (h3 : m3 < 256) (k v : Nat)
    (h : firstWordMapOf m0 m1 m2 m3 k = some v) :
    ∃ s j, s ≤ 7 ∧ j < 2 ^ s ∧ v = s ∧ k = fkey m0 m1 m2 m3 s j := by
  rw [firstWordMapOf_eq_outer, firstOuter_spec m0 m1 m2 m3 h0 h1 h2 h3 7
    (le_refl _)] at h
  simp only at h
  rcases foldl_upd_sound _ _ _ _ _ _ h with ⟨⟨s, j⟩, ha, hk, hv⟩ | hbase
  · rcases (mem_pairsUpTo 7 s j).mp ha with ⟨hs1, hs7, hj⟩
    simp only at hk hv
    exact ⟨s, j, hs7, hj, hv.symm, hk.symm⟩
  · simp only [mapUpd] at hbase
    by_cases hk0 : k = fkey m0 m1 m2 m3 0 0
    · rw [if_pos hk0] at hbase
      exact ⟨0, 0, by omega, by omega, (Option.some_inj.mp hbase).symm, hk0⟩
    · rw [if_neg hk0] at hbase
      cases hbase

/-- If every writer of the key `fkey s j` agrees on the shift `s`, the
first map binds it to `s`. -/
theorem firstWordMapOf_complete (m0 m1 m2 m3 : Nat) (h0 : m0 < 256)
    (h1 : m1 < 256) (h2 : m2 < 256) (h3 : m3 < 256) (s j : Nat) (hs : s ≤ 7)
    (hj : j < 2 ^ s)
    (huniq : ∀ s' j', s' ≤ 7 → j' < 2 ^ s' →
      fkey m0 m1 m2 m3 s' j' = fkey m0 m1 m2 m3 s j → s' = s) :
    firstWordMapOf m0 m1 m2 m3 (fkey m0 m1 m2 m3 s j) = some s := by
  rw [firstWordMapOf_eq_outer, firstOuter_spec m0 m1 m2 m3 h0 h1 h2 h3 7
    (le_refl _)]
  simp only
  by_cases hs0 : s = 0
  · subst hs0
    have hj0 : j = 0 := by omega
    subst hj0
    rw [foldl_upd_frame _ _ _ _ _ ?_]
    · exact mapUpd_self _ _ _
    · rintro ⟨s', j'⟩ ha he
      rcases (mem_pairsUpTo 7 s' j').mp ha with ⟨hs1, hs7, hj'⟩
      have := huniq s' j' hs7 hj' he
      omega
  · apply foldl_upd_agree
    · exact ⟨(s, j), (mem_pairsUpTo 7 s j).mpr ⟨by omega, hs, hj⟩, rfl⟩
    · rintro ⟨s', j'⟩ ha hk
      rcases (mem_pairsUpTo 7 s' j').mp ha with ⟨hs1, hs7, hj'⟩
      exact huniq s' j' hs7 hj' hk

/-! ### Characterization of the pretest table -/

theorem foldl_const_step {σ α : Type} (f : σ → σ) :
    ∀ (l : List α) (i : σ), l.foldl (fun acc _ => f acc) i = f^[l.length] i := by
  intro l
  induction l with
  | nil => intro i; rfl
  | cons a t ih =>
    intro i
    rw [List.foldl_cons, ih, List.length_cons, Function.iterate_succ_apply]

theorem ptIter_aux (m0 m1 m2 : Nat) (h0 : m0 < 256) (h1 : m1 < 256)
    (h2 : m2 < 256) :
    ∀ (n k : Nat), k + n ≤ 8 → ∀ (pr : Nat → Bool) (x : Nat),
      (((fun st => ptstep st 0)^[n]) (shiftIter k [m0, m1, m2], pr)).2 x = true ↔
        ((∃ t, k ≤ t ∧ t < k + n ∧ x = sb m0 m1 t) ∨ pr x = true) := by
  intro n
  induction n with
  | zero =>
    intro k hk pr x
    simp only [Function.iterate_zero, id]
    constructor
    · exact Or.inr
    · rintro (⟨t, ht1, ht2, _⟩ | h)
      · omega
      · exact h
  | succ n ih =>
    intro k hk pr x
    rw [Function.iterate_succ_apply,
      show ptstep (shiftIter k [m0, m1, m2], pr) 0 =
        (shiftIter (k + 1) [m0, m1, m2],
         fun x => if x = (shiftIter k [m0, m1, m2]).getD 1 0 then true else pr x)
        from rfl,
      ih (k + 1) (by omega)]
    have hg : (shiftIter k [m0, m1, m2]).getD 1 0 = sb m0 m1 k := by
      rw [shiftIter_three m0 m1 m2
        (by intro b hb; simp at hb; rcases hb with h | h | h <;> omega) k
        (by omega)]
      rfl
    rw [hg]
    constructor
    · rintro (⟨t, ht1, ht2, he⟩ | hpr)
      · exact Or.inl ⟨t, by omega, by omega, he⟩
      · by_cases hx : x = sb m0 m1 k
        · exact Or.inl ⟨k, by omega, by omega, hx⟩
        · rw [if_neg hx] at hpr
          exact Or.inr hpr
    · rintro (⟨t, ht1, ht2, he⟩ | hpr)
      · by_cases ht : t = k
        · subst ht
          exact Or.inr (by rw [if_pos he])
        · exact Or.inl ⟨t, by omega, by omega, he⟩
      · refine Or.inr ?_
        by_cases hx : x = sb m0 m1 k
        · rw [if_pos hx]
        · rw [if_neg hx]
          exact hpr

/-- The pretest table holds exactly the second bytes of the shifted
magic prefix. -/
theorem pretestOf_iff (m0 m1 m2 : Nat) (h0 : m0 < 256) (h1 : m1 < 256)
    (h2 : m2 < 256) (x : Nat) :
    pretestOf m0 m1 m2 x = true ↔ ∃ t, t < 8 ∧ x = sb m0 m1 t := by
  rw [pretestOf,
    show (List.range 8).foldl ptstep ([m0, m1, m2], fun _ => false) =
      (List.range 8).foldl (fun acc _ => (fun st => ptstep st 0) acc)
        ([m0, m1, m2], fun _ => false) from rfl,
    foldl_const_step,
    show (List.range 8).length = 8 from by simp,
    show ([m0, m1, m2] : List Nat) = shiftIter 0 [m0, m1, m2] from rfl]
  rw [ptIter_aux m0 m1 m2 h0 h1 h2 8 0 (by omega)]
  constructor
  · rintro (⟨t, _, ht2, he⟩ | h)
    · exact ⟨t, by omega, he⟩
    · cases h
  · rintro ⟨t, ht, he⟩
    exact Or.inl ⟨t, by omega, by omega, he⟩

/-! ### Bit segments of a byte versus byte arithmetic -/

theorem byteBits_getElem (x i : Nat) (hi : i < 8) :
    (byteBits x)[i]? = some (x.testBit (7 - i)) := by
  interval_cases i <;> rfl

/-- The low `8 - s` bits of byte `x` (as a bitstream suffix) equal the
high `8 - s` bits of byte `y` exactly when `x % 2^(8-s) = y >>> s`. -/
theorem byteBits_drop_take_iff (x y s : Nat) (hx : x < 256) (hy : y < 256)
    (hs : s ≤ 8) :
    (byteBits x).drop s = (byteBits y).take (8 - s) ↔
      x % 2 ^ (8 - s) = y >>> s := by
  constructor
  · intro h
    apply Nat.eq_of_testBit_eq
    intro k
    rw [Nat.testBit_mod_two_pow, Nat.testBit_shiftRight]
    by_cases hk : k < 8 - s
    · have he : ((byteBits x).drop s)[7 - s - k]? =
          ((byteBits y).take (8 - s))[7 - s - k]? := by rw [h]
      rw [List.getElem?_drop, List.getElem?_take, if_pos (by omega),
        byteBits_getElem x (s + (7 - s - k)) (by omega),
        byteBits_getElem y (7 - s - k) (by omega)] at he
      have he2 := Option.some_inj.mp he
      rw [show 7 - (s + (7 - s - k)) = k from by omega] at he2
      rw [show s + k = 7 - (7 - s - k) from by omega, ← he2]
      simp [hk]
    · have h1 : decide (k < 8 - s) = false := by simpa using hk
      rw [h1, testBit_false_of_lt_256 hy (by omega)]
      simp
  · intro h
    apply List.ext_getElem?
    intro i
    by_cases hi : i < 8 - s
    · rw [List.getElem?_drop, List.getElem?_take, if_pos hi,
        byteBits_getElem x (s + i) (by omega), byteBits_getElem y i (by omega)]
      have he := congrArg (fun t => t.testBit (7 - s - i)) h
      simp only [Nat.testBit_mod_two_pow, Nat.testBit_shiftRight] at he
      rw [show decide (7 - s - i < 8 - s) = true from by
          simp only [decide_eq_true_eq]; omega] at he
      simp only [Bool.true_and] at he
      rw [show 7 - (s + i) = 7 - s - i from by omega, he,
        show s + (7 - s - i) = 7 - i from by omega]
    · rw [List.getElem?_drop, List.getElem?_take, if_neg hi,
        List.getElem?_eq_none (by rw [length_byteBits]; omega)]

/-- The top `s` bits of two bytes agree exactly when the bytes agree
after dropping their low `8 - s` bits. -/
theorem byteBits_take_take_iff (x y s : Nat) (hx : x < 256) (hy : y < 256)
    (hs : s ≤ 8) :
    (byteBits x).take s = (byteBits y).take s ↔ x >>> (8 - s) = y >>> (8 - s) := by
  constructor
  · intro h
    apply Nat.eq_of_testBit_eq
    intro k
    rw [Nat.testBit_shiftRight, Nat.testBit_shiftRight]
    by_cases hk : k < s
    · have he : ((byteBits x).take s)[s - 1 - k]? =
          ((byteBits y).take s)[s - 1 - k]? := by rw [h]
      rw [List.getElem?_take, if_pos (by omega), List.getElem?_take,
        if_pos (by omega), byteBits_getElem x (s - 1 - k) (by omega),
        byteBits_getElem y (s - 1 - k) (by omega)] at he
      have he2 := Option.some_inj.mp he
      rw [show 8 - s + k = 7 - (s - 1 - k) from by omega]
      exact he2
    · rw [testBit_false_of_lt_256 hx (by omega),
        testBit_false_of_lt_256 hy (by omega)]
  · intro h
    apply List.ext_getElem?
    intro i
    by_cases hi : i < s
    · rw [List.getElem?_take, if_pos hi, List.getElem?_take, if_pos hi,
        byteBits_getElem x i (by omega), byteBits_getElem y i (by omega)]
      have he := congrArg (fun t => t.testBit (s - 1 - i)) h
      simp only [Nat.testBit_shiftRight] at he
      rw [show 7 - i = 8 - s + (s - 1 - i) from by omega, he]
    · rw [List.getElem?_take, if_neg hi, List.getElem?_take, if_neg hi]

theorem append_inj_iff {a b c d : List Bool} (h : a.length = c.length) :
    a ++ b = c ++ d ↔ a = c ∧ b = d :=
  ⟨fun he => List.append_inj he h, fun ⟨h1, h2⟩ => by rw [h1, h2]⟩

theorem getD_drop (l : List Nat) (a b : Nat) :
    (l.drop a).getD b 0 = l.getD (a + b) 0 := by
  rw [List.getD_eq_getElem?_getD, List.getD_eq_getElem?_getD,
    List.getElem?_drop]

/-- The low `8 - s` bits of two bytes agree exactly when the bytes agree
modulo `2^(8-s)`. -/
theorem byteBits_drop_drop_iff (x y s : Nat) (hx : x < 256) (hy : y < 256)
    (hs : s ≤ 8) :
    (byteBits x).drop s = (byteBits y).drop s ↔
      x % 2 ^ (8 - s) = y % 2 ^ (8 - s) := by
  constructor
  · intro h
    apply Nat.eq_of_testBit_eq
    intro k
    rw [Nat.testBit_mod_two_pow, Nat.testBit_mod_two_pow]
    by_cases hk : k < 8 - s
    · have he : ((byteBits x).drop s)[7 - s - k]? =
          ((byteBits y).drop s)[7 - s - k]? := by rw [h]
      rw [List.getElem?_drop, List.getElem?_drop,
        byteBits_getElem x (s + (7 - s - k)) (by omega),
        byteBits_getElem y (s + (7 - s - k)) (by omega)] at he
      have he2 := Option.some_inj.mp he
      rw [show 7 - (s + (7 - s - k)) = k from by omega] at he2
      rw [he2]
    · have h1 : decide (k < 8 - s) = false := by simpa using hk
      rw [h1]
      simp
  · intro h
    apply List.ext_getElem?
    intro i
    by_cases hi : i < 8 - s
    · rw [List.getElem?_drop, List.getElem?_drop,
        byteBits_getElem x (s + i) (by omega),
        byteBits_getElem y (s + i) (by omega)]
      have he := congrArg (fun t => t.testBit (7 - s - i)) h
      simp only [Nat.testBit_mod_two_pow] at he
      rw [show decide (7 - s - i < 8 - s) = true from by
          simp only [decide_eq_true_eq]; omega] at he
      simp only [Bool.true_and] at he
      rw [show 7 - (s + i) = 7 - s - i from by omega, he]
    · rw [List.getElem?_drop, List.getElem?_drop,
        List.getElem?_eq_none (by rw [length_byteBits]; omega),
        List.getElem?_eq_none (by rw [length_byteBits]; omega)]

theorem sb_hi_shr (hi s : Nat) (hs : s ≤ 8) :
    (sb hi 0 s) >>> (8 - s) = hi % 2 ^ s := by
  rw [sb, Nat.zero_shiftRight, Nat.or_zero, Nat.shiftLeft_eq,
    Nat.shiftRight_eq_div_pow, Nat.mul_div_cancel _ (Nat.pos_pow_of_pos _ (by omega))]

theorem or_split_byte (x n : Nat) : (x % 2 ^ n) ||| ((x >>> n) <<< n) = x := by
  apply Nat.eq_of_testBit_eq
  intro k
  rw [Nat.testBit_or, Nat.testBit_mod_two_pow, Nat.testBit_shiftLeft,
    Nat.testBit_shiftRight]
  by_cases hk : k < n
  · have h1 : decide (k < n) = true := by simpa using hk
    have h2 : decide (n ≤ k) = false := by
      simp only [decide_eq_false_iff_not]; omega
    rw [h1, h2]
    simp
  · have h1 : decide (k < n) = false := by simpa using hk
    have h2 : decide (n ≤ k) = true := by
      simp only [decide_eq_true_eq]; omega
    rw [h1, h2, show n + (k - n) = k from by omega]
    simp

/-- A `8n + s`-bit prefix of two byte streams agrees exactly when the
first `n` bytes agree and the top `s` bits of byte `n` agree. -/
theorem bits_prefix_iff : ∀ (n : Nat) (xs ys : List Nat) (s : Nat),
    Bytes xs → Bytes ys → n < xs.length → n < ys.length → s ≤ 8 →
    ((toBits xs).take (8 * n + s) = (toBits ys).take (8 * n + s) ↔
      ((∀ k, k < n → xs.getD k 0 = ys.getD k 0) ∧
        (byteBits (xs.getD n 0)).take s = (byteBits (ys.getD n 0)).take s)) := by
  intro n
  induction n with
  | zero =>
    intro xs ys s hBx hBy hnx hny hs
    cases xs with
    | nil => simp at hnx
    | cons x xs' =>
      cases ys with
      | nil => simp at hny
      | cons y ys' =>
        rw [toBits_cons, toBits_cons, show 8 * 0 + s = s from by omega,
          List.take_append_of_le_length (by rw [length_byteBits]; omega),
          List.take_append_of_le_length (by rw [length_byteBits]; omega)]
        simp only [List.getD_cons_zero]
        constructor
        · intro h
          exact ⟨fun k hk => absurd hk (by omega), h⟩
        · intro h
          exact h.2
  | succ n ih =>
    intro xs ys s hBx hBy hnx hny hs
    cases xs with
    | nil => simp at hnx
    | cons x xs' =>
      cases ys with
      | nil => simp at hny
      | cons y ys' =>
        have hax : (byteBits x).length ≤ 8 + (8 * n + s) := by
          rw [length_byteBits]; omega
        have hay : (byteBits y).length ≤ 8 + (8 * n + s) := by
          rw [length_byteBits]; omega
        rw [toBits_cons, toBits_cons,
          show 8 * (n + 1) + s = 8 + (8 * n + s) from by omega,
          List.take_append_eq_append_take, List.take_append_eq_append_take,
          List.take_of_length_le hax, List.take_of_length_le hay,
          length_byteBits, length_byteBits,
          show 8 + (8 * n + s) - 8 = 8 * n + s from by omega,
          append_inj_iff (by rw [length_byteBits, length_byteBits]),
          ih xs' ys' s (fun b hb => hBx b (by simp [hb]))
            (fun b hb => hBy b (by simp [hb]))
            (by simpa using hnx) (by simpa using hny) hs]
        simp only [List.getD_cons_succ, List.getD_cons_zero]
        constructor
        · rintro ⟨h1, h2, h3⟩
          refine ⟨?_, h3⟩
          intro k hk
          cases k with
          | zero =>
            simp only [List.getD_cons_zero]
            exact byteBits_injOn (hBx x (by simp)) (hBy y (by simp)) h1
          | succ k =>
            simp only [List.getD_cons_succ]
            exact h2 k (by omega)
        · rintro ⟨h1, h2⟩
          refine ⟨?_, ?_, h2⟩
          · have := h1 0 (by omega)
            simp only [List.getD_cons_zero] at this
            rw [this]
          · intro k hk
            have := h1 (k + 1) (by omega)
            simp only [List.getD_cons_succ] at this
            exact this

/-- A `8n`-bit prefix of two byte streams agrees exactly when the first
`n` bytes agree. -/
theorem bits_bytes_iff : ∀ (n : Nat) (xs ys : List Nat),
    Bytes xs → Bytes ys → n ≤ xs.length → n ≤ ys.length →
    ((toBits xs).take (8 * n) = (toBits ys).take (8 * n) ↔
      ∀ k, k < n → xs.getD k 0 = ys.getD k 0) := by
  intro n
  induction n with
  | zero =>
    intro xs ys _ _ _ _
    simp
  | succ n ih =>
    intro xs ys hBx hBy hnx hny
    cases xs with
    | nil => simp at hnx
    | cons x xs' =>
      cases ys with
      | nil => simp at hny
      | cons y ys' =>
        have hax : (byteBits x).length ≤ 8 + 8 * n := by
          rw [length_byteBits]; omega
        have hay : (byteBits y).length ≤ 8 + 8 * n := by
          rw [length_byteBits]; omega
        rw [toBits_cons, toBits_cons,
          show 8 * (n + 1) = 8 + 8 * n from by omega,
          List.take_append_eq_append_take, List.take_append_eq_append_take,
          List.take_of_length_le hax, List.take_of_length_le hay,
          length_byteBits, length_byteBits,
          show 8 + 8 * n - 8 = 8 * n from by omega,
          append_inj_iff (by rw [length_byteBits, length_byteBits]),
          ih xs' ys' (fun b hb => hBx b (by simp [hb]))
            (fun b hb => hBy b (by simp [hb]))
            (by simpa using hnx) (by simpa using hny)]
        constructor
        · rintro ⟨h1, h2⟩
          intro k hk
          cases k with
          | zero =>
            simp only [List.getD_cons_zero]
            exact byteBits_injOn (hBx x (by simp)) (hBy y (by simp)) h1
          | succ k =>
            simp only [List.getD_cons_succ]
            exact h2 k (by omega)
        · intro h1
          refine ⟨?_, ?_⟩
          · have := h1 0 (by omega)
            simp only [List.getD_cons_zero] at this
            rw [this]
          · intro k hk
            have := h1 (k + 1) (by omega)
            simp only [List.getD_cons_succ] at this
            exact this

/-- The 48-bit pattern `magic` occurs at bit position `p` of `input`
viewed as a bitstream. -/
def patternAt (magic input : List Nat) (p : Nat) : Prop :=
  p + 48 ≤ 8 * input.length ∧ ((toBits input).drop p).take 48 = toBits magic

instance instDecidablePatternAt (magic input : List Nat) (p : Nat) :
    Decidable (patternAt magic input p) :=
  decidable_of_iff
    (p + 48 ≤ 8 * input.length ∧
      ((toBits input).drop p).take 48 = toBits magic) Iff.rfl

/-- Byte-level form of an occurrence at bit `s` of byte `w`, `s ≥ 1`. -/
theorem segment_iff_pos (m0 m1 m2 m3 m4 m5 : Nat)
    (hm0 : m0 < 256) (hm1 : m1 < 256) (hm2 : m2 < 256) (hm3 : m3 < 256)
    (hm4 : m4 < 256) (hm5 : m5 < 256)
    (input : List Nat) (hB : Bytes input) (w s : Nat) (hs1 : 1 ≤ s)
    (hs7 : s ≤ 7) (hlen : w + 7 ≤ input.length) :
    (((toBits input).drop (8 * w + s)).take 48 =
        toBits [m0, m1, m2, m3, m4, m5] ↔
      (input.getD w 0 % 2 ^ (8 - s) = m0 >>> s ∧
       input.getD (w + 1) 0 = sb m0 m1 s ∧
       input.getD (w + 2) 0 = sb m1 m2 s ∧
       input.getD (w + 3) 0 = sb m2 m3 s ∧
       input.getD (w + 4) 0 = sb m3 m4 s ∧
       input.getD (w + 5) 0 = sb m4 m5 s ∧
       input.getD (w + 6) 0 >>> (8 - s) = m5 % 2 ^ s)) := by
  have hM : Bytes [m0, m1, m2, m3, m4, m5] := by
    intro b hb; simp at hb; rcases hb with h | h | h | h | h | h <;> omega
  have hG : shiftIter s [m0, m1, m2, m3, m4, m5, 0] =
      [m0 >>> s, sb m0 m1 s, sb m1 m2 s, sb m2 m3 s, sb m3 m4 s, sb m4 m5 s,
        sb m5 0 s] :=
    shiftIter_seven m0 m1 m2 m3 m4 m5 0
      (by intro b hb; simp at hb; rcases hb with h | h | h | h | h | h | h <;> omega)
      s (by omega)
  have e6 : toBits [m0, m1, m2, m3, m4, m5] =
      (byteBits (m0 >>> s)).drop s ++
        (toBits [sb m0 m1 s, sb m1 m2 s, sb m2 m3 s, sb m3 m4 s, sb m4 m5 s,
          sb m5 0 s]).take (40 + s) := by
    have h1 : toBits [m0 >>> s, sb m0 m1 s, sb m1 m2 s, sb m2 m3 s,
        sb m3 m4 s, sb m4 m5 s, sb m5 0 s] =
        (List.replicate s false ++ toBits [m0, m1, m2, m3, m4, m5]) ++
          List.replicate (8 - s) false := by
      rw [← hG,
        ← show ([m0, m1, m2, m3, m4, m5] ++ [0] : List Nat) =
          [m0, m1, m2, m3, m4, m5, 0] from rfl]
      have := shiftedValue_bits hM s (by omega)
      rw [this]
    have hlen6 : ([m0, m1, m2, m3, m4, m5] : List Nat).length = 6 := rfl
    have htb : (toBits [m0, m1, m2, m3, m4, m5]).length ≤ 48 := by
      rw [length_toBits, hlen6]
    have h3 : ((((List.replicate s false ++ toBits [m0, m1, m2, m3, m4, m5]) ++
        List.replicate (8 - s) false)).drop s).take 48 =
        toBits [m0, m1, m2, m3, m4, m5] := by
      rw [List.drop_append_eq_append_drop, List.drop_append_eq_append_drop,
        List.drop_replicate, List.length_replicate, Nat.sub_self,
        List.replicate_zero, List.drop_zero, List.nil_append,
        List.length_append, List.length_replicate, length_toBits, hlen6,
        show s - (s + 8 * 6) = 0 from by omega, List.drop_zero,
        List.take_append_eq_append_take, List.take_of_length_le htb,
        length_toBits, hlen6, show 48 - 8 * 6 = 0 from by omega,
        List.take_zero, List.append_nil]
    have h2 := congrArg (fun l => (l.drop s).take 48) h1
    simp only at h2
    rw [h3, toBits_cons, List.drop_append_eq_append_drop, length_byteBits,
      show s - 8 = 0 from by omega, List.drop_zero,
      List.take_append_eq_append_take] at h2
    have hdl : ((byteBits (m0 >>> s)).drop s).length = 8 - s := by
      rw [List.length_drop, length_byteBits]
    rw [List.take_of_length_le (le_trans (le_of_eq hdl) (by omega)), hdl,
      show 48 - (8 - s) = 40 + s from by omega] at h2
    exact h2.symm
  have hw : w < input.length := by omega
  have e0 : (toBits input).drop (8 * w + s) =
      (byteBits (input.getD w 0)).drop s ++ toBits (input.drop (w + 1)) := by
    rw [← List.drop_drop, ← toBits_drop, getD_cons_drop hw, toBits_cons,
      List.drop_append_eq_append_drop, length_byteBits,
      show s - 8 = 0 from by omega, List.drop_zero]
  rw [e0, List.take_append_eq_append_take]
  have hdl2 : ((byteBits (input.getD w 0)).drop s).length = 8 - s := by
    rw [List.length_drop, length_byteBits]
  rw [List.take_of_length_le (le_trans (le_of_eq hdl2) (by omega)), hdl2,
    show 48 - (8 - s) = 40 + s from by omega, e6,
    append_inj_iff (by rw [hdl2, List.length_drop, length_byteBits]),
    byteBits_drop_drop_iff _ _ s (Bytes_getD hB hw)
      (lt_of_le_of_lt
        (by rw [Nat.shiftRight_eq_div_pow]; exact Nat.div_le_self _ _) hm0)
      (by omega),
    Nat.mod_eq_of_lt (shr_lt_two_pow m0 s hm0 (by omega)),
    show (40 + s) = 8 * 5 + s from by omega,
    bits_prefix_iff 5 (input.drop (w + 1))
      [sb m0 m1 s, sb m1 m2 s, sb m2 m3 s, sb m3 m4 s, sb m4 m5 s, sb m5 0 s]
      s (Bytes_drop _ hB)
      (by intro b hb; simp at hb
          rcases hb with h | h | h | h | h | h <;> rw [h] <;>
            first
              | exact sb_lt_256 _ _ _ hm1 (by omega)
              | exact sb_lt_256 _ _ _ hm2 (by omega)
              | exact sb_lt_256 _ _ _ hm3 (by omega)
              | exact sb_lt_256 _ _ _ hm4 (by omega)
              | exact sb_lt_256 _ _ _ hm5 (by omega)
              | exact sb_lt_256 _ _ _ (by omega) (by omega))
      (by rw [List.length_drop]; omega) (by simp) (by omega)]
  simp only [getD_drop]
  rw [show ([sb m0 m1 s, sb m1 m2 s, sb m2 m3 s, sb m3 m4 s, sb m4 m5 s,
      sb m5 0 s].getD 5 0) = sb m5 0 s from rfl,
    show w + 1 + 5 = w + 6 from by omega,
    byteBits_take_take_iff _ _ s
      (Bytes_getD hB (by omega)) (sb_lt_256 _ _ _ (by omega) (by omega))
      (by omega),
    sb_hi_shr m5 s (by omega)]
  constructor
  · rintro ⟨c0, call, clast⟩
    have k0 := call 0 (by omega)
    have k1 := call 1 (by omega)
    have k2 := call 2 (by omega)
    have k3 := call 3 (by omega)
    have k4 := call 4 (by omega)
    rw [show w + 1 + 0 = w + 1 from by omega] at k0
    rw [show w + 1 + 1 = w + 2 from by omega] at k1
    rw [show w + 1 + 2 = w + 3 from by omega] at k2
    rw [show w + 1 + 3 = w + 4 from by omega] at k3
    rw [show w + 1 + 4 = w + 5 from by omega] at k4
    exact ⟨c0, k0, k1, k2, k3, k4, clast⟩
  · rintro ⟨c0, c1, c2, c3, c4, c5, clast⟩
    refine ⟨c0, ?_, clast⟩
    intro k hk
    interval_cases k
    · rw [show w + 1 + 0 = w + 1 from by omega]; exact c1
    · rw [show w + 1 + 1 = w + 2 from by omega]; exact c2
    · rw [show w + 1 + 2 = w + 3 from by omega]; exact c3
    · rw [show w + 1 + 3 = w + 4 from by omega]; exact c4
    · rw [show w + 1 + 4 = w + 5 from by omega]; exact c5

/-- Byte-level form of a byte-aligned occurrence. -/
theorem segment_iff_zero (m0 m1 m2 m3 m4 m5 : Nat)
    (hm0 : m0 < 256) (hm1 : m1 < 256) (hm2 : m2 < 256) (hm3 : m3 < 256)
    (hm4 : m4 < 256) (hm5 : m5 < 256)
    (input : List Nat) (hB : Bytes input) (w : Nat)
    (hlen : w + 6 ≤ input.length) :
    (((toBits input).drop (8 * w)).take 48 = toBits [m0, m1, m2, m3, m4, m5] ↔
      (input.getD w 0 = m0 ∧ input.getD (w + 1) 0 = m1 ∧
       input.getD (w + 2) 0 = m2 ∧ input.getD (w + 3) 0 = m3 ∧
       input.getD (w + 4) 0 = m4 ∧ input.getD (w + 5) 0 = m5)) := by
  have hM : Bytes [m0, m1, m2, m3, m4, m5] := by
    intro b hb; simp at hb; rcases hb with h | h | h | h | h | h <;> omega
  have hlen6 : ([m0, m1, m2, m3, m4, m5] : List Nat).length = 6 := rfl
  have htb : (toBits [m0, m1, m2, m3, m4, m5]).length ≤ 8 * 6 := by
    rw [length_toBits, hlen6]
  have h48 : toBits [m0, m1, m2, m3, m4, m5] =
      (toBits [m0, m1, m2, m3, m4, m5]).take (8 * 6) :=
    (List.take_of_length_le htb).symm
  rw [← toBits_drop, show (48 : Nat) = 8 * 6 from by norm_num, h48,
    bits_bytes_iff 6 (input.drop w) [m0, m1, m2, m3, m4, m5]
      (Bytes_drop _ hB) hM (by rw [List.length_drop]; omega) (by simp)]
  simp only [getD_drop]
  constructor
  · intro call
    have k0 := call 0 (by omega)
    have k1 := call 1 (by omega)
    have k2 := call 2 (by omega)
    have k3 := call 3 (by omega)
    have k4 := call 4 (by omega)
    have k5 := call 5 (by omega)
    rw [show w + 0 = w from by omega] at k0
    exact ⟨k0, k1, k2, k3, k4, k5⟩
  · rintro ⟨c0, c1, c2, c3, c4, c5⟩
    intro k hk
    interval_cases k
    · rw [show w + 0 = w from by omega]; exact c0
    · exact c1
    · exact c2
    · exact c3
    · exact c4
    · exact c5

/-- The occurrence predicate at bit `s ≥ 1` of byte `w`, in byte form. -/
theorem patternAt_iff_pos (m0 m1 m2 m3 m4 m5 : Nat)
    (hm0 : m0 < 256) (hm1 : m1 < 256) (hm2 : m2 < 256) (hm3 : m3 < 256)
    (hm4 : m4 < 256) (hm5 : m5 < 256)
    (input : List Nat) (hB : Bytes input) (w s : Nat) (hs1 : 1 ≤ s)
    (hs7 : s ≤ 7) :
    patternAt [m0, m1, m2, m3, m4, m5] input (8 * w + s) ↔
      (w + 7 ≤ input.length ∧
       input.getD w 0 % 2 ^ (8 - s) = m0 >>> s ∧
       input.getD (w + 1) 0 = sb m0 m1 s ∧
       input.getD (w + 2) 0 = sb m1 m2 s ∧
       input.getD (w + 3) 0 = sb m2 m3 s ∧
       input.getD (w + 4) 0 = sb m3 m4 s ∧
       input.getD (w + 5) 0 = sb m4 m5 s ∧
       input.getD (w + 6) 0 >>> (8 - s) = m5 % 2 ^ s) := by
  constructor
  · rintro ⟨hb, hseg⟩
    have hlen : w + 7 ≤ input.length := by omega
    exact ⟨hlen, (segment_iff_pos m0 m1 m2 m3 m4 m5 hm0 hm1 hm2 hm3 hm4 hm5
      input hB w s hs1 hs7 hlen).mp hseg⟩
  · rintro ⟨hlen, hrest⟩
    exact ⟨by omega, (segment_iff_pos m0 m1 m2 m3 m4 m5 hm0 hm1 hm2 hm3 hm4 hm5
      input hB w s hs1 hs7 hlen).mpr hrest⟩

/-- The occurrence predicate at bit 0 of byte `w`, in byte form. -/
theorem patternAt_iff_zero (m0 m1 m2 m3 m4 m5 : Nat)
    (hm0 : m0 < 256) (hm1 : m1 < 256) (hm2 : m2 < 256) (hm3 : m3 < 256)
    (hm4 : m4 < 256) (hm5 : m5 < 256)
    (input : List Nat) (hB : Bytes input) (w : Nat) :
    patternAt [m0, m1, m2, m3, m4, m5] input (8 * w) ↔
      (w + 6 ≤ input.length ∧
       input.getD w 0 = m0 ∧ input.getD (w + 1) 0 = m1 ∧
       input.getD (w + 2) 0 = m2 ∧ input.getD (w + 3) 0 = m3 ∧
       input.getD (w + 4) 0 = m4 ∧ input.getD (w + 5) 0 = m5) := by
  constructor
  · rintro ⟨hb, hseg⟩
    have hlen : w + 6 ≤ input.length := by omega
    exact ⟨hlen, (segment_iff_zero m0 m1 m2 m3 m4 m5 hm0 hm1 hm2 hm3 hm4 hm5
      input hB w hlen).mp hseg⟩
  · rintro ⟨hlen, hrest⟩
    exact ⟨by omega, (segment_iff_zero m0 m1 m2 m3 m4 m5 hm0 hm1 hm2 hm3 hm4
      hm5 input hB w hlen).mpr hrest⟩

/-! ### Lookup facts for the real block magic 31 41 59 26 53 59 -/

theorem Bytes_getD_any {l : List Nat} (hB : Bytes l) (i : Nat) :
    l.getD i 0 < 256 := by
  by_cases h : i < l.length
  · exact Bytes_getD hB h
  · rw [List.getD_eq_default _ _ (by omega)]
    omega

theorem or_shl_mod (c j n : Nat) (hc : c < 2 ^ n) :
    (c ||| (j <<< n)) % 2 ^ n = c := by
  rw [← Nat.and_pow_two_sub_one_eq_mod]
  exact or_shl_and_mask c j n hc

/-- Extracting the top `s` bits of a merged byte recovers the low `s`
bits of the left neighbour. -/
theorem sb_shr (hi lo s : Nat) (hlo : lo < 256) (hs : s ≤ 8) :
    (sb hi lo s) >>> (8 - s) = hi % 2 ^ s := by
  apply Nat.eq_of_testBit_eq
  intro k
  rw [Nat.testBit_shiftRight, Nat.testBit_mod_two_pow]
  by_cases hk : k < s
  · rw [sb_testBit hi lo s hlo hs (8 - s + k) (by omega),
      if_pos (by omega : 8 - s ≤ 8 - s + k),
      show 8 - s + k - (8 - s) = k from by omega]
    have h1 : decide (k < s) = true := by simpa using hk
    rw [h1]
    simp
  · rw [testBit_false_of_lt_256 (sb_lt_256 hi lo s hlo hs) (by omega)]
    have h1 : decide (k < s) = false := by simpa using hk
    rw [h1]
    simp

/-- Witness bytes `i`, `j` reconstructing a second-map key from the two
observed window bytes `x`, `y`. -/
theorem skey_witness (m5v x y s : Nat) (hx : x < 256) (hy : y < 256)
    (hs : s ≤ 7) (htop : x >>> (8 - s) = m5v % 2 ^ s) :
    (((x % 2 ^ (8 - s)) <<< s) ||| (y >>> (8 - s))) < 256 ∧
    ((y % 2 ^ (8 - s)) <<< s) < 256 ∧
    sb m5v (((x % 2 ^ (8 - s)) <<< s) ||| (y >>> (8 - s))) s = x ∧
    sb (((x % 2 ^ (8 - s)) <<< s) ||| (y >>> (8 - s)))
       ((y % 2 ^ (8 - s)) <<< s) s = y := by
  have h256 : (256 : Nat) = 2 ^ 8 := by norm_num
  have hilt : (((x % 2 ^ (8 - s)) <<< s) ||| (y >>> (8 - s))) < 256 := by
    rw [h256]
    apply Nat.or_lt_two_pow
    · rw [Nat.shiftLeft_eq]
      calc (x % 2 ^ (8 - s)) * 2 ^ s < 2 ^ (8 - s) * 2 ^ s := by
            apply Nat.mul_lt_mul_of_lt_of_le
            · exact Nat.mod_lt _ (Nat.pos_pow_of_pos _ (by omega))
            · exact le_refl _
            · exact Nat.pos_pow_of_pos _ (by omega)
        _ = 2 ^ 8 := by rw [← pow_add]; congr 1; omega
    · exact lt_of_le_of_lt
        (by rw [Nat.shiftRight_eq_div_pow]; exact Nat.div_le_self _ _)
        (h256 ▸ hy)
  have hjlt : ((y % 2 ^ (8 - s)) <<< s) < 256 := by
    rw [h256, Nat.shiftLeft_eq]
    calc (y % 2 ^ (8 - s)) * 2 ^ s < 2 ^ (8 - s) * 2 ^ s := by
          apply Nat.mul_lt_mul_of_lt_of_le
          · exact Nat.mod_lt _ (Nat.pos_pow_of_pos _ (by omega))
          · exact le_refl _
          · exact Nat.pos_pow_of_pos _ (by omega)
      _ = 2 ^ 8 := by rw [← pow_add]; congr 1; omega
  refine ⟨hilt, hjlt, ?_, ?_⟩
  · apply Nat.eq_of_testBit_eq
    intro k
    by_cases hk8 : k < 8
    · rw [sb_testBit _ _ s hilt (by omega) k hk8]
      by_cases hk : 8 - s ≤ k
      · have hxk := congrArg (fun t => t.testBit (k - (8 - s))) htop
        simp only [Nat.testBit_shiftRight, Nat.testBit_mod_two_pow] at hxk
        rw [show 8 - s + (k - (8 - s)) = k from by omega] at hxk
        rw [if_pos hk, hxk,
          show decide (k - (8 - s) < s) = true from by
            simp only [decide_eq_true_eq]; omega]
        simp
      · rw [if_neg hk, Nat.testBit_or, Nat.testBit_shiftLeft,
          Nat.testBit_shiftRight, Nat.testBit_mod_two_pow]
        rw [show decide (s ≤ s + k) = true from by
            simp only [decide_eq_true_eq]; omega,
          show s + k - s = k from by omega,
          show decide (k < 8 - s) = true from by
            simp only [decide_eq_true_eq]; omega,
          testBit_false_of_lt_256 hy (by omega : 8 ≤ 8 - s + (s + k))]
        simp
    · rw [testBit_false_of_lt_256 (sb_lt_256 _ _ s hilt (by omega)) (by omega),
        testBit_false_of_lt_256 hx (by omega)]
  · apply Nat.eq_of_testBit_eq
    intro k
    by_cases hk8 : k < 8
    · rw [sb_testBit _ _ s hjlt (by omega) k hk8]
      by_cases hk : 8 - s ≤ k
      · rw [if_pos hk, Nat.testBit_or, Nat.testBit_shiftLeft,
          Nat.testBit_shiftRight, Nat.testBit_mod_two_pow]
        rw [show decide (s ≤ k - (8 - s)) = false from by
            simp only [decide_eq_false_iff_not]; omega,
          show 8 - s + (k - (8 - s)) = k from by omega]
        simp
      · rw [if_neg hk, Nat.testBit_shiftLeft, Nat.testBit_mod_two_pow]
        rw [show decide (s ≤ s + k) = true from by
            simp only [decide_eq_true_eq]; omega,
          show s + k - s = k from by omega,
          show decide (k < 8 - s) = true from by
            simp only [decide_eq_true_eq]; omega]
        simp
    · rw [testBit_false_of_lt_256 (sb_lt_256 _ _ s hjlt (by omega)) (by omega),
        testBit_false_of_lt_256 hy (by omega)]

theorem drop_take_four (l : List Nat) (w : Nat) (h : w + 4 ≤ l.length) :
    (l.drop w).take 4 =
      [l.getD w 0, l.getD (w + 1) 0, l.getD (w + 2) 0, l.getD (w + 3) 0] := by
  rw [getD_cons_drop (show w < l.length from by omega),
    getD_cons_drop (show w + 1 < l.length from by omega),
    getD_cons_drop (show w + 2 < l.length from by omega),
    getD_cons_drop (show w + 3 < l.length from by omega)]
  rfl

theorem fkey_b0_lt (m0v j s : Nat) (hm : m0v < 256) (hj : j < 2 ^ s)
    (hs : s ≤ 8) :
    (m0v >>> s) ||| (j <<< (8 - s)) < 256 := by
  have h256 : (256 : Nat) = 2 ^ 8 := by norm_num
  rw [h256]
  apply Nat.or_lt_two_pow
  · exact lt_of_le_of_lt
      (by rw [Nat.shiftRight_eq_div_pow]; exact Nat.div_le_self _ _)
      (h256 ▸ hm)
  · rw [Nat.shiftLeft_eq]
    calc j * 2 ^ (8 - s) < 2 ^ s * 2 ^ (8 - s) := by
          apply Nat.mul_lt_mul_of_lt_of_le hj (le_refl _)
            (Nat.pos_pow_of_pos _ (by omega))
      _ = 2 ^ 8 := by rw [← pow_add]; congr 1; omega

theorem sb_m01_inj : ∀ s, s < 8 → ∀ s', s' < 8 →
    sb 49 65 s = sb 49 65 s' → s = s' := by decide

theorem sb_m34_inj : ∀ s, s < 8 → ∀ s', s' < 8 →
    sb 38 83 s = sb 38 83 s' → s = s' := by decide

theorem sb_m34_ne_zero : ∀ s, s < 8 → sb 38 83 s ≠ 0 := by decide

theorem m5_mod_pow_zero : ∀ s, s < 8 → 89 % 2 ^ s = 0 → s = 0 := by decide

/-- Completeness of the first-word map for the block magic. -/
theorem bzFirst_complete (s j : Nat) (hs : s ≤ 7) (hj : j < 2 ^ s) :
    firstWordMapOf 49 65 89 38 (fkey 49 65 89 38 s j) = some s := by
  apply firstWordMapOf_complete 49 65 89 38 (by norm_num) (by norm_num)
    (by norm_num) (by norm_num) s j hs hj
  intro s' j' hs' hj' he
  rw [fkey, fkey] at he
  have hb := leUint32_inj4 (fkey_b0_lt 49 j' s' (by norm_num) hj' (by omega))
    (sb_lt_256 _ _ _ (by norm_num) (by omega))
    (sb_lt_256 _ _ _ (by norm_num) (by omega))
    (sb_lt_256 _ _ _ (by norm_num) (by omega))
    (fkey_b0_lt 49 j s (by norm_num) hj (by omega))
    (sb_lt_256 _ _ _ (by norm_num) (by omega))
    (sb_lt_256 _ _ _ (by norm_num) (by omega))
    (sb_lt_256 _ _ _ (by norm_num) (by omega)) he
  exact sb_m01_inj s' (by omega) s (by omega) hb.2.1

/-- Completeness of the second-word map for the block magic. -/
theorem bzSecond_complete (i j s : Nat) (hi : i < 256) (hj : j < 256)
    (hs : s < 8) :
    secondWordMapOf 38 83 89 (skey 38 83 89 i j s) = some s := by
  apply secondWordMapOf_complete 38 83 89 i j s hi hj hs
  intro i' j' s' hi' hj' hs' he
  rw [skey_eq 38 83 89 i' j' s' (by norm_num) (by norm_num) (by norm_num) hi'
      hj' (by omega),
    skey_eq 38 83 89 i j s (by norm_num) (by norm_num) (by norm_num) hi hj
      (by omega)] at he
  have hb := leUint32_inj4
    (sb_lt_256 _ _ _ (by norm_num) (by omega))
    (sb_lt_256 _ _ _ (by norm_num) (by omega))
    (sb_lt_256 _ _ _ hi' (by omega)) (sb_lt_256 _ _ _ hj' (by omega))
    (sb_lt_256 _ _ _ (by norm_num) (by omega))
    (sb_lt_256 _ _ _ (by norm_num) (by omega))
    (sb_lt_256 _ _ _ hi (by omega)) (sb_lt_256 _ _ _ hj (by omega)) he
  exact sb_m34_inj s' (by omega) s (by omega) hb.1

/-- The zero key is unbound in the second-word map of the block magic
(relevant when `Scan` looks up an uninitialized `nv`). -/
theorem bzSecond_zero : secondWordMapOf 38 83 89 0 = none := by
  cases h : secondWordMapOf 38 83 89 0 with
  | none => rfl
  | some v =>
    exfalso
    rcases secondWordMapOf_sound 38 83 89 0 v h with ⟨i, j, hi, hj, hv, hk⟩
    rw [skey_eq 38 83 89 i j v (by norm_num) (by norm_num) (by norm_num) hi hj
      (by omega), leUint32_four] at hk
    have h1 : sb 38 83 v = 0 := by
      have b1 := sb_lt_256 38 83 v (by norm_num) (by omega)
      have b2 := sb_lt_256 83 89 v (by norm_num) (by omega)
      have b3 := sb_lt_256 89 i v hi (by omega)
      have b4 := sb_lt_256 i j v hj (by omega)
      omega
    exact sb_m34_ne_zero v (by omega) h1

/-- Byte form of an occurrence of the block magic at bit `s` of byte
`w`, uniform in `s ≤ 7`. -/
theorem occ_iff_bytes (input : List Nat) (hB : Bytes input) (w s : Nat)
    (hs : s ≤ 7) :
    patternAt blockMagic input (8 * w + s) ↔
      ((if s = 0 then w + 6 else w + 7) ≤ input.length ∧
       input.getD w 0 % 2 ^ (8 - s) = 49 >>> s ∧
       input.getD (w + 1) 0 = sb 49 65 s ∧
       input.getD (w + 2) 0 = sb 65 89 s ∧
       input.getD (w + 3) 0 = sb 89 38 s ∧
       input.getD (w + 4) 0 = sb 38 83 s ∧
       input.getD (w + 5) 0 = sb 83 89 s ∧
       input.getD (w + 6) 0 >>> (8 - s) = 89 % 2 ^ s) := by
  have hbm : blockMagic = [49, 65, 89, 38, 83, 89] := rfl
  by_cases hs0 : s = 0
  · subst hs0
    rw [hbm, show 8 * w + 0 = 8 * w from by omega,
      patternAt_iff_zero 49 65 89 38 83 89 (by norm_num) (by norm_num)
        (by norm_num) (by norm_num) (by norm_num) (by norm_num) input hB w,
      if_pos rfl]
    simp only [sb_zero]
    constructor
    · rintro ⟨hlen, c0, c1, c2, c3, c4, c5⟩
      refine ⟨hlen, ?_, c1, c2, c3, c4, c5, ?_⟩
      · rw [c0, Nat.shiftRight_zero, show (8 : Nat) - 0 = 8 from rfl,
          Nat.mod_eq_of_lt (by norm_num)]
      · rw [show (8 : Nat) - 0 = 8 from rfl, Nat.pow_zero, Nat.mod_one]
        have := Bytes_getD_any hB (w + 6)
        rw [Nat.shiftRight_eq_div_pow]
        apply Nat.div_eq_of_lt
        omega
    · rintro ⟨hlen, c0, c1, c2, c3, c4, c5, _⟩
      refine ⟨hlen, ?_, c1, c2, c3, c4, c5⟩
      rw [Nat.shiftRight_zero, show (8 : Nat) - 0 = 8 from rfl] at c0
      have := Bytes_getD_any hB w
      rw [← c0, Nat.mod_eq_of_lt (by omega)]
  · rw [hbm, patternAt_iff_pos 49 65 89 38 83 89 (by norm_num) (by norm_num)
      (by norm_num) (by norm_num) (by norm_num) (by norm_num) input hB w s
      (by omega) hs, if_neg hs0]

/-! ### Single steps of the scan loop -/

theorem scanLoop_step_exit (pretest : Nat → Bool)
    (first second : Nat → Option Nat) (input : List Nat) (fuel pos : Nat)
    (hil : pos + 4 > input.length) :
    scanLoop pretest first second input (fuel + 1) pos = (-1, -1) := by
  rw [scanLoop, if_pos hil]

theorem scanLoop_step_pretest (pretest : Nat → Bool)
    (first second : Nat → Option Nat) (input : List Nat) (fuel pos : Nat)
    (hil : ¬ pos + 4 > input.length)
    (hpt : pretest (input.getD pos 0) = false) :
    scanLoop pretest first second input (fuel + 1) pos =
      scanLoop pretest first second input fuel (pos + 1) := by
  rw [scanLoop, if_neg hil,
    if_pos (show ¬ pretest (input.getD pos 0) = true from by rw [hpt]; simp)]

theorem scanLoop_step_firstnone (pretest : Nat → Bool)
    (first second : Nat → Option Nat) (input : List Nat) (fuel pos : Nat)
    (hil : ¬ pos + 4 > input.length)
    (hpt : pretest (input.getD pos 0) = true)
    (hfm : first (leUint32 ((input.drop (pos - 1)).take 4)) = none) :
    scanLoop pretest first second input (fuel + 1) pos =
      scanLoop pretest first second input fuel (pos + 1) := by
  rw [scanLoop, if_neg hil, if_neg (not_not_intro hpt), hfm]

theorem scanLoop_step_secondnone (pretest : Nat → Bool)
    (first second : Nat → Option Nat) (input : List Nat)
    (fuel pos shift : Nat) (hil : ¬ pos + 4 > input.length)
    (hpt : pretest (input.getD pos 0) = true)
    (hfm : first (leUint32 ((input.drop (pos - 1)).take 4)) = some shift)
    (hsm : second (scanNV input (pos + 3)) = none) :
    scanLoop pretest first second input (fuel + 1) pos =
      scanLoop pretest first second input fuel (pos + 1) := by
  rw [scanLoop, if_neg hil, if_neg (not_not_intro hpt), hfm, hsm]

theorem scanLoop_step_mismatch (pretest : Nat → Bool)
    (first second : Nat → Option Nat) (input : List Nat)
    (fuel pos shift s : Nat) (hil : ¬ pos + 4 > input.length)
    (hpt : pretest (input.getD pos 0) = true)
    (hfm : first (leUint32 ((input.drop (pos - 1)).take 4)) = some shift)
    (hsm : second (scanNV input (pos + 3)) = some s) (hne : s ≠ shift) :
    scanLoop pretest first second input (fuel + 1) pos =
      scanLoop pretest first second input fuel (pos + 1) := by
  rw [scanLoop, if_neg hil, if_neg (not_not_intro hpt), hfm, hsm]
  show (if s ≠ shift then
      scanLoop pretest first second input fuel (pos + 1)
    else (Int.ofNat (pos - 1), Int.ofNat shift)) = _
  rw [if_pos hne]

theorem scanLoop_step_hit (pretest : Nat → Bool)
    (first second : Nat → Option Nat) (input : List Nat)
    (fuel pos shift : Nat) (hil : ¬ pos + 4 > input.length)
    (hpt : pretest (input.getD pos 0) = true)
    (hfm : first (leUint32 ((input.drop (pos - 1)).take 4)) = some shift)
    (hsm : second (scanNV input (pos + 3)) = some shift) :
    scanLoop pretest first second input (fuel + 1) pos =
      (Int.ofNat (pos - 1), Int.ofNat shift) := by
  rw [scanLoop, if_neg hil, if_neg (not_not_intro hpt), hfm, hsm]
  show (if shift ≠ shift then
      scanLoop pretest first second input fuel (pos + 1)
    else (Int.ofNat (pos - 1), Int.ofNat shift)) = _
  rw [if_neg (fun h => h rfl)]

/-! ### Occurrences drive the lookups, lookups certify occurrences -/

theorem occ_pretest (input : List Nat) (hB : Bytes input) (w s : Nat)
    (hs : s ≤ 7) (hocc : patternAt blockMagic input (8 * w + s)) :
    pretestOf 49 65 89 (input.getD (w + 1) 0) = true := by
  rcases (occ_iff_bytes input hB w s hs).mp hocc with ⟨-, -, c1, -, -, -, -, -⟩
  rw [c1]
  exact (pretestOf_iff 49 65 89 (by norm_num) (by norm_num) (by norm_num)
    (sb 49 65 s)).mpr ⟨s, by omega, rfl⟩

theorem occ_first (input : List Nat) (hB : Bytes input) (w s : Nat)
    (hs : s ≤ 7) (hocc : patternAt blockMagic input (8 * w + s)) :
    firstWordMapOf 49 65 89 38 (leUint32 ((input.drop w).take 4)) =
      some s := by
  rcases (occ_iff_bytes input hB w s hs).mp hocc with
    ⟨hlen, c0, c1, c2, c3, -, -, -⟩
  have hw4 : w + 4 ≤ input.length := by
    by_cases h : s = 0
    · rw [if_pos h] at hlen; omega
    · rw [if_neg h] at hlen; omega
  have hj : input.getD w 0 >>> (8 - s) < 2 ^ s := by
    have h := shr_lt_two_pow (input.getD w 0) (8 - s) (Bytes_getD_any hB w)
      (by omega)
    rwa [show 8 - (8 - s) = s from by omega] at h
  have hsplit := or_split_byte (input.getD w 0) (8 - s)
  rw [c0] at hsplit
  rw [drop_take_four input w hw4, c1, c2, c3,
    show leUint32 [input.getD w 0, sb 49 65 s, sb 65 89 s, sb 89 38 s] =
      fkey 49 65 89 38 s (input.getD w 0 >>> (8 - s)) from by
        rw [fkey, hsplit]]
  exact bzFirst_complete s _ hs hj

theorem occ_second (input : List Nat) (hB : Bytes input) (w s : Nat)
    (hs : s ≤ 7) (hocc : patternAt blockMagic input (8 * w + s)) :
    secondWordMapOf 38 83 89 (scanNV input (w + 4)) = some s := by
  rcases (occ_iff_bytes input hB w s hs).mp hocc with
    ⟨hlen, -, -, -, -, c4, c5, c6⟩
  have hlen6 : w + 6 ≤ input.length := by
    by_cases h : s = 0
    · rw [if_pos h] at hlen; omega
    · rw [if_neg h] at hlen; omega
  by_cases h2 : input.length - (w + 4) = 2
  · have hs0 : s = 0 := by
      rcases hocc with ⟨hb, -⟩
      omega
    subst hs0
    rw [scanNV, if_neg (by omega), if_pos h2,
      show w + 4 + 1 = w + 5 from by omega, c4, c5,
      show leUint32 [sb 38 83 0, sb 83 89 0, 0, 0] =
        skey 38 83 89 0 0 0 from by
          rw [skey_eq 38 83 89 0 0 0 (by norm_num) (by norm_num) (by norm_num)
            (by norm_num) (by norm_num) (by omega)]
          simp only [sb_zero]]
    exact bzSecond_complete 0 0 0 (by norm_num) (by norm_num) (by omega)
  · by_cases h3 : input.length - (w + 4) = 3
    · have hg7 : input.getD (w + 7) 0 = 0 :=
        List.getD_eq_default _ _ (by omega)
      obtain ⟨hi, hj, hsb1, hsb2⟩ := skey_witness 89 (input.getD (w + 6) 0) 0
        s (Bytes_getD_any hB _) (by norm_num) hs c6
      have hkey : skey 38 83 89
          (((input.getD (w + 6) 0 % 2 ^ (8 - s)) <<< s) ||| (0 >>> (8 - s)))
          ((0 % 2 ^ (8 - s)) <<< s) s =
          leUint32 [sb 38 83 s, sb 83 89 s, input.getD (w + 6) 0, 0] := by
        rw [skey_eq 38 83 89 _ _ s (by norm_num) (by norm_num) (by norm_num)
          hi hj (by omega), hsb1, hsb2]
      rw [scanNV, if_neg (by omega), if_neg h2, if_pos h3,
        show w + 4 + 1 = w + 5 from by omega,
        show w + 4 + 2 = w + 6 from by omega, c4, c5, ← hkey]
      exact bzSecond_complete _ _ s hi hj (by omega)
    · have hw8 : w + 8 ≤ input.length := by omega
      obtain ⟨hi, hj, hsb1, hsb2⟩ := skey_witness 89 (input.getD (w + 6) 0)
        (input.getD (w + 7) 0) s (Bytes_getD_any hB _) (Bytes_getD_any hB _)
        hs c6
      have hkey : skey 38 83 89
          (((input.getD (w + 6) 0 % 2 ^ (8 - s)) <<< s) |||
            (input.getD (w + 7) 0 >>> (8 - s)))
          ((input.getD (w + 7) 0 % 2 ^ (8 - s)) <<< s) s =
          leUint32 [sb 38 83 s, sb 83 89 s, input.getD (w + 6) 0,
            input.getD (w + 7) 0] := by
        rw [skey_eq 38 83 89 _ _ s (by norm_num) (by norm_num) (by norm_num)
          hi hj (by omega), hsb1, hsb2]
      rw [scanNV, if_neg (by omega), if_neg h2, if_neg h3,
        drop_take_four input (w + 4) (by omega),
        show w + 4 + 1 = w + 5 from by omega,
        show w + 4 + 2 = w + 6 from by omega,
        show w + 4 + 3 = w + 7 from by omega, c4, c5, ← hkey]
      exact bzSecond_complete _ _ s hi hj (by omega)

/-- A successful pair of lookups at byte `w` certifies an occurrence of
the block magic at bit `shift` of byte `w`. -/
theorem second_success_occ (input : List Nat) (hB : Bytes input)
    (w shift : Nat) (hw4 : w + 4 ≤ input.length)
    (hfst : firstWordMapOf 49 65 89 38
      (leUint32 ((input.drop w).take 4)) = some shift)
    (hsnd : secondWordMapOf 38 83 89 (scanNV input (w + 4)) = some shift) :
    shift ≤ 7 ∧ patternAt blockMagic input (8 * w + shift) := by
  rcases firstWordMapOf_sound 49 65 89 38 (by norm_num) (by norm_num)
    (by norm_num) (by norm_num) _ _ hfst with ⟨s, j, hs7, hj, rfl, hk⟩
  rw [drop_take_four input w hw4, fkey] at hk
  have hb := leUint32_inj4 (Bytes_getD_any hB w) (Bytes_getD_any hB (w + 1))
    (Bytes_getD_any hB (w + 2)) (Bytes_getD_any hB (w + 3))
    (fkey_b0_lt 49 j shift (by norm_num) hj (by omega))
    (sb_lt_256 _ _ _ (by norm_num) (by omega))
    (sb_lt_256 _ _ _ (by norm_num) (by omega))
    (sb_lt_256 _ _ _ (by norm_num) (by omega)) hk
  obtain ⟨b0, b1, b2, b3⟩ := hb
  have c0 : input.getD w 0 % 2 ^ (8 - shift) = 49 >>> shift := by
    rw [b0]
    exact or_shl_mod _ _ _ (shr_lt_two_pow 49 shift (by norm_num) (by omega))
  refine ⟨hs7, ?_⟩
  by_cases h01 : input.length - (w + 4) = 0 ∨ input.length - (w + 4) = 1
  · exfalso
    rw [scanNV, if_pos h01, bzSecond_zero] at hsnd
    exact Option.noConfusion hsnd
  · by_cases h2 : input.length - (w + 4) = 2
    · rw [scanNV, if_neg h01, if_pos h2,
        show w + 4 + 1 = w + 5 from by omega] at hsnd
      rcases secondWordMapOf_sound 38 83 89 _ _ hsnd with
        ⟨i, j2, hi, hj2, -, hk2⟩
      rw [skey_eq 38 83 89 i j2 shift (by norm_num) (by norm_num) (by norm_num)
        hi hj2 (by omega)] at hk2
      have hb2 := leUint32_inj4 (sb_lt_256 _ _ _ (by norm_num) (by omega))
        (sb_lt_256 _ _ _ (by norm_num) (by omega))
        (sb_lt_256 _ _ _ hi (by omega)) (sb_lt_256 _ _ _ hj2 (by omega))
        (Bytes_getD_any hB (w + 4)) (Bytes_getD_any hB (w + 5))
        (by norm_num) (by norm_num) hk2
      obtain ⟨e4, e5, e6, -⟩ := hb2
      have hm0 : 89 % 2 ^ shift = 0 := by
        have h := sb_shr 89 i shift hi (by omega)
        rw [e6] at h
        simpa using h.symm
      have hs0 : shift = 0 := m5_mod_pow_zero shift (by omega) hm0
      subst hs0
      rw [occ_iff_bytes input hB w 0 (by omega)]
      refine ⟨?_, c0, b1, b2, b3, e4.symm, e5.symm, ?_⟩
      · rw [if_pos rfl]; omega
      · rw [List.getD_eq_default _ _ (by omega)]
        decide
    · by_cases h3 : input.length - (w + 4) = 3
      · rw [scanNV, if_neg h01, if_neg h2, if_pos h3,
          show w + 4 + 1 = w + 5 from by omega,
          show w + 4 + 2 = w + 6 from by omega] at hsnd
        rcases secondWordMapOf_sound 38 83 89 _ _ hsnd with
          ⟨i, j2, hi, hj2, -, hk2⟩
        rw [skey_eq 38 83 89 i j2 shift (by norm_num) (by norm_num) (by norm_num)
          hi hj2 (by omega)] at hk2
        have hb2 := leUint32_inj4 (sb_lt_256 _ _ _ (by norm_num) (by omega))
          (sb_lt_256 _ _ _ (by norm_num) (by omega))
          (sb_lt_256 _ _ _ hi (by omega)) (sb_lt_256 _ _ _ hj2 (by omega))
          (Bytes_getD_any hB (w + 4)) (Bytes_getD_any hB (w + 5))
          (Bytes_getD_any hB (w + 6)) (by norm_num) hk2
        obtain ⟨e4, e5, e6, -⟩ := hb2
        rw [occ_iff_bytes input hB w shift (by omega)]
        refine ⟨?_, c0, b1, b2, b3, e4.symm, e5.symm, ?_⟩
        · by_cases hsz : shift = 0
          · rw [if_pos hsz]; omega
          · rw [if_neg hsz]; omega
        · rw [← e6, sb_shr 89 i shift hi (by omega)]
      · have hw8 : w + 8 ≤ input.length := by omega
        rw [scanNV, if_neg h01, if_neg h2, if_neg h3,
          drop_take_four input (w + 4) (by omega),
          show w + 4 + 1 = w + 5 from by omega,
          show w + 4 + 2 = w + 6 from by omega,
          show w + 4 + 3 = w + 7 from by omega] at hsnd
        rcases secondWordMapOf_sound 38 83 89 _ _ hsnd with
          ⟨i, j2, hi, hj2, -, hk2⟩
        rw [skey_eq 38 83 89 i j2 shift (by norm_num) (by norm_num) (by norm_num)
          hi hj2 (by omega)] at hk2
        have hb2 := leUint32_inj4 (sb_lt_256 _ _ _ (by norm_num) (by omega))
          (sb_lt_256 _ _ _ (by norm_num) (by omega))
          (sb_lt_256 _ _ _ hi (by omega)) (sb_lt_256 _ _ _ hj2 (by omega))
          (Bytes_getD_any hB (w + 4)) (Bytes_getD_any hB (w + 5))
          (Bytes_getD_any hB (w + 6)) (Bytes_getD_any hB (w + 7)) hk2
        obtain ⟨e4, e5, e6, -⟩ := hb2
        rw [occ_iff_bytes input hB w shift (by omega)]
        refine ⟨?_, c0, b1, b2, b3, e4.symm, e5.symm, ?_⟩
        · by_cases hsz : shift = 0
          · rw [if_pos hsz]; omega
          · rw [if_neg hsz]; omega
        · rw [← e6, sb_shr 89 i shift hi (by omega)]

/-! ### The scan loop, run to completion -/

/-- If the block magic occurs nowhere in `input`, every run of the scan
loop returns `(-1, -1)`. -/
theorem scanLoop_none (input : List Nat) (hB : Bytes input)
    (hno : ∀ p, ¬ patternAt blockMagic input p) :
    ∀ fuel pos, 1 ≤ pos →
      scanLoop (pretestOf 49 65 89) (firstWordMapOf 49 65 89 38)
        (secondWordMapOf 38 83 89) input fuel pos = (-1, -1) := by
  intro fuel
  induction fuel with
  | zero => intro pos _; rfl
  | succ fuel ih =>
    intro pos hpos
    by_cases hil : pos + 4 > input.length
    · exact scanLoop_step_exit _ _ _ _ _ _ hil
    · cases hpt : pretestOf 49 65 89 (input.getD pos 0) with
      | false =>
        rw [scanLoop_step_pretest _ _ _ _ _ _ hil hpt]
        exact ih (pos + 1) (by omega)
      | true =>
        cases hfm : firstWordMapOf 49 65 89 38
            (leUint32 ((input.drop (pos - 1)).take 4)) with
        | none =>
          rw [scanLoop_step_firstnone _ _ _ _ _ _ hil hpt hfm]
          exact ih (pos + 1) (by omega)
        | some shift =>
          cases hsm : secondWordMapOf 38 83 89 (scanNV input (pos + 3)) with
          | none =>
            rw [scanLoop_step_secondnone _ _ _ _ _ _ _ hil hpt hfm hsm]
            exact ih (pos + 1) (by omega)
          | some s =>
            by_cases hse : s = shift
            · exfalso
              subst hse
              have hocc := second_success_occ input hB (pos - 1) s
                (by omega) hfm
                (by rwa [show pos - 1 + 4 = pos + 3 from by omega])
              exact hno _ hocc.2
            · rw [scanLoop_step_mismatch _ _ _ _ _ _ _ _ hil hpt hfm hsm hse]
              exact ih (pos + 1) (by omega)

/-- If the earliest occurrence of the block magic is at bit `s0` of byte
`w0`, the scan loop entered at any `pos ≤ w0 + 1` with enough fuel
returns `(w0, s0)`. -/
theorem scanLoop_found (input : List Nat) (hB : Bytes input) (w0 s0 : Nat)
    (hs0 : s0 ≤ 7) (hocc : patternAt blockMagic input (8 * w0 + s0))
    (hmin : ∀ p, patternAt blockMagic input p → 8 * w0 + s0 ≤ p) :
    ∀ fuel pos, 1 ≤ pos → pos ≤ w0 + 1 → w0 + 1 < pos + fuel →
      scanLoop (pretestOf 49 65 89) (firstWordMapOf 49 65 89 38)
        (secondWordMapOf 38 83 89) input fuel pos =
        (Int.ofNat w0, Int.ofNat s0) := by
  have hlen6 : w0 + 6 ≤ input.length := by
    rcases hocc with ⟨hb, -⟩
    omega
  intro fuel
  induction fuel with
  | zero => intro pos _ h1 h2; omega
  | succ fuel ih =>
    intro pos hpos hple hfuel
    have hil : ¬ pos + 4 > input.length := by omega
    by_cases hpw : pos = w0 + 1
    · subst hpw
      rw [scanLoop_step_hit _ _ _ _ _ _ _ hil
        (occ_pretest input hB w0 s0 hs0 hocc)
        (by rw [show w0 + 1 - 1 = w0 from by omega]
            exact occ_first input hB w0 s0 hs0 hocc)
        (by rw [show w0 + 1 + 3 = w0 + 4 from by omega]
            exact occ_second input hB w0 s0 hs0 hocc)]
      rw [show w0 + 1 - 1 = w0 from by omega]
    · have hlt : pos < w0 + 1 := by omega
      have hih : scanLoop (pretestOf 49 65 89) (firstWordMapOf 49 65 89 38)
          (secondWordMapOf 38 83 89) input fuel (pos + 1) =
          (Int.ofNat w0, Int.ofNat s0) :=
        ih (pos + 1) (by omega) (by omega) (by omega)
      cases hpt : pretestOf 49 65 89 (input.getD pos 0) with
      | false => rw [scanLoop_step_pretest _ _ _ _ _ _ hil hpt]; exact hih
      | true =>
        cases hfm : firstWordMapOf 49 65 89 38
            (leUint32 ((input.drop (pos - 1)).take 4)) with
        | none =>
          rw [scanLoop_step_firstnone _ _ _ _ _ _ hil hpt hfm]
          exact hih
        | some shift =>
          cases hsm : secondWordMapOf 38 83 89 (scanNV input (pos + 3)) with
          | none =>
            rw [scanLoop_step_secondnone _ _ _ _ _ _ _ hil hpt hfm hsm]
            exact hih
          | some s =>
            by_cases hse : s = shift
            · exfalso
              subst hse
              have hocc2 := second_success_occ input hB (pos - 1) s
                (by omega) hfm
                (by rwa [show pos - 1 + 4 = pos + 3 from by omega])
              have := hmin _ hocc2.2
              have hs7 := hocc2.1
              omega
            · rw [scanLoop_step_mismatch _ _ _ _ _ _ _ _ hil hpt hfm hsm hse]
              exact hih

/-- C3 (amended): for every byte input and the tables built by `Init`
over the bzip2 block magic, if the 48-bit magic occurs in the input
bitstream then `Scan` returns `(q / 8, q % 8)` for the smallest bit
position `q` of an occurrence, and if it does not occur `Scan` returns
`(-1, -1)`. (The claim as stated over an arbitrary 6-byte magic is
false; see the counterexample.) -/
theorem C3_scan (input : List Nat) (hB : Bytes input) :
    ((∃ p, patternAt blockMagic input p) →
      ∃ q, patternAt blockMagic input q ∧
        (∀ r, patternAt blockMagic input r → q ≤ r) ∧
        Scan (Init blockMagic).1 (Init blockMagic).2.1 (Init blockMagic).2.2
          input = (Int.ofNat (q / 8), Int.ofNat (q % 8))) ∧
    ((∀ p, ¬ patternAt blockMagic input p) →
      Scan (Init blockMagic).1 (Init blockMagic).2.1 (Init blockMagic).2.2
        input = (-1, -1)) := by
  constructor
  · intro hex
    have hq := Nat.find_spec hex
    have hqmin : ∀ r, patternAt blockMagic input r → Nat.find hex ≤ r :=
      fun r hr => Nat.find_min' hex hr
    have hdecomp : 8 * (Nat.find hex / 8) + Nat.find hex % 8 =
        Nat.find hex := by omega
    have hs7 : Nat.find hex % 8 ≤ 7 := by omega
    have hocc : patternAt blockMagic input
        (8 * (Nat.find hex / 8) + Nat.find hex % 8) := by
      rw [hdecomp]; exact hq
    have hmin' : ∀ r, patternAt blockMagic input r →
        8 * (Nat.find hex / 8) + Nat.find hex % 8 ≤ r := by
      intro r hr
      rw [hdecomp]
      exact hqmin r hr
    refine ⟨Nat.find hex, hq, hqmin, ?_⟩
    exact scanLoop_found input hB (Nat.find hex / 8) (Nat.find hex % 8) hs7
      hocc hmin' (input.length + 1) 1 (by omega) (by omega)
      (by have hlen := hocc.1; omega)
  · intro hno
    exact scanLoop_none input hB hno (input.length + 1) 1 (by omega)

/-- The unique binding of the key `1` in the second-word map of the
degenerate magic `[0, 0, 0, 0, 1, 0]`: only `(i, j, s) = (0, 0, 0)`
writes it, with value `0`. -/
theorem secondZeroMagic_one : secondWordMapOf 0 1 0 1 = some 0 := by
  have hk : skey 0 1 0 0 0 0 = 1 := by decide
  have key1 : ∀ t, t < 8 → sb 0 1 t = 1 → t = 0 := by decide
  have huniq : ∀ i' j' s', i' < 256 → j' < 256 → s' < 8 →
      skey 0 1 0 i' j' s' = skey 0 1 0 0 0 0 → s' = 0 := by
    intro i' j' s' hi' hj' hs' he
    rw [hk, skey_eq 0 1 0 i' j' s' (by norm_num) (by norm_num) (by norm_num)
      hi' hj' (by omega)] at he
    have he' : leUint32 [sb 0 1 s', sb 1 0 s', sb 0 i' s', sb i' j' s'] =
        leUint32 [1, 0, 0, 0] := by rw [he]; rfl
    have hb := leUint32_inj4 (sb_lt_256 _ _ _ (by norm_num) (by omega))
      (sb_lt_256 _ _ _ (by norm_num) (by omega))
      (sb_lt_256 _ _ _ hi' (by omega)) (sb_lt_256 _ _ _ hj' (by omega))
      (by norm_num) (by norm_num) (by norm_num) (by norm_num) he'
    exact key1 s' hs' hb.1
  have h := secondWordMapOf_complete 0 1 0 0 0 0 (by norm_num) (by norm_num)
    (by norm_num) huniq
  rwa [hk] at h

/-- C3, counterexample to the claim over an arbitrary 6-byte magic: for
the magic `[0, 0, 0, 0, 1, 0]` and the input equal to that magic, the
48-bit pattern occurs at bit position 0, yet `Scan` over the tables
built by `Init` returns `(-1, -1)`: the first-word map collapses the
keys of all eight shifts of the zero-prefixed magic onto key 0, so the
lookup reports shift 7 and the `s == shift` cross-check rejects the
true match at shift 0. -/
theorem C3_counterexample :
    patternAt [0, 0, 0, 0, 1, 0] [0, 0, 0, 0, 1, 0] 0 ∧
    Scan (Init [0, 0, 0, 0, 1, 0]).1 (Init [0, 0, 0, 0, 1, 0]).2.1
      (Init [0, 0, 0, 0, 1, 0]).2.2 [0, 0, 0, 0, 1, 0] = (-1, -1) := by
  refine ⟨by decide, ?_⟩
  exact (scanLoop_step_mismatch (pretestOf 0 0 0) (firstWordMapOf 0 0 0 0)
      (secondWordMapOf 0 1 0) [0, 0, 0, 0, 1, 0] 6 1 7 0 (by decide)
      (by decide) (by decide) secondZeroMagic_one (by decide)).trans
    ((scanLoop_step_firstnone (pretestOf 0 0 0) (firstWordMapOf 0 0 0 0)
      (secondWordMapOf 0 1 0) [0, 0, 0, 0, 1, 0] 5 2 (by decide)
      (by decide) (by decide)).trans
    (scanLoop_step_exit (pretestOf 0 0 0) (firstWordMapOf 0 0 0 0)
      (secondWordMapOf 0 1 0) [0, 0, 0, 0, 1, 0] 4 3 (by decide)))

/-- C3, witness: the amended theorem applied to the input consisting of
the block magic itself, where the earliest occurrence is at bit 0. -/
theorem C3_witness :
    Bytes blockMagic ∧
    (((∃ p, patternAt blockMagic blockMagic p) →
      ∃ q, patternAt blockMagic blockMagic q ∧
        (∀ r, patternAt blockMagic blockMagic r → q ≤ r) ∧
        Scan (Init blockMagic).1 (Init blockMagic).2.1 (Init blockMagic).2.2
          blockMagic = (Int.ofNat (q / 8), Int.ofNat (q % 8))) ∧
    ((∀ p, ¬ patternAt blockMagic blockMagic p) →
      Scan (Init blockMagic).1 (Init blockMagic).2.1 (Init blockMagic).2.2
        blockMagic = (-1, -1))) :=
  ⟨by unfold Bytes blockMagic; decide,
   C3_scan blockMagic (by unfold Bytes blockMagic; decide)⟩

end Pbzip2
